import Mathlib

/-!
# PracticePilot — formal verification of the context-merge / cache / action core

This file is a shallow embedding, in Lean 4, of the stateful core of the
PracticePilot repository:

* `src/shared/patient-context.js` — the patient-context merge engine
  (`scanAndMerge`, `_mergeFromLLM`, `_deepMerge`, `_regexFallback`, `save`);
* `src/shared/action-engine.js` — the rule-based action engine (`generate`,
  `_checkCodeCoverage`) and the LLM context extractor
  (`extract`, `_hashText`, `_cacheResult`, `clearCache`);
* `src/shared/storage.js` — the benefit-card cache (`cacheCard`, `_cacheKey`);
* `src/shared/cdt-codes.js` — the CDT code reference (`lookup`, `getCoverage`);
* the side-panel scan loop (`scanPatientAndShowActions`) with its
  `isScanning` / `pendingScanText` concurrency guard.

JavaScript values flowing through the merge engine are modelled by the `Json`
inductive below; JS objects are association lists in insertion order (JS
string-keyed objects preserve insertion order, which the eviction code relies
on).  External collaborators are modelled as explicit parameters: the LLM call
is an oracle function, the identity extractor (`_extractPatientName`, which the
spec declares as a leaf collaborator interface) is a parameter, and the wall
clock is an explicit argument.  SHA-256 (`crypto.subtle.digest`) is idealised
as an injective digest, so a digest is modelled by the normalised text itself.
-/

set_option autoImplicit false

namespace PracticePilot

/-! ## Association lists

JS objects and `Map`s are modelled as association lists in insertion order:
property lookup returns the first binding, assignment overwrites the first
binding in place (JS objects and Maps keep the original position of an
existing key) or appends a new binding. -/

/-- JS property lookup `o[k]` (`none` = absent/`undefined`). -/
def alookup {α : Type} : List (String × α) → String → Option α
  | [], _ => none
  | (k', v) :: rest, k => if k' = k then some v else alookup rest k

/-- JS property assignment `o[k] = v`. -/
def aset {α : Type} : List (String × α) → String → α → List (String × α)
  | [], k, v => [(k, v)]
  | (k', v') :: rest, k, v =>
      if k' = k then (k, v) :: rest else (k', v') :: aset rest k v

/-- `delete o[k]` for every `k` in `ks`. -/
def aremoveAll {α : Type} (l : List (String × α)) (ks : List String) :
    List (String × α) :=
  l.filter fun e => ¬ ks.contains e.1

/-! ## JavaScript values

`Json.null` doubles for JS `null`/`undefined` where the code treats them the
same (`value === null || value === undefined` in `_deepMerge`); a key that is
absent from an object is simply absent from the association list. -/

inductive Json where
  | null : Json
  | bool : Bool → Json
  | num : Int → Json
  | str : String → Json
  | arr : List Json → Json
  | obj : List (String × Json) → Json

namespace Json

/-- First binding of key `k` in an association list (JS property lookup). -/
def jLookup : List (String × Json) → String → Option Json
  | [], _ => none
  | (k', v) :: rest, k => if k' = k then some v else jLookup rest k

/-- JS property assignment `o[k] = v`: overwrite the first binding of `k`
(keeping its position, as JS objects do) or append a new binding. -/
def jSet : List (String × Json) → String → Json → List (String × Json)
  | [], k, v => [(k, v)]
  | (k', v') :: rest, k, v =>
      if k' = k then (k, v) :: rest else (k', v') :: jSet rest k v

/-- JS truthiness of a value. -/
def truthy : Json → Bool
  | .null => false
  | .bool b => b
  | .num n => n ≠ 0
  | .str s => s ≠ ""
  | .arr _ => true
  | .obj _ => true

/-- `typeof v === "object" && v !== null`: true for objects and arrays. -/
def isObjLike : Json → Bool
  | .obj _ => true
  | .arr _ => true
  | _ => false

/-- Entries of `{...v}` / `Object.entries(v)`: an object's own entries, an
array's elements under the keys `"0"`, `"1"`, …; primitives contribute no
entries.  (`Object.entries` of a string would yield its characters; the merge
code never spreads a string, because the recursion guard requires an object.)
-/
def entriesJS : Json → List (String × Json)
  | .obj kvs => kvs
  | .arr xs => (xs.enum.map fun p => (toString p.1, p.2))
  | _ => []

end Json

open Json

/-! ## `_deepMerge` (src/shared/patient-context.js, lines 112–123)

```js
_deepMerge(target, source) {
  const result = { ...target };
  for (const [key, value] of Object.entries(source)) {
    if (value === null || value === undefined) continue;
    if (typeof value === "object" && !Array.isArray(value)
        && typeof result[key] === "object" && result[key] !== null) {
      result[key] = this._deepMerge(result[key], value);
    } else {
      result[key] = value;
    }
  }
  return result;
}
```
`mergeInto acc src` folds the entries `src` of the source into the accumulated
object `acc`. -/

def mergeInto : List (String × Json) → List (String × Json) → List (String × Json)
  | acc, [] => acc
  | acc, (k, v) :: rest =>
    match v with
    | .null => mergeInto acc rest
    | .obj svs =>
        (match jLookup acc k with
         | some t =>
             if t.isObjLike then
               mergeInto (jSet acc k (Json.obj (mergeInto (entriesJS t) svs))) rest
             else
               mergeInto (jSet acc k (Json.obj svs)) rest
         | none => mergeInto (jSet acc k (Json.obj svs)) rest)
    | _ => mergeInto (jSet acc k v) rest
  termination_by _ src => sizeOf src
  decreasing_by
    all_goals
      simp only [List.cons.sizeOf_spec, Prod.mk.sizeOf_spec, Json.obj.sizeOf_spec]
      omega

/-- `_deepMerge(target, source)`. -/
def deepMerge (target source : Json) : Json :=
  Json.obj (mergeInto (entriesJS target) (entriesJS source))

/-- Path lookup through nested JS objects: `getPath v [k₁, …, kₙ]` is the value
of `v.k₁.….kₙ`, or `none` when some step is missing or not an object. -/
def getPath : Json → List String → Option Json
  | v, [] => some v
  | .obj kvs, k :: ps =>
      match jLookup kvs k with
      | some v => getPath v ps
      | none => none
  | _, _ :: _ => none

/-- The leaf at path `p` exists and is not `null`/`undefined`. -/
def nonNullAt (v : Json) (p : List String) : Bool :=
  match getPath v p with
  | some Json.null => false
  | some _ => true
  | none => false

/-- `srcOkB s p`: the observation `s` does not overwrite a *strict ancestor*
of the path `p` with a non-object value — along the strict ancestors of `p`,
every entry of `s` is either `null` (skipped by `_deepMerge`) or an object
that is again well-behaved.  The entry at the full path `p` itself is
unconstrained: writing `null` there is skipped by the merge, and writing any
non-null value keeps the leaf non-null. -/
def srcOkB : Json → List String → Bool
  | _, [] => true
  | _, [_] => true
  | s, k :: ps =>
      (entriesJS s).all fun e =>
        if e.1 = k then
          match e.2 with
          | Json.null => true
          | Json.obj _ => srcOkB e.2 ps
          | _ => false
        else true

/-! ## `_hashText` normalisation (src/shared/action-engine.js, lines 311–327)

```js
const normalized = text
  .replace(/\d{1,2}:\d{2}\s*(?:AM|PM|am|pm)/g, "TIME")
  .replace(/\d{1,2}\/\d{1,2}\/\d{2,4}/g, "DATE")
  .replace(/\s+/g, " ")
  .trim()
  .toLowerCase();
// ... SHA-256 of `normalized`
```

The regex matchers below implement exactly these three patterns with
JavaScript's leftmost-match, greedy-with-backtracking semantics.  SHA-256 is
idealised as an injective digest, so `hashText` returns the normalised text
itself: two texts get the same digest iff they normalise identically. -/

/-- JS `\s` (ASCII range; the code's inputs are page text). -/
def jsWs (c : Char) : Bool :=
  c = ' ' ∨ c = '\t' ∨ c = '\n' ∨ c = '\r' ∨ c = '\x0b' ∨ c = '\x0c'

/-- Greedy `\s*`. -/
def skipWsL (l : List Char) : List Char := l.dropWhile jsWs

/-- `(?:AM|PM|am|pm)` (exactly these four alternatives). -/
def matchAmPm : List Char → Option (List Char)
  | c1 :: c2 :: rest =>
      if (c1 = 'A' ∧ c2 = 'M') ∨ (c1 = 'P' ∧ c2 = 'M')
          ∨ (c1 = 'a' ∧ c2 = 'm') ∨ (c1 = 'p' ∧ c2 = 'm') then some rest
      else none
  | _ => none

/-- `\d{2}\s*(?:AM|PM|am|pm)` — minutes then meridiem.  `\s*` is greedy and
never needs to backtrack because the meridiem letters are not whitespace. -/
def matchMinAmPm : List Char → Option (List Char)
  | d1 :: d2 :: rest =>
      if d1.isDigit ∧ d2.isDigit then matchAmPm (skipWsL rest) else none
  | _ => none

/-- `\d{1,2}:\d{2}\s*(?:AM|PM|am|pm)`.  The hour is greedy (two digits tried
first); if two digits are not followed by `:` the one-digit alternative
requires the second character to be `:`, so the branches are disjoint. -/
def matchTime : List Char → Option (List Char)
  | c1 :: c2 :: rest =>
      if c1.isDigit ∧ c2 = ':' then matchMinAmPm rest
      else if c1.isDigit ∧ c2.isDigit then
        match rest with
        | ':' :: rest2 => matchMinAmPm rest2
        | _ => none
      else none
  | _ => none

/-- `\d{1,2}\/` — a date component followed by a slash. -/
def matchSlashNum : List Char → Option (List Char)
  | c1 :: c2 :: rest =>
      if c1.isDigit ∧ c2 = '/' then some rest
      else if c1.isDigit ∧ c2.isDigit then
        match rest with
        | '/' :: rest2 => some rest2
        | _ => none
      else none
  | _ => none

/-- `\d{2,4}` — greedy year with nothing after it in the pattern. -/
def matchYear : List Char → Option (List Char)
  | c1 :: c2 :: rest =>
      if c1.isDigit ∧ c2.isDigit then
        match rest with
        | c3 :: rest3 =>
            if c3.isDigit then
              match rest3 with
              | c4 :: rest4 => if c4.isDigit then some rest4 else some rest3
              | [] => some []
            else some rest
        | [] => some []
      else none
  | _ => none

/-- `\d{1,2}\/\d{1,2}\/\d{2,4}`. -/
def matchDate (l : List Char) : Option (List Char) :=
  (matchSlashNum l).bind fun r1 => (matchSlashNum r1).bind matchYear

/-- Global replace of time matches by `TIME`, scanning left to right without
rescanning replaced text.  `fuel` bounds the number of steps; every step
consumes at least one character, so `fuel = l.length` computes the exact
global-replace semantics (see `replTimes_fuel_irrel`). -/
def replTimes : Nat → List Char → List Char
  | 0, l => l
  | _ + 1, [] => []
  | fuel + 1, c :: cs =>
      match matchTime (c :: cs) with
      | some rem => 'T' :: 'I' :: 'M' :: 'E' :: replTimes fuel rem
      | none => c :: replTimes fuel cs

/-- Global replace of date matches by `DATE`. -/
def replDates : Nat → List Char → List Char
  | 0, l => l
  | _ + 1, [] => []
  | fuel + 1, c :: cs =>
      match matchDate (c :: cs) with
      | some rem => 'D' :: 'A' :: 'T' :: 'E' :: replDates fuel rem
      | none => c :: replDates fuel cs

/-- `.replace(/\s+/g, " ")`: collapse every whitespace run to one space.
The flag records whether the previous character was part of a run. -/
def collapseWsGo : Bool → List Char → List Char
  | _, [] => []
  | prevWs, c :: cs =>
      if jsWs c then
        if prevWs then collapseWsGo true cs else ' ' :: collapseWsGo true cs
      else c :: collapseWsGo false cs

/-- `.trim()`. -/
def trimChars (l : List Char) : List Char :=
  ((l.dropWhile jsWs).reverse.dropWhile jsWs).reverse

/-- JS `s.trim()` on strings (trims the `\s` class, like JS and unlike
Lean's `String.trim`). -/
def jsTrim (s : String) : String := ⟨trimChars s.data⟩

/-- JS `s.toLowerCase()` (ASCII, as throughout this embedding). -/
def toLowerJS (s : String) : String := ⟨s.data.map Char.toLower⟩

/-- The full normalisation pipeline of `_hashText`. -/
def normalizeText (s : String) : String :=
  let t1 := replTimes s.data.length s.data
  let t2 := replDates t1.length t1
  let t3 := trimChars (collapseWsGo false t2)
  ⟨t3.map Char.toLower⟩

/-- `_hashText`, with SHA-256 idealised as an injective digest of the
normalised text. -/
def hashText (s : String) : String := normalizeText s

/-! ### Token templates for the hash-stability analysis

A text is decomposed into *pieces*: literal segments shared between two
versions of a page, and clock-time / calendar-date tokens (the content the
normalisation erases).  `wfPieces` states the delimiting conditions under
which the global replaces hit exactly the tokens: shared literals carry no
digits, and a date token is followed by end-of-text or a literal opening
with a non-colon character (a digit right before a token, or a colon/digit
right after a date, lets a match fuse across the boundary — see the C5
counterexample). -/

/-- A clock-time token `\d{1,2}:\d{2}\s*(?:AM|PM|am|pm)`:
hour digits, minutes, whitespace run, meridiem pair. -/
structure TimeTok where
  hd : List Char
  m1 : Char
  m2 : Char
  ws : List Char
  mer1 : Char
  mer2 : Char

def TimeTok.render (t : TimeTok) : List Char :=
  t.hd ++ ':' :: t.m1 :: t.m2 :: (t.ws ++ [t.mer1, t.mer2])

def TimeTok.okB (t : TimeTok) : Bool :=
  (t.hd.length == 1 || t.hd.length == 2) && t.hd.all Char.isDigit
    && t.m1.isDigit && t.m2.isDigit && t.ws.all jsWs
    && ((t.mer1 == 'A' && t.mer2 == 'M') || (t.mer1 == 'P' && t.mer2 == 'M')
        || (t.mer1 == 'a' && t.mer2 == 'm') || (t.mer1 == 'p' && t.mer2 == 'm'))

/-- A calendar-date token `\d{1,2}\/\d{1,2}\/\d{2,4}`. -/
structure DateTok where
  d1 : List Char
  d2 : List Char
  y : List Char

def DateTok.render (d : DateTok) : List Char :=
  d.d1 ++ '/' :: (d.d2 ++ '/' :: d.y)

def DateTok.okB (d : DateTok) : Bool :=
  (d.d1.length == 1 || d.d1.length == 2) && d.d1.all Char.isDigit
    && (d.d2.length == 1 || d.d2.length == 2) && d.d2.all Char.isDigit
    && (d.y.length == 2 || d.y.length == 3 || d.y.length == 4)
    && d.y.all Char.isDigit

inductive Piece where
  | lit : List Char → Piece
  | time : TimeTok → Piece
  | date : DateTok → Piece

def renderPieces : List Piece → List Char
  | [] => []
  | .lit l :: ps => l ++ renderPieces ps
  | .time t :: ps => t.render ++ renderPieces ps
  | .date d :: ps => d.render ++ renderPieces ps

def noDigits (l : List Char) : Bool := l.all fun c => ! c.isDigit

/-- What may follow a date token: end of text, or a literal opening with a
non-colon character (its non-digit-ness comes from `noDigits`). -/
def dateSepOk : List Piece → Bool
  | [] => true
  | .lit (c :: _) :: _ => c != ':'
  | _ => false

/-- Delimiting conditions under which the two global replaces erase exactly
the tokens. -/
def wfPieces : List Piece → Bool
  | [] => true
  | .lit l :: ps => noDigits l && wfPieces ps
  | .time t :: ps => t.okB && wfPieces ps
  | .date d :: ps => d.okB && dateSepOk ps && wfPieces ps

/-- The time pass replaces each clock-time token with the literal `TIME`. -/
def pass1 : List Piece → List Piece
  | [] => []
  | .lit l :: ps => .lit l :: pass1 ps
  | .time _ :: ps => .lit ['T', 'I', 'M', 'E'] :: pass1 ps
  | .date d :: ps => .date d :: pass1 ps

/-- The date pass replaces each calendar-date token with the literal
`DATE`. -/
def pass2 : List Piece → List Piece
  | [] => []
  | .lit l :: ps => .lit l :: pass2 ps
  | .time t :: ps => .time t :: pass2 ps
  | .date _ :: ps => .lit ['D', 'A', 'T', 'E'] :: pass2 ps

/-- The token-independent skeleton of a template: every token slot holds its
placeholder. -/
def skeleton : List Piece → List Piece
  | [] => []
  | .lit l :: ps => .lit l :: skeleton ps
  | .time _ :: ps => .lit ['T', 'I', 'M', 'E'] :: skeleton ps
  | .date _ :: ps => .lit ['D', 'A', 'T', 'E'] :: skeleton ps

/-- No time pieces remain (true of every `pass1` output). -/
def noTimes : List Piece → Bool
  | [] => true
  | .time _ :: _ => false
  | _ :: ps => noTimes ps

/-! ## Patient context (src/shared/patient-context.js)

`_emptyContext` (lines 271–288) fixes the shape; timestamps
(`new Date().toISOString()`) are modelled as naturals (ISO-8601 strings
compare chronologically), threaded in as an explicit `now`. -/

structure Ctx where
  patientName : String
  profile : Json
  insurance : Json
  billing : Json
  recare : Json
  charting : Json
  forms : Json
  claims : Json
  todayAppt : Json
  perio : Json
  appointments : Json
  tabsScanned : List String
  lastUpdated : Option Nat
  createdAt : Nat
  lastHash : Option String
  fromCache : Option Bool

/-- `_emptyContext(patientName)`. -/
def emptyContext (name : String) (now : Nat) : Ctx where
  patientName := name
  profile := Json.obj []
  insurance := Json.obj []
  billing := Json.obj []
  recare := Json.obj []
  charting := Json.obj []
  forms := Json.obj [("completed", Json.arr []), ("hasPendingForms", Json.bool false)]
  claims := Json.obj []
  todayAppt := Json.null
  perio := Json.obj []
  appointments := Json.obj []
  tabsScanned := []
  lastUpdated := none
  createdAt := now
  lastHash := none
  fromCache := none

/-- The section names iterated by the `_mergeFromLLM` deep-merge loop
(patient-context.js line 59). -/
def MERGE_SECTIONS : List String :=
  ["profile", "insurance", "billing", "recare", "charting", "perio", "appointments"]

/-- `ctx[section]` for the merge loop's section names. -/
def Ctx.getSection (c : Ctx) (n : String) : Json :=
  if n = "profile" then c.profile
  else if n = "insurance" then c.insurance
  else if n = "billing" then c.billing
  else if n = "recare" then c.recare
  else if n = "charting" then c.charting
  else if n = "perio" then c.perio
  else if n = "appointments" then c.appointments
  else Json.null

/-- `ctx[section] = v` for the merge loop's section names. -/
def Ctx.setSection (c : Ctx) (n : String) (v : Json) : Ctx :=
  if n = "profile" then { c with profile := v }
  else if n = "insurance" then { c with insurance := v }
  else if n = "billing" then { c with billing := v }
  else if n = "recare" then { c with recare := v }
  else if n = "charting" then { c with charting := v }
  else if n = "perio" then { c with perio := v }
  else if n = "appointments" then { c with appointments := v }
  else c

/-- Result of `llmContextExtractor.extract` (action-engine.js lines 382–389):
`sectionsDetected` is always an array there (`parsed.sectionsDetected || []`),
so the `|| llmResult.context?.sectionsDetected` fallback of
patient-context.js line 82 never fires (JS arrays, even empty, are truthy). -/
structure LLMResult where
  patientName : String
  context : Json
  actions : Json
  sectionsDetected : List String
  hash : String
  fromCache : Bool

/-- JS `v.length` as used in `sections.forms.completed?.length`. -/
def dotLength : Json → Json
  | .arr xs => Json.num xs.length
  | .str s => Json.num s.length
  | .obj kvs => (jLookup kvs "length").getD Json.null
  | _ => Json.null

/-- One iteration of the `_mergeFromLLM` section loop (lines 59–63):
`if (sections[section]) ctx[section] = this._deepMerge(ctx[section] || {}, sections[section])`. -/
def mergeSectionInto (sections : Json) (c : Ctx) (name : String) : Ctx :=
  match jLookup (entriesJS sections) name with
  | some v =>
      if truthy v then
        c.setSection name
          (deepMerge (if truthy (c.getSection name) then c.getSection name else Json.obj []) v)
      else c
  | none => c

/-- The forms merge of `_mergeFromLLM` (lines 66–73).  JSON-parsed data never
contains an explicit `undefined`, so `!== undefined` is "the key is present". -/
def applyForms (sections : Json) (c : Ctx) : Ctx :=
  match jLookup (entriesJS sections) "forms" with
  | some f =>
      if truthy f then
        let c1 :=
          match jLookup (entriesJS f) "completed" with
          | some comp =>
              if truthy (dotLength comp) then
                { c with forms := Json.obj (jSet (entriesJS c.forms) "completed" comp) }
              else c
          | none => c
        match jLookup (entriesJS f) "hasPendingForms" with
        | some v =>
            { c1 with forms := Json.obj (jSet (entriesJS c1.forms) "hasPendingForms" v) }
        | none => c1
      else c
  | none => c

/-- `if (sections.todayAppt) ctx.todayAppt = sections.todayAppt` (lines 76–78). -/
def applyTodayAppt (sections : Json) (c : Ctx) : Ctx :=
  match jLookup (entriesJS sections) "todayAppt" with
  | some v => if truthy v then { c with todayAppt := v } else c
  | none => c

/-- The `tabsScanned` union loop (lines 83–87):
`if (!ctx.tabsScanned.includes(s)) ctx.tabsScanned.push(s)`. -/
def addDetected (tabs : List String) : List String → List String
  | [] => tabs
  | s :: rest => addDetected (if tabs.contains s then tabs else tabs ++ [s]) rest

/-- The context transformation performed by `_mergeFromLLM` (lines 48–91),
excluding storage I/O. -/
def applyLLMCtx (now : Nat) (r : LLMResult) (c : Ctx) : Ctx :=
  let sections := r.context
  let c1 := MERGE_SECTIONS.foldl (mergeSectionInto sections) c
  let c2 := applyForms sections c1
  let c3 := applyTodayAppt sections c2
  { c3 with
    tabsScanned := addDetected c3.tabsScanned r.sectionsDetected
    lastUpdated := some now
    lastHash := some r.hash
    fromCache := some r.fromCache }

/-- An action item `{ id, priority, icon, title, detail, category }`, the
shape produced both by `_mergeFromLLM`'s mapping (patient-context.js 96–104)
and by `actionEngine.generate` (action-engine.js 39–41). -/
structure Action where
  id : Nat
  priority : Nat
  icon : Json
  title : Json
  detail : Json
  category : Json

/-- `PRIORITY_MAP = { critical: 1, action: 2, recommended: 3, info: 4 }`,
with `PRIORITY_MAP[a.priority] || 4` for anything else. -/
def priorityOfJson : Json → Nat
  | .str "critical" => 1
  | .str "action" => 2
  | .str "recommended" => 3
  | .str "info" => 4
  | _ => 4

/-- `(actions || []).map((a, i) => ({...}))` (lines 97–104). -/
def mapLLMActions (actions : Json) : List Action :=
  ((match actions with | .arr xs => xs | _ => []).enum).map fun (p : Nat × Json) =>
    let a := entriesJS p.2
    { id := p.1 + 1
      priority := priorityOfJson ((jLookup a "priority").getD Json.null)
      icon :=
        let ic := (jLookup a "icon").getD Json.null
        if truthy ic then ic else Json.str "📋"
      title := (jLookup a "title").getD Json.null
      detail := (jLookup a "detail").getD Json.null
      category := (jLookup a "category").getD Json.null }

/-! ## Profile store (patient-context.js `save`/`load`, lines 292–315)

The persisted map `pp:patientContexts` is an insertion-ordered object keyed by
lower-cased patient name; `save` evicts the oldest entries by `lastUpdated`
(`new Date(null)` is the epoch, modelled as time 0) once more than 100 keys
exist.  `keys.sort(comparator)` is a stable sort, modelled by a stable
insertion sort. -/

abbrev ProfileStore := List (String × Ctx)

/-- `new Date(ctx.lastUpdated).getTime()` with `null ↦ 0`. -/
def dateVal : Option Nat → Nat
  | none => 0
  | some t => t

/-- Stable insertion of `x` before the first strictly-later element. -/
def insertByTime (f : String → Nat) (x : String) : List String → List String
  | [] => [x]
  | y :: ys => if f x ≤ f y then x :: y :: ys else y :: insertByTime f x ys

/-- Stable sort by timestamp, ascending (models `keys.sort((a, b) => ...)`). -/
def sortByTime (f : String → Nat) : List String → List String
  | [] => []
  | x :: xs => insertByTime f x (sortByTime f xs)

/-- The shared put-then-evict shape of `patientContext.save`
(patient-context.js 292–305) and `storage.cacheCard` (storage.js 61–83):
insert, and while more than `cap` keys exist, sort the keys by their entry's
staleness timestamp ascending and delete the surplus oldest. -/
def boundedPut {α : Type} (cap : Nat) (time : α → Nat)
    (all : List (String × α)) (k : String) (v : α) : List (String × α) :=
  let all1 := aset all k v
  let keys := all1.map Prod.fst
  if cap < keys.length then
    let sorted := sortByTime
      (fun kk => match alookup all1 kk with | some c => time c | none => 0) keys
    aremoveAll all1 (sorted.take (keys.length - cap))
  else all1

/-- `patientContext.save(ctx)` (lines 292–305): key is the lower-cased
patient name, capacity 100, staleness key `new Date(ctx.lastUpdated)`. -/
def save (all : ProfileStore) (c : Ctx) : ProfileStore :=
  boundedPut 100 (fun c => dateVal c.lastUpdated) all (toLowerJS c.patientName) c

/-- `patientContext.load(patientName)` (lines 307–310). -/
def load (all : ProfileStore) (name : String) : Option Ctx :=
  alookup all (toLowerJS name)

/-! ## Extraction cache and `extract`
(src/shared/action-engine.js, `llmContextExtractor`) -/

abbrev ExtCache := List (String × LLMResult)

/-- `_cacheResult(hash, result)` (lines 630–637): when the cache is at
capacity (`MAX_CACHE = 50`), delete the single oldest-inserted entry (the
first key of the insertion-ordered `Map`), then insert. -/
def cacheResult (cache : ExtCache) (h : String) (r : LLMResult) : ExtCache :=
  let c := if 50 ≤ cache.length then cache.drop 1 else cache
  aset c h r

/-- `clearCache()` (lines 642–644). -/
def clearCache (_cache : ExtCache) : ExtCache := []

/-- A parsed LLM response (`_parseJSON` output), with the defaults
`parsed.context || {}`, `parsed.actions || []`, `parsed.sectionsDetected || []`
applied when the result is built. -/
structure ParsedLLM where
  context : Json
  actions : Json
  sectionsDetected : List String

/-- `llmContextExtractor.extract(pageText, benefitCard)` (lines 339–399).

External effects are parameters: `extractName` is the local identity extractor
(`_extractPatientName`, a leaf collaborator per the spec's §6 interface list)
and `oracle` is the entire fallible remote pipeline — redaction, preprocessing,
the `fetch` call and `_parseJSON` — returning `none` for every failure mode the
`catch`/missing-API-key paths turn into `null`.  The benefit card only shapes
the prompt, so it is absorbed into the oracle. -/
def extract (extractName : String → Option String) (oracle : String → Option ParsedLLM)
    (cache : ExtCache) (text : String) : Option LLMResult × ExtCache :=
  if text.length < 100 then (none, cache)
  else
    let h := hashText text
    match alookup cache h with
    | some r => (some { r with fromCache := true }, cache)
    | none =>
        match extractName text with
        | none => (none, cache)
        | some name =>
            match oracle text with
            | none => (none, cache)
            | some p =>
                let r : LLMResult :=
                  { patientName := name
                    context := if truthy p.context then p.context else Json.obj []
                    actions := if truthy p.actions then p.actions else Json.arr []
                    sectionsDetected := p.sectionsDetected
                    hash := h
                    fromCache := false }
                (some r, cacheResult cache h r)

/-- `_mergeFromLLM(llmResult)` (patient-context.js lines 48–107), including
the load-or-create and `save` storage round trip. -/
def mergeFromLLM (now : Nat) (st : ProfileStore) (r : LLMResult) :
    Option (Ctx × List Action) × ProfileStore :=
  if r.patientName = "" then (none, st)
  else
    let ctx0 := (load st r.patientName).getD (emptyContext r.patientName now)
    let ctx1 := applyLLMCtx now r ctx0
    (some (ctx1, mapLLMActions r.actions), save st ctx1)

/-! ## Regex fallback (patient-context.js `_regexFallback`, `SECTIONS`,
`_detectVisibleSections`, `_parsers`, lines 128–246)

The fallback's regexes are implemented as dedicated scanners with JS
leftmost-match semantics.  `firstMatch` tries a matcher at every position,
like an unanchored `String.match`. -/

/-- `text.includes(pat)` (case-sensitive). -/
def hasSubList (pat : List Char) : List Char → Bool
  | [] => pat.isEmpty
  | c :: cs => pat.isPrefixOf (c :: cs) || hasSubList pat cs

def hasSub (s pat : String) : Bool := hasSubList pat.data s.data

/-- Leftmost application of an anchored matcher. -/
def firstMatch {α : Type} (m : List Char → Option α) : List Char → Option α
  | [] => m []
  | c :: cs =>
      match m (c :: cs) with
      | some r => some r
      | none => firstMatch m cs

/-- Case-insensitive literal (the `i` flag on a literal pattern). -/
def matchLitCI : List Char → List Char → Option (List Char)
  | [], rem => some rem
  | p :: ps, c :: cs => if c.toLower = p.toLower then matchLitCI ps cs else none
  | _ :: _, [] => none

def expectChar (c : Char) : List Char → Option (List Char)
  | c' :: cs => if c' = c then some cs else none
  | [] => none

/-- `Label\s*:\s*` (with `\n?` absorbed into `\s*`, which already matches
newlines); returns the remainder after the trailing whitespace. -/
def matchLabelColon (label : String) (l : List Char) : Option (List Char) :=
  (matchLitCI label.data l).bind fun r1 =>
    (expectChar ':' (skipWsL r1)).map skipWsL

/-- First alternative of a case-insensitive alternation that matches; the
capture is the original (case-preserving) slice. -/
def matchAltCI : List String → List Char → Option String
  | [], _ => none
  | a :: as, l =>
      match matchLitCI a.data l with
      | some _ => some (l.take a.data.length).asString
      | none => matchAltCI as l

def natOfDigits (l : List Char) : Nat :=
  l.foldl (fun n c => n * 10 + (c.toNat - '0'.toNat)) 0

/-- `/Gender\s*:\s*\n?\s*(Male|Female|Other|Non-binary)/i`, capture 1. -/
def genderAt (l : List Char) : Option String :=
  (matchLabelColon "gender" l).bind
    (matchAltCI ["male", "female", "other", "non-binary"])

/-- `/Age\s*:\s*(\d+)\s*years?\s*old/i`, capture 1 as a number. -/
def ageAt (l : List Char) : Option Nat :=
  (matchLabelColon "age" l).bind fun r =>
    let ds := r.takeWhile Char.isDigit
    if ds.isEmpty then none
    else
      (matchLitCI "year".data (skipWsL (r.dropWhile Char.isDigit))).bind fun r3 =>
        let r4 := match r3 with
          | 's' :: t => t
          | 'S' :: t => t
          | _ => r3
        (matchLitCI "old".data (skipWsL r4)).map fun _ => natOfDigits ds

/-- `/Date of Birth\s*:\s*\n?\s*(\S+)/i`, capture 1. -/
def dobAt (l : List Char) : Option String :=
  (matchLabelColon "date of birth" l).bind fun r =>
    let tok := r.takeWhile fun c => ¬ jsWs c
    if tok.isEmpty then none else some tok.asString

def matchNDigits : Nat → List Char → Option (List Char)
  | 0, l => some l
  | n + 1, c :: cs => if c.isDigit then matchNDigits n cs else none
  | _ + 1, [] => none

/-- Optionally consume one character satisfying `p` (`X?` on a one-char class). -/
def optChar (p : Char → Bool) : List Char → List Char
  | [] => []
  | c :: cs => if p c then cs else c :: cs

/-- `\(?\d{3}\)?\s*[-\s]?\d{3}[-\s]?\d{4}` — the body of the phone pattern. -/
def matchPhoneCore (l : List Char) : Option (List Char) :=
  let r1 := optChar (· = '(') l
  (matchNDigits 3 r1).bind fun r2 =>
    let r3 := optChar (fun c => c = '-' ∨ jsWs c) (skipWsL (optChar (· = ')') r2))
    (matchNDigits 3 r3).bind fun r4 =>
      matchNDigits 4 (optChar (fun c => c = '-' ∨ jsWs c) r4)

/-- `/Cell phone\s*:\s*\(?\d{3}\)?\s*[-\s]?\d{3}[-\s]?\d{4}/i`, whole match
with the `Cell phone\s*:\s*` label stripped (`.replace(...)` in the source). -/
def phoneAt (l : List Char) : Option String :=
  (matchLabelColon "cell phone" l).bind fun r =>
    (matchPhoneCore r).map fun rem => (r.take (r.length - rem.length)).asString

/-- `/Email\s*:\s*(\S+@\S+)/i`: the capture is the whole non-whitespace run,
which matches exactly when it has an `@` that is neither first nor last. -/
def emailAt (l : List Char) : Option String :=
  (matchLabelColon "email" l).bind fun r =>
    let run := r.takeWhile fun c => ¬ jsWs c
    if ((run.dropLast).drop 1).contains '@' then some run.asString else none

/-- `/Label:\s*([^\n]+)/i`, capture 1 trimmed.  When only whitespace follows
the label, JS backtracking still matches iff some whitespace character other
than `\n` follows, capturing whitespace that trims to `""`. -/
def lineCaptureAt (label : String) (l : List Char) : Option String :=
  (matchLitCI label.data l).bind fun r =>
    let ws := r.takeWhile jsWs
    let rest := r.dropWhile jsWs
    match rest with
    | [] => if ws.any (fun c => c ≠ '\n') then some "" else none
    | _ => some (trimChars (rest.takeWhile (fun c => c ≠ '\n'))).asString

/-- `([\d,]+\.\d{2})` — a money group; returns (capture, remainder). -/
def moneyAt (l : List Char) : Option (String × List Char) :=
  let run := l.takeWhile fun c => c.isDigit ∨ c = ','
  if run.isEmpty then none
  else
    match l.dropWhile (fun c => c.isDigit ∨ c = ',') with
    | '.' :: d1 :: d2 :: rest =>
        if d1.isDigit ∧ d2.isDigit then
          some ((run ++ '.' :: [d1, d2]).asString, rest)
        else none
    | _ => none

/-- `\s+` (at least one whitespace character, then greedily the rest). -/
def skipWs1 : List Char → Option (List Char)
  | c :: cs => if jsWs c then some (skipWsL cs) else none
  | [] => none

def dollarMoney (l : List Char) : Option (String × List Char) :=
  match l with
  | '$' :: t => moneyAt t
  | _ => none

/-- The `Account Holder` aging-row pattern (patient-context.js 214–216):
five `\s+\$([\d,]+\.\d{2})` groups after the label. -/
def billingAt (l : List Char) :
    Option (String × String × String × String × String) :=
  (matchLitCI "account holder".data l).bind fun r0 =>
    (skipWs1 r0).bind fun r0' => (dollarMoney r0').bind fun (m1, r1) =>
    (skipWs1 r1).bind fun r1' => (dollarMoney r1').bind fun (m2, r2) =>
    (skipWs1 r2).bind fun r2' => (dollarMoney r2').bind fun (m3, r3) =>
    (skipWs1 r3).bind fun r3' => (dollarMoney r3').bind fun (m4, r4) =>
    (skipWs1 r4).bind fun r4' => (dollarMoney r4').map fun (m5, _) =>
      (m1, m2, m3, m4, m5)

/-- `parseFloat(s.replace(/,/g, "")) > 0` for a money capture, via the value
in cents (the capture always has exactly two decimals). -/
def moneyCents (s : String) : Nat :=
  natOfDigits (s.data.filter Char.isDigit)

/-- JS `\w`. -/
def isWordC (c : Char) : Bool := c.isAlphanum || c = '_'

/-- `text.matchAll(/\b(D\d{4})\b/g)`: all non-overlapping word-bounded
`D`-codes, left to right.  The flag records whether the previous character was
a word character (for the leading `\b`). -/
def noWordNext : List Char → Bool
  | [] => true
  | c :: _ => ¬ isWordC c

def scanDCodes : Bool → List Char → List String
  | _, [] => []
  | prevW, 'D' :: d1 :: d2 :: d3 :: d4 :: rest2 =>
      if ¬ prevW && (d1.isDigit && d2.isDigit && d3.isDigit && d4.isDigit)
          && noWordNext rest2 then
        ⟨['D', d1, d2, d3, d4]⟩ :: scanDCodes true rest2
      else scanDCodes (isWordC 'D') (d1 :: d2 :: d3 :: d4 :: rest2)
  | _, c :: cs => scanDCodes (isWordC c) cs
  termination_by _ l => l.length
  decreasing_by all_goals (simp [List.length_cons]; try omega)

/-- `[...new Set(xs)]` — first-occurrence deduplication. -/
def dedupAux (seen : List String) : List String → List String
  | [] => []
  | x :: xs => if seen.contains x then dedupAux seen xs else x :: dedupAux (x :: seen) xs

def dedup (l : List String) : List String := dedupAux [] l

/-! The seven `_parsers` (patient-context.js 180–246), each mutating the
fields of its own section. -/

def setField (sec : Json) (k : String) (v : Json) : Json :=
  Json.obj (jSet (entriesJS sec) k v)

def parserProfile (text : List Char) (c : Ctx) : Ctx :=
  let c := match firstMatch genderAt text with
    | some g => { c with profile := setField c.profile "gender" (Json.str g) }
    | none => c
  let c := match firstMatch ageAt text with
    | some a => { c with profile := setField c.profile "age" (Json.num a) }
    | none => c
  let c := match firstMatch dobAt text with
    | some v => { c with profile := setField c.profile "dob" (Json.str v) }
    | none => c
  let c := match firstMatch phoneAt text with
    | some v => { c with profile := setField c.profile "phone" (Json.str v) }
    | none => c
  match firstMatch emailAt text with
  | some v => { c with profile := setField c.profile "email" (Json.str v) }
  | none => c

def parserInsurance (text : List Char) (c : Ctx) : Ctx :=
  let c := match firstMatch (lineCaptureAt "plan name:") text with
    | some v => { c with insurance := setField c.insurance "planName" (Json.str v) }
    | none => c
  let c := match firstMatch (lineCaptureAt "carrier name:") text with
    | some v => { c with insurance := setField c.insurance "carrier" (Json.str v) }
    | none => c
  let c := match firstMatch (lineCaptureAt "plan last updated:") text with
    | some v => { c with insurance := setField c.insurance "lastVerified" (Json.str v) }
    | none => c
  if hasSubList "Maximums and Deductibles remaining".data text then
    { c with insurance := setField c.insurance "hasMaxDeductInfo" (Json.bool true) }
  else c

def parserBilling (text : List Char) (c : Ctx) : Ctx :=
  match firstMatch billingAt text with
  | some (m1, m2, m3, m4, m5) =>
      let aging := Json.obj
        [("past30", Json.str m1), ("days31_60", Json.str m2),
         ("days61_90", Json.str m3), ("over90", Json.str m4),
         ("total", Json.str m5)]
      let b1 := setField c.billing "aging" aging
      let b2 := setField b1 "balance" (Json.str m5)
      let b3 := setField b2 "hasBalance" (Json.bool (decide (0 < moneyCents m5)))
      let overdue := decide (0 < moneyCents m2) || decide (0 < moneyCents m3)
        || decide (0 < moneyCents m4)
      { c with billing := setField b3 "hasOverdue" (Json.bool overdue) }
  | none => c

def parserRecare (text : List Char) (c : Ctx) : Ctx :=
  let v := Json.bool (hasSubList "No recare found".data text)
  { c with recare := setField c.recare "noRecareFound" v }

def parserCharting (text : List Char) (c : Ctx) : Ctx :=
  let v := Json.bool (hasSubList "Accepted, Unscheduled".data text)
  let c := { c with charting := setField c.charting "hasUnscheduledTx" v }
  let codes := dedup (scanDCodes false text)
  if codes.isEmpty then c
  else
    let pc := Json.arr (codes.map Json.str)
    { c with charting := setField c.charting "pendingCodes" pc }

def parserForms (text : List Char) (c : Ctx) : Ctx :=
  let v := Json.bool (hasSubList "Incomplete".data text
    || hasSubList "Not Started".data text)
  { c with forms := setField c.forms "hasPendingForms" v }

def parserPerio (text : List Char) (c : Ctx) : Ctx :=
  let v := Json.bool (hasSubList "Probing Depths".data text
    || hasSubList "Perio Charting".data text)
  { c with perio := setField c.perio "hasPerioData" v }

/-- Dispatch on `this._parsers[section]`; other names have no parser. -/
def runParser (name : String) (text : List Char) (c : Ctx) : Ctx :=
  if name = "profile" then parserProfile text c
  else if name = "insurance" then parserInsurance text c
  else if name = "billing" then parserBilling text c
  else if name = "recare" then parserRecare text c
  else if name = "charting" then parserCharting text c
  else if name = "forms" then parserForms text c
  else if name = "perio" then parserPerio text c
  else c

/-- The `SECTIONS` marker table (patient-context.js 159–167). -/
def SECTIONS_MARKERS : List (String × List String) :=
  [("profile", ["Date of Birth", "Gender", "Cell phone", "Address"]),
   ("insurance", ["Plan Name:", "Carrier Name:", "Policy Details",
                  "Maximums and Deductibles"]),
   ("billing", ["Account Holder", "Invoice #", "Running Balance"]),
   ("recare", ["Recare For", "No recare found", "Recare Due"]),
   ("charting", ["Accepted, Unscheduled", "Filter Visits", "Treatment Plan"]),
   ("forms", ["Health History", "Consent Form", "Filter Forms", "Add Form"]),
   ("perio", ["Perio Charting", "Probing Depths", "Bleeding"])]

/-- `_detectVisibleSections` (lines 169–176): a section is visible when at
least one of its markers occurs in the text. -/
def detectVisibleSections (text : List Char) : List String :=
  (SECTIONS_MARKERS.filter fun p => p.2.any fun m => hasSubList m.data text).map
    Prod.fst

/-! ## CDT code reference (src/shared/cdt-codes.js)

`CODES` below is the fragment of the master table used by the theorems in
this file, transcribed verbatim (fields not read by the action engine —
`aka`, `note`, `tier`, `starred` — are omitted; the engine reads `name`,
`category` and `cdtRange`). -/

structure CdtEntry where
  name : String
  category : String
  cdtRange : String

def CODES : List (String × CdtEntry) :=
  [("D0120", ⟨"Periodic Oral Evaluation", "Diagnostic", "D0100-D0999"⟩),
   ("D0150", ⟨"Comprehensive Oral Evaluation", "Diagnostic", "D0100-D0999"⟩),
   ("D0210", ⟨"Intraoral — Complete Series", "Diagnostic", "D0100-D0999"⟩),
   ("D1110", ⟨"Prophylaxis — Adult", "Preventive", "D1000-D1999"⟩),
   ("D1206", ⟨"Topical Application of Fluoride Varnish", "Preventive", "D1000-D1999"⟩),
   ("D2740", ⟨"Crown — Porcelain/Ceramic Substrate", "Crowns", "D2400-D2999"⟩)]

/-- `cdtCodes.lookup(code)` (cdt-codes.js 712–716):
`code.toUpperCase().replace(/\s/g, "")` then table lookup. -/
def cdtLookup (code : String) : Option CdtEntry :=
  alookup CODES ⟨(code.data.filter fun c => ¬ jsWs c).map Char.toUpper⟩

/-- A benefit card as built by the eligibility extractor (part_003): coverage
rows carry `category`/`cdtRange`/`inNetwork` with numeric-or-null
percentages. -/
structure CoverageRow where
  category : String
  cdtRange : String
  inNetwork : Option Int

structure AgeLimit where
  service : String
  limit : String

structure Card where
  patientName : Option String
  subscriberId : Option String
  payer : Option String
  coverageTable : List CoverageRow
  nonCovered : List String
  ageLimits : List AgeLimit
  sourceUrl : Option String

/-- `cdtCodes.getCoverage(code, card)` (cdt-codes.js 745–751). -/
def getCoverage (code : String) (card : Card) : Option Int :=
  match cdtLookup code with
  | none => none
  | some e =>
      match card.coverageTable.find? (fun r => r.cdtRange = e.cdtRange) with
      | some row => row.inNetwork
      | none => none

/-! ## Action engine (src/shared/action-engine.js `actionEngine`) -/

/-- JS `ToNumber` on the values that reach numeric comparisons
(`none` = `NaN`; every comparison with `NaN` is false). -/
def toNum : Json → Option Int
  | .null => some 0
  | .bool b => some (if b then 1 else 0)
  | .num n => some n
  | .str s =>
      let t := jsTrim s
      if t.isEmpty then some 0
      else if t.data.all Char.isDigit then some (natOfDigits t.data) else none
  | _ => none

/-- `v <= n` with JS coercion. -/
def jsLe (a : Json) (n : Int) : Bool :=
  match toNum a with
  | some m => m ≤ n
  | none => false

/-- `v >= n` with JS coercion. -/
def jsGe (a : Json) (n : Int) : Bool :=
  match toNum a with
  | some m => n ≤ m
  | none => false

/-- `${v}` template interpolation for the values that reach it. -/
def jsString : Json → String
  | .null => "null"
  | .bool b => if b then "true" else "false"
  | .num n => toString n
  | .str s => s
  | .arr _ => ""
  | .obj _ => "[object Object]"

/-- Property read `sec.k` with absent conflated to `null` (the engine only
ever branches on truthiness or compares numerically afterwards). -/
def secGet (sec : Json) (k : String) : Json :=
  (jLookup (entriesJS sec) k).getD Json.null

/-- `_codesInclude(codes, target)` (action-engine.js 259–261). -/
def codesInclude (codes : Json) (target : String) : Bool :=
  match codes with
  | .arr xs => xs.any fun x => match x with | .str s => s = target | _ => false
  | _ => false

/-- Case-insensitive `/pat/i.test(s)` for a literal pattern. -/
def testCI (pat : String) (s : String) : Bool :=
  hasSubList (toLowerJS pat).data (toLowerJS s).data

/-- `s1.toLowerCase().includes(s2.toLowerCase())`. -/
def includesCI (s1 s2 : String) : Bool :=
  hasSubList (toLowerJS s2).data (toLowerJS s1).data

/-- One coverage issue from `_checkCodeCoverage` (priority, icon, title,
detail). -/
abbrev Issue := Nat × String × String × String

/-- `_checkCodeCoverage(codes, card, patientAge)` (action-engine.js 211–255).
`patientAge` is passed by `generate` but never read in the body.  Note
`cdtEntry.section` is not a field of any `CODES` entry, so
`const category = cdtEntry.section || ""` is always `""` and the
category-based half of the exclusion test degenerates to
`"".includes(nc)`, i.e. `nc === ""`. -/
def checkCodeCoverage (codes : List Json) (card : Card) : List Issue :=
  codes.foldl (fun issues code =>
    match code with
    | .str s =>
        match cdtLookup s with
        | none => issues
        | some entry =>
            let covPct := getCoverage s card
            let issues :=
              if covPct = some 0 then
                issues ++ [(1, "🚫", s ++ " not covered",
                  entry.name ++ " — insurance pays 0%. Discuss cost with patient.")]
              else
                match covPct with
                | some p =>
                    if p < 80 then
                      issues ++ [(2, "💲",
                        s ++ " only " ++ toString p ++ "% covered",
                        entry.name ++ " — patient pays " ++ toString (100 - p)
                          ++ "%. Confirm patient is aware.")]
                    else issues
                | none => issues
            if card.nonCovered.length ≠ 0 then
              let category := ""
              let isExcluded := card.nonCovered.any fun nc =>
                includesCI category nc || includesCI nc s
              if isExcluded then
                issues ++ [(1, "🚫", s ++ " may be excluded",
                  entry.name ++ " appears in non-covered services list.")]
              else issues
            else issues
    | _ => issues) []

/-- The `add` closure of `generate` (lines 39–41): push with the running id. -/
def addAct (st : List Action × Nat) (priority : Nat)
    (icon title detail category : String) : List Action × Nat :=
  (st.1 ++ [⟨st.2, priority, Json.str icon, Json.str title, Json.str detail,
    Json.str category⟩], st.2 + 1)

def addIssue (st : List Action × Nat) (i : Issue) : List Action × Nat :=
  addAct st i.1 i.2.1 i.2.2.1 i.2.2.2 "coverage"

/-- Stable ascending sort on `priority`
(`actions.sort((a, b) => a.priority - b.priority)`, line 204; JS `sort` is
stable, so equal priorities keep push order). -/
def insertByPrio (x : Action) : List Action → List Action
  | [] => [x]
  | y :: ys => if x.priority ≤ y.priority then x :: y :: ys else y :: insertByPrio x ys

def sortActions : List Action → List Action
  | [] => []
  | x :: xs => insertByPrio x (sortActions xs)

/-- The rule-firing phase of `actionEngine.generate(ctx, benefitCard)`
(action-engine.js 33–202): the `actions` array in the order the rules pushed
into it, before the final priority sort.

`Date.now()` is the explicit `now` (epoch milliseconds) and
`_parseLooseDate` is the parameter `parseDate` (its `new Date(string)` call
on non-ISO strings is implementation-defined in JS). -/
def generateRaw (parseDate : String → Option Int) (now : Int) (ctx : Ctx)
    (benefitCard : Option Card) : List Action :=
  let st : List Action × Nat := ([], 1)
  -- insurance checks
  let st :=
    if ctx.tabsScanned.contains "insurance" then
      if ¬ truthy (secGet ctx.insurance "carrier") then
        addAct st 1 "🚨" "No insurance on file"
          "Add insurance information before treatment." "insurance"
      else
        let st :=
          if truthy (secGet ctx.insurance "lastVerified") then
            match secGet ctx.insurance "lastVerified" with
            | .str lv =>
                match parseDate lv with
                | some t =>
                    let daysSince := Int.fdiv (now - t) 86400000
                    if 30 < daysSince then
                      addAct st 2 "🔄" "Insurance not verified recently"
                        ("Last verified " ++ toString daysSince
                          ++ " days ago. Re-verify before treatment.") "insurance"
                    else st
                | none => st
            | _ => st
          else st
        if benefitCard.isNone ∧ ¬ truthy (secGet ctx.insurance "hasMaxDeductInfo") then
          addAct st 3 "📋" "Run eligibility check"
            ("Verify " ++ jsString (secGet ctx.insurance "carrier")
              ++ " benefits — no detailed breakdown cached.") "insurance"
        else st
    else
      addAct st 3 "👁️" "Review Insurance tab"
        "Open Insurance tab to check coverage status." "insurance"
  -- billing checks
  let st :=
    if ctx.tabsScanned.contains "billing" then
      let st :=
        if truthy (secGet ctx.billing "hasBalance") then
          addAct st 2 "💰" "Outstanding balance"
            ("Patient owes $" ++ jsString (secGet ctx.billing "balance")
              ++ ". Discuss before treatment.") "billing"
        else st
      if truthy (secGet ctx.billing "hasOwingInvoices") then
        addAct st 2 "📄" "Unpaid invoices on file"
          "Review and collect on owing invoices." "billing"
      else st
    else st
  -- recare checks
  let st :=
    if ctx.tabsScanned.contains "recare" ∧ truthy (secGet ctx.recare "noRecareFound") then
      addAct st 3 "📅" "Set up recare schedule"
        "No recall appointments configured. Set 6-month recare after today's visit."
        "recare"
    else st
  -- forms checks
  let st :=
    if ctx.tabsScanned.contains "forms" ∧ truthy (secGet ctx.forms "hasPendingForms") then
      addAct st 2 "📝" "Incomplete patient forms"
        "Have patient complete outstanding forms before treatment." "forms"
    else st
  -- today's appointment
  let st :=
    if truthy ctx.todayAppt then
      let appt := ctx.todayAppt
      let st :=
        if truthy (secGet appt "isNewPatient") then
          addAct st 4 "🆕" "New patient visit"
            "Ensure comprehensive exam (D0150), health history review, and full mouth series."
            "appointment"
        else st
      let codes := secGet appt "codes"
      match benefitCard with
      | some card =>
          if truthy (dotLength codes) then
            let issues := checkCodeCoverage
              (match codes with | .arr xs => xs | _ => []) card
            issues.foldl addIssue st
          else st
      | none =>
          if truthy (dotLength codes) then
            addAct st 3 "🔍" "Verify coverage for today's codes"
              ("Scheduled: " ++ String.intercalate ", "
                ((match codes with | .arr xs => xs | _ => []).map jsString)
                ++ " — run eligibility to confirm coverage.") "coverage"
          else st
    else st
  -- charting checks
  let st :=
    if ctx.tabsScanned.contains "charting"
        ∧ truthy (secGet ctx.charting "hasUnscheduledTx")
        ∧ ¬ truthy (secGet ctx.charting "noVisits") then
      addAct st 3 "🗓️" "Unscheduled treatment pending"
        "Patient has accepted treatment that hasn't been scheduled yet." "charting"
    else st
  -- age-based clinical reminders (`ctx.profile.age !== undefined`)
  let st :=
    match jLookup (entriesJS ctx.profile) "age" with
    | some age =>
        let st :=
          if jsLe age 18 then
            addAct st 4 "👶" "Pediatric/adolescent patient"
              "Check sealant eligibility and fluoride coverage age limits." "clinical"
          else st
        let st :=
          if jsGe age 18 ∧ codesInclude (secGet ctx.todayAppt "codes") "D1206" then
            match benefitCard with
            | some card =>
                match card.ageLimits.find? (fun a => testCI "fluoride" a.service) with
                | some fl =>
                    addAct st 2 "⚠️" "Fluoride age limit"
                      ("Plan limits fluoride: " ++ fl.limit ++ ". Patient is "
                        ++ jsString age ++ ".") "coverage"
                | none => st
            | none =>
                addAct st 3 "⚠️" "Verify fluoride coverage"
                  ("Patient is " ++ jsString age
                    ++ " — many plans limit fluoride to age 18 or under.") "coverage"
          else st
        if jsGe age 65 then
          addAct st 4 "📋" "Senior patient considerations"
            "Check for Medicare dental coverage, dry mouth assessment, perio risk."
            "clinical"
        else st
    | none => st
  -- perio checks
  let st :=
    if ctx.tabsScanned.contains "perio" ∧ truthy (secGet ctx.perio "hasPerioData") then
      addAct st 4 "🦷" "Perio data on file"
        "Review perio charting for maintenance interval — does prophy vs. perio maint apply?"
        "clinical"
    else st
  -- data completeness
  let st :=
    let importantTabs := ["profile", "insurance", "billing", "recare", "forms"]
    let missing := importantTabs.filter fun t => ¬ ctx.tabsScanned.contains t
    if 0 < missing.length ∧ missing.length < importantTabs.length then
      addAct st 4 "📂" "More tabs to scan"
        ("Open these tabs to build a complete picture: "
          ++ String.intercalate ", " missing ++ ".") "system"
    else st
  st.1

/-- `actionEngine.generate(ctx, benefitCard)` (action-engine.js 33–207): the
fired rules, sorted ascending by priority
(`actions.sort((a, b) => a.priority - b.priority)`, line 204 — a stable sort
per the ECMAScript specification, modelled by the stable insertion sort
`sortActions`). -/
def generate (parseDate : String → Option Int) (now : Int) (ctx : Ctx)
    (benefitCard : Option Card) : List Action :=
  sortActions (generateRaw parseDate now ctx benefitCard)

/-! ## `_regexFallback` and `scanAndMerge` (patient-context.js 30–44, 128–155) -/

/-- `_regexFallback(pageText)` (lines 128–155): extract the name locally,
load or create the context, run the parser for every detected section
(recording it in `tabsScanned`), stamp `lastUpdated`, persist, and generate
actions with the rule engine (no benefit card is passed there). -/
def regexSectionStep (t : List Char) (c : Ctx) (s : String) : Ctx :=
  let c' := runParser s t c
  if c'.tabsScanned.contains s then c'
  else { c' with tabsScanned := c'.tabsScanned ++ [s] }

def regexFallback (extractName : String → Option String)
    (parseDate : String → Option Int) (now : Nat) (st : ProfileStore)
    (text : String) : Option (Ctx × List Action) × ProfileStore :=
  match extractName text with
  | none => (none, st)
  | some name =>
      let ctx0 := (load st name).getD (emptyContext name now)
      let sections := detectVisibleSections text.data
      let ctx1 := sections.foldl (regexSectionStep text.data) ctx0
      let ctx2 := { ctx1 with lastUpdated := some now }
      (some (ctx2, generate parseDate now ctx2 none), save st ctx2)

/-- `patientContext.scanAndMerge(pageText, benefitCard)` (lines 30–44).

`extractorPresent` models whether `PracticePilot.llmContextExtractor` is
loaded.  The benefit card argument only shapes the LLM prompt, so it is
absorbed into `oracle` (a cache hit never consults it, as in the source). -/
def scanAndMerge (extractorPresent : Bool) (extractName : String → Option String)
    (oracle : String → Option ParsedLLM) (parseDate : String → Option Int)
    (now : Nat) (st : ProfileStore) (cache : ExtCache) (text : Option String) :
    Option (Ctx × List Action) × ProfileStore × ExtCache :=
  match text with
  | none => (none, st, cache)
  | some t =>
      if t.length < 100 then (none, st, cache)
      else if extractorPresent then
        match extract extractName oracle cache t with
        | (some r, cache') =>
            let (res, st') := mergeFromLLM now st r
            (res, st', cache')
        | (none, cache') =>
            let (res, st') := regexFallback extractName parseDate now st t
            (res, st', cache')
      else
        let (res, st') := regexFallback extractName parseDate now st t
        (res, st', cache)

/-! ### Same-subject call sequences

A successful `scanAndMerge` call mutates the profile store through exactly
one of its two merge bodies (`scanAndMerge_true_ext_some`,
`scanAndMerge_true_ext_none`, `scanAndMerge_false` below): `_mergeFromLLM`
on the extraction result, or `_regexFallback` on the page text.  `ScanCall`
records which body a call ran and with what input; `callsRun` threads the
profile store through a sequence of such calls. -/

inductive ScanCall where
  | llm (r : LLMResult) (now : Nat)
  | rex (extractName : String → Option String)
      (parseDate : String → Option Int) (now : Nat) (text : String)

def callStep (st : ProfileStore) :
    ScanCall → Option (Ctx × List Action) × ProfileStore
  | .llm r now => mergeFromLLM now st r
  | .rex en pd now text => regexFallback en pd now st text

def callsRun (st : ProfileStore) : List ScanCall → ProfileStore
  | [] => st
  | c :: cs => callsRun (callStep st c).2 cs

/-- The subject identity a call merges under: `llmResult.patientName` for the
LLM path (the empty name is refused, patient-context.js line 50),
`_extractPatientName(text)` for the fallback. -/
def callName : ScanCall → Option String
  | .llm r _ => if r.patientName = "" then none else some r.patientName
  | .rex en _ _ text => en text

/-- The sections a call reports: `sectionsDetected` for the LLM path (the
union loop, lines 83–87), the visible-marker scan for the fallback
(line 133). -/
def callSections : ScanCall → List String
  | .llm r _ => r.sectionsDetected
  | .rex _ _ _ text => detectVisibleSections text.data

/-- The `tabsScanned` recorded for `name` in the profile store (`[]` when no
profile is stored under the name). -/
def storedTabs (st : ProfileStore) (name : String) : List String :=
  match load st name with
  | some c => c.tabsScanned
  | none => []

/-! ## Benefit-card cache (src/shared/storage.js) -/

/-- The shared key-derivation chain of `_cacheKey` /
`cacheKeyFromIdentifiers` (storage.js 27–53). -/
def keyChain (subId name payer : String) : Option String :=
  if subId ≠ "" ∧ payer ≠ "" then some ("sub:" ++ subId ++ "|pay:" ++ payer)
  else if name ≠ "" ∧ payer ≠ "" then some ("name:" ++ name ++ "|pay:" ++ payer)
  else if subId ≠ "" then some ("sub:" ++ subId)
  else if name ≠ "" then some ("name:" ++ name)
  else none

def norml (s : Option String) : String := toLowerJS (jsTrim (s.getD ""))

/-- `storage._cacheKey(card)`. -/
def cacheKeyOfCard (card : Card) : Option String :=
  keyChain (norml card.subscriberId) (norml card.patientName) (norml card.payer)

/-- `storage.cacheKeyFromIdentifiers(patientName, subscriberId, payer)`. -/
def cacheKeyFromIdentifiers (patientName subscriberId payer : Option String) :
    Option String :=
  keyChain (norml subscriberId) (norml patientName) (norml payer)

structure CachedCard where
  card : Card
  cachedAt : Nat
  sourceUrl : Option String

abbrev CardCache := List (String × CachedCard)

/-- `storage.cacheCard(card)` (storage.js 61–83): identity-keyed insert, then
evict the oldest entries by `cachedAt` while more than 200 keys exist;
uncacheable cards (no identifiers) are a silent no-op. -/
def cacheCard (cache : CardCache) (card : Card) (now : Nat) : CardCache :=
  match cacheKeyOfCard card with
  | none => cache
  | some key =>
      boundedPut 200 (fun e => e.cachedAt) cache key ⟨card, now, card.sourceUrl⟩

/-- `storage.getCachedCard(cacheKey)` (storage.js 89–93). -/
def getCachedCard (cache : CardCache) (key : Option String) : Option CachedCard :=
  match key with
  | none => none
  | some k => alookup cache k

/-! ## Side-panel scan step (src/unnamed/part_007, `scanPatientAndShowActions`,
lines 294–383)

The `isScanning`/`pendingScanText` guard serialises executions of the body
(modelled separately as the scheduler below, for C4), so one execution is the
state transformation `scanStep`. -/

structure PanelState where
  lastPatientName : Option String
  currentCtx : Option Ctx
  currentCard : Option Card
  cardFromCache : Bool
  lastSectionsDetected : List String
  extCache : ExtCache
  profiles : ProfileStore
  cardCache : CardCache

/-- The subject-switch branch (part_007 lines 311–322): drop the held context
and card, reset the section memo, and clear the hash-keyed extraction cache. -/
def switchClear (st : PanelState) : PanelState :=
  { st with
    currentCtx := none
    currentCard := none
    cardFromCache := false
    lastSectionsDetected := []
    extCache := clearCache st.extCache }

def optLower : Option String → Option String := Option.map toLowerJS

/-- `getCachedCard(cacheKeyFromIdentifiers(newName, null, null))`
(part_007 lines 329–336). -/
def lookupCardByName (st : PanelState) : Option String → PanelState
  | none => st
  | some n =>
      match getCachedCard st.cardCache (cacheKeyFromIdentifiers (some n) none none) with
      | some e =>
          { st with currentCard := some e.card, cardFromCache := true }
      | none => st

/-- The benefit-card lookup performed before the scan (lines 326–337). -/
def cardLookupPhase (st2 : PanelState) (newName : Option String) : PanelState :=
  match st2.currentCard with
  | some cc =>
      if optLower cc.patientName = optLower newName then st2
      else lookupCardByName st2 newName
  | none => lookupCardByName st2 newName

/-- Result application after a successful scan (lines 345–353): hold the
merged context and refresh the section memo. -/
def scanApplyHold (st3 : PanelState) (ctx : Ctx) (st' : ProfileStore)
    (cache' : ExtCache) : PanelState :=
  { st3 with
    profiles := st'
    extCache := cache'
    currentCtx := some ctx
    lastSectionsDetected := ctx.tabsScanned }

/-- The scan itself plus result application (lines 340–364): run
`scanAndMerge`, hold the merged context, and — when no benefit card was held
before the scan and the merge produced a carrier — retry the benefit-card
lookup keyed by the merged identity. -/
def scanApply (extractName : String → Option String)
    (oracle : String → Option ParsedLLM) (parseDate : String → Option Int)
    (now : Nat) (st3 : PanelState) (text : String) : PanelState :=
  match scanAndMerge true extractName oracle parseDate now st3.profiles st3.extCache (some text) with
  | (none, st', cache') => { st3 with profiles := st', extCache := cache' }
  | (some (ctx, _actions), st', cache') =>
      -- second card lookup via the merged carrier (lines 356–364);
      -- `benefitHeld` was captured before the scan, and the scan does not
      -- touch `currentCard`, so the test reads `st3.currentCard`
      if st3.currentCard.isNone ∧ truthy (secGet ctx.insurance "carrier") then
        match getCachedCard (scanApplyHold st3 ctx st' cache').cardCache
            (cacheKeyFromIdentifiers (some ctx.patientName) none
              (match secGet ctx.insurance "carrier" with
               | .str s => some s | _ => none)) with
        | some e => { scanApplyHold st3 ctx st' cache' with
            currentCard := some e.card
            cardFromCache := true }
        | none => scanApplyHold st3 ctx st' cache'
      else scanApplyHold st3 ctx st' cache'

/-- One serialized execution of `scanPatientAndShowActions(pageText)`. -/
def scanStep (extractName : String → Option String)
    (oracle : String → Option ParsedLLM) (parseDate : String → Option Int)
    (now : Nat) (st : PanelState) (text : String) : PanelState :=
  if text.length < 50 then st
  else
    let newName := extractName text
    let isSwitch :=
      match newName, st.lastPatientName with
      | some n, some l => toLowerJS n != toLowerJS l
      | _, _ => false
    let st1 := if isSwitch then switchClear st else st
    let st2 := { st1 with lastPatientName := newName.orElse fun _ => st1.lastPatientName }
    scanApply extractName oracle parseDate now (cardLookupPhase st2 newName) text

/-! ## Scan scheduler (part_007 lines 296–303 and 374–382, for C4)

`running` is the ghost list of executions of the scan body currently in
flight; `merged` records, in order, the scans whose results have been
applied. -/

structure SchedState where
  isScanning : Bool
  pendingScanText : Option String
  running : List String
  merged : List String

inductive SchedEvent where
  | arrive (text : String)
  | complete

/-- `arrive t`: a change notification calls `scanPatientAndShowActions(t)` —
either queued into the single pending slot (guard taken) or started.
`complete`: the in-flight body reaches its `finally` block — its merge result
has been applied (`merged`), the guard drops, and a queued text (if any)
starts immediately. -/
def schedStep (st : SchedState) : SchedEvent → SchedState
  | .arrive t =>
      if st.isScanning then { st with pendingScanText := some t }
      else { st with
        isScanning := true
        pendingScanText := none
        running := st.running ++ [t] }
  | .complete =>
      match st.running with
      | [] => st
      | r :: rest =>
          let st1 := { st with
            merged := st.merged ++ [r]
            running := rest
            isScanning := false }
          match st1.pendingScanText with
          | some q => { st1 with
              isScanning := true
              pendingScanText := none
              running := st1.running ++ [q] }
          | none => st1

def schedInit : SchedState := ⟨false, none, [], []⟩

def schedRun (evs : List SchedEvent) : SchedState :=
  evs.foldl schedStep schedInit

/-! ### Concrete store contents used by the capacity witnesses.
Keys are strings of `i+1` copies of `'a'`: pairwise distinct (by length),
fixed by both `toLowerCase` and `trim`, so the key hypotheses have short
structural proofs. -/

def repStr (n : Nat) : String := ⟨List.replicate n 'a'⟩

def extEntriesW : List (String × LLMResult) :=
  (List.range 51).map fun i =>
    (repStr (i+1), ⟨"p", Json.null, Json.null, [], "", false⟩)

def profilesW : List Ctx :=
  (List.range 101).map fun i =>
    { emptyContext (repStr (i+1)) i with lastUpdated := some i }

def cardW (i : Nat) : Card :=
  { patientName := some (repStr (i+1)), subscriberId := none, payer := none,
    coverageTable := [], nonCovered := [], ageLimits := [], sourceUrl := none }

def cardsW : List (Card × Nat) :=
  (List.range 201).map fun i => (cardW i, i)

/-! ### Concrete LLM results used for the section-union claim -/

/-- An observation that reports `sectionsDetected = ["insurance"]` but carries
no section data. -/
def rW_C2 : LLMResult :=
  { patientName := "Jane Doe", context := Json.obj [], actions := Json.arr [],
    sectionsDetected := ["insurance"], hash := "h1", fromCache := false }

/-- An observation that carries insurance data but reports
`sectionsDetected = []`. -/
def rCE_C2 : LLMResult :=
  { patientName := "Jane Doe",
    context := Json.obj [("insurance", Json.obj [("carrier", Json.str "Aetna")])],
    actions := Json.arr [], sectionsDetected := [], hash := "h2",
    fromCache := false }

/-- The merged context produced from `rW_C2` on a first-time scan. -/
def ctxW_C2 : Ctx := applyLLMCtx 5 rW_C2 (emptyContext "Jane Doe" 5)

/-- The merged context produced from `rCE_C2` on a first-time scan. -/
def ctxCE_C2 : Ctx := applyLLMCtx 5 rCE_C2 (emptyContext "Jane Doe" 5)

/-- A local identity extractor that always finds "Jane Doe". -/
def enW_C2 : String → Option String := fun _ => some "Jane Doe"

def pdW_C2 : String → Option Int := fun _ => none

/-- A page text carrying an insurance section marker for the fallback scan. -/
def textW_C2 : String := "Patient: Jane Doe   Insurance Information   Subscriber ID 77"

/-- A same-subject call sequence: one LLM-path merge, then one
regex-fallback merge. -/
def callsW1_C2 : List ScanCall := [ScanCall.llm rW_C2 5]

def callsW2_C2 : List ScanCall := [ScanCall.rex enW_C2 pdW_C2 6 textW_C2]

/-! ### Concrete panel state used for the subject-switch claim -/

/-- A page text for subject "Bob", long enough to pass the 50-character
side-panel guard. -/
def textW_C3 : String :=
  "Patient: Bob Stone   DOB: 01/02/1980   Insurance tab contents here"

/-- A panel state currently tracking subject "Alice", with a stale
hash-keyed extraction result in the cache. -/
def stW_C3 : PanelState :=
  { lastPatientName := some "Alice", currentCtx := none, currentCard := none,
    cardFromCache := false, lastSectionsDetected := [],
    extCache := [("h0", rW_C2)], profiles := [], cardCache := [] }

/-- A page text over 100 characters, used to drive the fallback path. -/
def textW_C7 : String :=
  "Patient: Bob Stone   Date of Birth: 01/02/1980   Gender: M   Carrier Name: Acme Dental   Running Balance $0.00 end"

/-! ### Concrete templates and corpus for the hash-stability claim -/

/-- The fixed test corpus: texts pairwise differing in tokens the
normalisation does not erase. -/
def corpusC5 : List String :=
  ["patient: bob stone", "patient: alice dole", "balance $51.20",
   "balance $52.20", "crown seat visit", "crown prep visit"]

/-- `1:23 pm`. -/
def tokTimeA_C5 : TimeTok := ⟨['1'], '2', '3', [' '], 'p', 'm'⟩

/-- `11:45am`. -/
def tokTimeB_C5 : TimeTok := ⟨['1', '1'], '4', '5', [], 'a', 'm'⟩

/-- `1/2/34`. -/
def tokDateA_C5 : DateTok := ⟨['1'], ['2'], ['3', '4']⟩

/-- `10/11/2034`. -/
def tokDateB_C5 : DateTok := ⟨['1', '0'], ['1', '1'], ['2', '0', '3', '4']⟩

def psW_C5 : List Piece :=
  [Piece.lit "seen at ".data, Piece.time tokTimeA_C5,
   Piece.lit " on ".data, Piece.date tokDateA_C5, Piece.lit " ok".data]

def qsW_C5 : List Piece :=
  [Piece.lit "seen at ".data, Piece.time tokTimeB_C5,
   Piece.lit " on ".data, Piece.date tokDateB_C5, Piece.lit " ok".data]

/-- `1:23pm` (no interior whitespace), for the boundary counterexample. -/
def tokCEa_C5 : TimeTok := ⟨['1'], '2', '3', [], 'p', 'm'⟩

/-- `11:45am`, for the boundary counterexample. -/
def tokCEb_C5 : TimeTok := ⟨['1', '1'], '4', '5', [], 'a', 'm'⟩

/-! ### Concrete zero-coverage scenario -/

/-- A profile whose only insurance datum is `insurance.carrier = null` and
whose today's appointment carries the single procedure code `D1110`. -/
def ctxW_C9 : Ctx :=
  { emptyContext "Jane Doe" 0 with
    tabsScanned := ["insurance"]
    insurance := Json.obj [("carrier", Json.null)]
    todayAppt := Json.obj [("codes", Json.arr [Json.str "D1110"])] }

/-- A benefit card whose coverage table maps `D1110`'s CDT range
(`D1000-D1999`, category Preventive) to 0% in network. -/
def cardW_C9 : Card :=
  { patientName := some "Jane Doe", subscriberId := none, payer := none,
    coverageTable :=
      [{ category := "Preventive", cdtRange := "D1000-D1999", inNetwork := some 0 }],
    nonCovered := [], ageLimits := [], sourceUrl := none }

/-! ### Key-level lemmas about `jLookup`/`jSet` -/

theorem jLookup_jSet_self (l : List (String × Json)) (k : String) (v : Json) :
    jLookup (jSet l k v) k = some v := by
  induction l with
  | nil => simp [jSet, jLookup]
  | cons e rest ih =>
      obtain ⟨k', v'⟩ := e
      by_cases h : k' = k
      · simp [jSet, h, jLookup]
      · simp [jSet, h, jLookup, ih]

theorem jLookup_jSet_ne (l : List (String × Json)) (k' k : String) (v : Json)
    (h : k' ≠ k) : jLookup (jSet l k' v) k = jLookup l k := by
  induction l with
  | nil => simp [jSet, jLookup, h]
  | cons e rest ih =>
      obtain ⟨k₀, v₀⟩ := e
      by_cases h0 : k₀ = k'
      · subst h0
        simp [jSet, jLookup, h]
      · by_cases h1 : k₀ = k
        · simp [jSet, h0, jLookup, h1, Ne.symm h]
        · simp [jSet, h0, jLookup, h1, ih]

/-! ### Preservation of non-null leaves by `_deepMerge` -/

/-- `goodAt v p`: propositional form of `nonNullAt`. -/
def goodAt (v : Json) (p : List String) : Prop :=
  ∃ u, getPath v p = some u ∧ u ≠ Json.null

theorem nonNullAt_iff_goodAt (v : Json) (p : List String) :
    nonNullAt v p = true ↔ goodAt v p := by
  unfold nonNullAt goodAt
  cases h : getPath v p with
  | none => simp
  | some u => cases u <;> simp

theorem goodAt_obj (kvs : List (String × Json)) : goodAt (Json.obj kvs) [] :=
  ⟨Json.obj kvs, rfl, by simp⟩

theorem goodAt_cons {v : Json} {k : String} {ps : List String}
    (h : goodAt v (k :: ps)) :
    ∃ kvs t, v = Json.obj kvs ∧ jLookup kvs k = some t ∧ goodAt t ps := by
  obtain ⟨u, hu, hnn⟩ := h
  cases v with
  | obj kvs =>
      cases ht : jLookup kvs k with
      | none => rw [getPath, ht] at hu; exact absurd hu (by simp)
      | some t =>
          rw [getPath, ht] at hu
          exact ⟨kvs, t, rfl, ht, u, hu, hnn⟩
  | null => simp [getPath] at hu
  | bool b => simp [getPath] at hu
  | num n => simp [getPath] at hu
  | str s => simp [getPath] at hu
  | arr xs => simp [getPath] at hu

/-- `srcOk` in propositional form, matched to the recursion of `mergeInto`. -/
def srcOk (s : Json) (p : List String) : Prop := srcOkB s p = true

theorem srcOk_nil (s : Json) : srcOk s [] := by simp [srcOk, srcOkB]

theorem srcOk_cons {s : Json} {k : String} {ps : List String} (h : srcOk s (k :: ps)) :
    ∀ e ∈ entriesJS s, e.1 = k → ps ≠ [] →
      e.2 = Json.null ∨ (∃ svs, e.2 = Json.obj svs ∧ srcOk e.2 ps) := by
  intro e he hk hps
  obtain ⟨q, qs, hq⟩ : ∃ q qs, ps = q :: qs := by
    cases ps with
    | nil => exact absurd rfl hps
    | cons q qs => exact ⟨q, qs, rfl⟩
  subst hq
  unfold srcOk srcOkB at h
  rw [List.all_eq_true] at h
  have := h e he
  rw [if_pos hk] at this
  cases h2 : e.2 with
  | null => exact Or.inl rfl
  | obj svs =>
      refine Or.inr ⟨svs, rfl, ?_⟩
      rw [h2] at this
      simpa [srcOk] using this
  | bool b => rw [h2] at this; simp at this
  | num n => rw [h2] at this; simp at this
  | str s' => rw [h2] at this; simp at this
  | arr xs => rw [h2] at this; simp at this

/-! Step equations for `mergeInto`, one per shape of the head entry. -/

theorem mergeInto_nil (acc : List (String × Json)) : mergeInto acc [] = acc := by
  simp [mergeInto]

theorem mergeInto_cons_null (acc : List (String × Json)) (k : String)
    (rest : List (String × Json)) :
    mergeInto acc ((k, Json.null) :: rest) = mergeInto acc rest := by
  simp [mergeInto]

theorem mergeInto_cons_obj_deep {acc : List (String × Json)} {k : String}
    {svs : List (String × Json)} {t : Json} {rest : List (String × Json)}
    (h : jLookup acc k = some t) (ho : t.isObjLike = true) :
    mergeInto acc ((k, Json.obj svs) :: rest)
      = mergeInto (jSet acc k (Json.obj (mergeInto (entriesJS t) svs))) rest := by
  simp [mergeInto, h, ho]

theorem mergeInto_cons_obj_replace {acc : List (String × Json)} {k : String}
    {svs : List (String × Json)} {t : Json} {rest : List (String × Json)}
    (h : jLookup acc k = some t) (ho : t.isObjLike = false) :
    mergeInto acc ((k, Json.obj svs) :: rest)
      = mergeInto (jSet acc k (Json.obj svs)) rest := by
  simp [mergeInto, h, ho]

theorem mergeInto_cons_obj_new {acc : List (String × Json)} {k : String}
    {svs : List (String × Json)} {rest : List (String × Json)}
    (h : jLookup acc k = none) :
    mergeInto acc ((k, Json.obj svs) :: rest)
      = mergeInto (jSet acc k (Json.obj svs)) rest := by
  simp [mergeInto, h]

theorem mergeInto_cons_scalar {acc : List (String × Json)} {k : String}
    {v : Json} {rest : List (String × Json)}
    (h1 : v ≠ Json.null) (h2 : ∀ svs, v ≠ Json.obj svs) :
    mergeInto acc ((k, v) :: rest) = mergeInto (jSet acc k v) rest := by
  cases v with
  | null => exact absurd rfl h1
  | obj svs => exact absurd rfl (h2 svs)
  | bool b => simp [mergeInto]
  | num n => simp [mergeInto]
  | str s => simp [mergeInto]
  | arr xs => simp [mergeInto]

/-- Inner induction for `deepMerge_preserves`: folding source entries into an
accumulated object keeps the value at key `k` "good for the remaining path". -/
theorem mergeInto_preserves_key (ps : List String)
    (IH : ∀ t s, goodAt t ps → srcOk s ps → goodAt (deepMerge t s) ps) :
    ∀ (src acc : List (String × Json)) (k : String),
      (∃ t', jLookup acc k = some t' ∧ goodAt t' ps) →
      (∀ e ∈ src, e.1 = k → ps ≠ [] →
        e.2 = Json.null ∨ (∃ svs, e.2 = Json.obj svs ∧ srcOk e.2 ps)) →
      ∃ t'', jLookup (mergeInto acc src) k = some t'' ∧ goodAt t'' ps := by
  intro src
  induction src with
  | nil => intro acc k hacc _; simpa [mergeInto] using hacc
  | cons e rest ihRest =>
      intro acc k hacc hsrc
      obtain ⟨k', v⟩ := e
      obtain ⟨t', ht', hgood⟩ := hacc
      have hrest : ∀ e ∈ rest, e.1 = k → ps ≠ [] →
          e.2 = Json.null ∨ (∃ svs, e.2 = Json.obj svs ∧ srcOk e.2 ps) :=
        fun e he => hsrc e (List.mem_cons_of_mem _ he)
      by_cases hk : k' = k
      · -- the entry writes the tracked key
        subst hk
        cases v with
        | null =>
            rw [mergeInto_cons_null]
            exact ihRest acc k' ⟨t', ht', hgood⟩ hrest
        | obj svs =>
            have hsv : srcOk (Json.obj svs) ps := by
              cases ps with
              | nil => exact srcOk_nil _
              | cons q qs =>
                  have hhead := hsrc (k', Json.obj svs) (List.mem_cons_self _ _) rfl (by simp)
                  rcases hhead with h | ⟨svs', he, hok⟩
                  · exact absurd h (by simp)
                  · exact hok
            by_cases hobj : t'.isObjLike = true
            · rw [mergeInto_cons_obj_deep ht' hobj]
              refine ihRest _ k' ⟨_, jLookup_jSet_self _ _ _, ?_⟩ hrest
              have hd : Json.obj (mergeInto (entriesJS t') svs)
                  = deepMerge t' (Json.obj svs) := rfl
              rw [hd]
              exact IH t' (Json.obj svs) hgood hsv
            · rw [mergeInto_cons_obj_replace ht' (by simpa using hobj)]
              refine ihRest _ k' ⟨_, jLookup_jSet_self _ _ _, ?_⟩ hrest
              -- `t'` is not object-like, so the existing good path must be `[]`
              cases ps with
              | nil => exact goodAt_obj svs
              | cons q qs =>
                  obtain ⟨kvs0, t0, hv, _, _⟩ := goodAt_cons hgood
                  rw [hv] at hobj
                  simp [Json.isObjLike] at hobj
        | bool b =>
            rw [mergeInto_cons_scalar (by simp) (by simp)]
            cases ps with
            | nil =>
                refine ihRest _ k' ⟨_, jLookup_jSet_self _ _ _, ?_⟩ hrest
                exact ⟨_, rfl, by simp⟩
            | cons q qs =>
                have hhead := hsrc (k', Json.bool b) (List.mem_cons_self _ _) rfl (by simp)
                rcases hhead with h | ⟨svs', he, _⟩
                · exact absurd h (by simp)
                · exact absurd he (by simp)
        | num n =>
            rw [mergeInto_cons_scalar (by simp) (by simp)]
            cases ps with
            | nil =>
                refine ihRest _ k' ⟨_, jLookup_jSet_self _ _ _, ?_⟩ hrest
                exact ⟨_, rfl, by simp⟩
            | cons q qs =>
                have hhead := hsrc (k', Json.num n) (List.mem_cons_self _ _) rfl (by simp)
                rcases hhead with h | ⟨svs', he, _⟩
                · exact absurd h (by simp)
                · exact absurd he (by simp)
        | str s' =>
            rw [mergeInto_cons_scalar (by simp) (by simp)]
            cases ps with
            | nil =>
                refine ihRest _ k' ⟨_, jLookup_jSet_self _ _ _, ?_⟩ hrest
                exact ⟨_, rfl, by simp⟩
            | cons q qs =>
                have hhead := hsrc (k', Json.str s') (List.mem_cons_self _ _) rfl (by simp)
                rcases hhead with h | ⟨svs', he, _⟩
                · exact absurd h (by simp)
                · exact absurd he (by simp)
        | arr xs =>
            rw [mergeInto_cons_scalar (by simp) (by simp)]
            cases ps with
            | nil =>
                refine ihRest _ k' ⟨_, jLookup_jSet_self _ _ _, ?_⟩ hrest
                exact ⟨_, rfl, by simp⟩
            | cons q qs =>
                have hhead := hsrc (k', Json.arr xs) (List.mem_cons_self _ _) rfl (by simp)
                rcases hhead with h | ⟨svs', he, _⟩
                · exact absurd h (by simp)
                · exact absurd he (by simp)
      · -- the entry writes a different key: the tracked key is untouched
        have hkeep : ∀ x, jLookup (jSet acc k' x) k = some t' := fun x => by
          rw [jLookup_jSet_ne _ _ _ _ hk]; exact ht'
        cases v with
        | null =>
            rw [mergeInto_cons_null]
            exact ihRest acc k ⟨t', ht', hgood⟩ hrest
        | obj svs =>
            cases hl : jLookup acc k' with
            | some t0 =>
                by_cases hobj : t0.isObjLike = true
                · rw [mergeInto_cons_obj_deep hl hobj]
                  exact ihRest _ k ⟨t', hkeep _, hgood⟩ hrest
                · rw [mergeInto_cons_obj_replace hl (by simpa using hobj)]
                  exact ihRest _ k ⟨t', hkeep _, hgood⟩ hrest
            | none =>
                rw [mergeInto_cons_obj_new hl]
                exact ihRest _ k ⟨t', hkeep _, hgood⟩ hrest
        | bool b =>
            rw [mergeInto_cons_scalar (by simp) (by simp)]
            exact ihRest _ k ⟨t', hkeep _, hgood⟩ hrest
        | num n =>
            rw [mergeInto_cons_scalar (by simp) (by simp)]
            exact ihRest _ k ⟨t', hkeep _, hgood⟩ hrest
        | str s' =>
            rw [mergeInto_cons_scalar (by simp) (by simp)]
            exact ihRest _ k ⟨t', hkeep _, hgood⟩ hrest
        | arr xs =>
            rw [mergeInto_cons_scalar (by simp) (by simp)]
            exact ihRest _ k ⟨t', hkeep _, hgood⟩ hrest

/-- Single-observation preservation: a non-null leaf of `target` stays non-null
after `_deepMerge`, provided the observation does not overwrite a strict
ancestor of the leaf with a non-object value. -/
theorem deepMerge_preserves :
    ∀ (p : List String) (t s : Json), goodAt t p → srcOk s p →
      goodAt (deepMerge t s) p := by
  intro p
  induction p with
  | nil => intro t s _ _; exact goodAt_obj _
  | cons k ps IH =>
      intro t s hg hok
      obtain ⟨kvs, t', hv, ht', hgood⟩ := goodAt_cons hg
      subst hv
      have hsrc := srcOk_cons hok
      obtain ⟨t'', h1, h2⟩ :=
        mergeInto_preserves_key ps IH (entriesJS s) kvs k ⟨t', ht', hgood⟩ hsrc
      obtain ⟨u, hu, hnn⟩ := h2
      exact ⟨u, by rw [deepMerge, getPath, Json.entriesJS, h1]; exact hu, hnn⟩

/-- Simp set used to evaluate `deepMerge` on concrete values (its recursion is
well-founded, so it does not reduce definitionally). -/
theorem mergeInto_eval_aux : True := trivial

/-- **C1 (amended).**  Monotonic merge, as enforced by `_deepMerge`
(src/shared/patient-context.js:112–123): for every sequence of observations
merged into a profile state, every leaf field that is non-null in the state
remains non-null (possibly changed, never reset to null/undefined) after every
later observation, *provided* no later observation overwrites a strict
ancestor object of that leaf with a non-object value (`srcOkB`).  Without that
proviso the claim is false, see `claim_C1_counterexample`: `_deepMerge`
replaces a stored object wholesale when the incoming value at that key is a
non-null scalar, erasing the nested leaves. -/
theorem claim_C1_monotonic_merge (t : Json) (obs : List Json) (p : List String)
    (h1 : nonNullAt t p = true)
    (h2 : ∀ s ∈ obs, srcOkB s p = true) :
    nonNullAt (obs.foldl deepMerge t) p = true := by
  induction obs generalizing t with
  | nil => simpa using h1
  | cons s rest ih =>
      simp only [List.foldl_cons]
      refine ih (deepMerge t s) ?_ (fun s' hs' => h2 s' (List.mem_cons_of_mem _ hs'))
      rw [nonNullAt_iff_goodAt] at h1 ⊢
      exact deepMerge_preserves p t s h1 (h2 s (List.mem_cons_self _ _))

/-- Witness for C1: a non-null leaf (`insurance.carrier`) survives two further
observations, one of which tries to null it out and one of which updates it. -/
theorem claim_C1_monotonic_merge_witness :
    nonNullAt
      (List.foldl deepMerge
        (Json.obj [("insurance", Json.obj [("carrier", Json.str "Aetna")])])
        [Json.obj [("insurance", Json.obj [("carrier", Json.null)])],
         Json.obj [("insurance", Json.obj [("carrier", Json.str "Delta Dental")])]])
      ["insurance", "carrier"] = true :=
  claim_C1_monotonic_merge
    (Json.obj [("insurance", Json.obj [("carrier", Json.str "Aetna")])])
    [Json.obj [("insurance", Json.obj [("carrier", Json.null)])],
     Json.obj [("insurance", Json.obj [("carrier", Json.str "Delta Dental")])]]
    ["insurance", "carrier"]
    (by rfl)
    (by intro s hs
        simp only [List.mem_cons, List.not_mem_nil, or_false] at hs
        rcases hs with h | h <;> subst h <;> simp [srcOkB, entriesJS])

/-- **C1, claim as stated is false**: a leaf (`insurance.carrier.name`) that is
non-null after one observation is erased (undefined, hence no longer non-null)
by a later observation whose `insurance.carrier` is a non-null string, because
`_deepMerge` takes the `else` branch and overwrites the stored object. -/
theorem claim_C1_counterexample :
    nonNullAt
      (Json.obj [("insurance",
        Json.obj [("carrier", Json.obj [("name", Json.str "Aetna")])])])
      ["insurance", "carrier", "name"] = true
    ∧ nonNullAt
      (deepMerge
        (Json.obj [("insurance",
          Json.obj [("carrier", Json.obj [("name", Json.str "Aetna")])])])
        (Json.obj [("insurance", Json.obj [("carrier", Json.str "Delta")])]))
      ["insurance", "carrier", "name"] = false := by
  constructor
  · rfl
  · have e2 : jLookup [("insurance",
        Json.obj [("carrier", Json.obj [("name", Json.str "Aetna")])])] "insurance"
        = some (Json.obj [("carrier", Json.obj [("name", Json.str "Aetna")])]) := rfl
    rw [deepMerge]
    simp only [entriesJS]
    rw [mergeInto_cons_obj_deep e2 rfl]
    simp only [entriesJS]
    rw [mergeInto_cons_scalar (v := Json.str "Delta") (by simp) (by simp)]
    rw [mergeInto_nil, mergeInto_nil]
    rfl

/-! ## C10 — short-input guard -/

/-- **C10.**  For every input that is absent (`null`/`undefined`), empty, or
shorter than 100 characters, `scanAndMerge` returns `null`, leaves the profile
store and extraction cache untouched, and never consults the extractor oracle,
the identity extractor, the date parser, or the stored state — the result is
the same for every oracle, extractor, store and cache
(patient-context.js line 31: `if (!pageText || pageText.length < 100) return null`). -/
theorem claim_C10_short_input_guard
    (extractorPresent : Bool) (extractName : String → Option String)
    (oracle : String → Option ParsedLLM) (parseDate : String → Option Int)
    (now : Nat) (st : ProfileStore) (cache : ExtCache) (text : Option String)
    (h : text = none ∨ ∃ t, text = some t ∧ t.length < 100) :
    scanAndMerge extractorPresent extractName oracle parseDate now st cache text
      = (none, st, cache) := by
  rcases h with h | ⟨t, ht, hlen⟩
  · subst h; rfl
  · subst ht
    simp [scanAndMerge, hlen]

/-- Witness for C10 at the empty string (length 0 < 100). -/
theorem claim_C10_short_input_guard_witness :
    scanAndMerge true (fun _ => none) (fun _ => none) (fun _ => none) 0 [] []
      (some "") = (none, [], []) :=
  claim_C10_short_input_guard true (fun _ => none) (fun _ => none)
    (fun _ => none) 0 [] [] (some "") (Or.inr ⟨"", rfl, by decide⟩)

/-! ## C4 — serialized, coalesced merges -/

/-- **C4.**  The `isScanning`/`pendingScanText` guard of
`scanPatientAndShowActions` (part_007 lines 296–303, 374–382):
(1) in every reachable scheduler state at most one scan body is in flight,
and the guard flag is set exactly while one is;
(2) an observation arriving while one is in flight starts nothing — it only
overwrites the single pending slot, so only the most recent pending text
survives; and
(3) when the in-flight scan completes with a queued text, its merge result is
applied (appended to `merged`) before the queued text starts running. -/
theorem claim_C4_serialized_coalesced :
    (∀ evs : List SchedEvent,
        (schedRun evs).running.length ≤ 1
        ∧ ((schedRun evs).isScanning = true ↔ (schedRun evs).running ≠ []))
    ∧ (∀ (st : SchedState) (t : String), st.isScanning = true →
        schedStep st (.arrive t) = { st with pendingScanText := some t })
    ∧ (∀ (st : SchedState) (r : String) (rest : List String) (q : String),
        st.running = r :: rest → st.pendingScanText = some q →
        schedStep st .complete
          = ⟨true, none, rest ++ [q], st.merged ++ [r]⟩) := by
  have step : ∀ (st : SchedState) (ev : SchedEvent),
      st.running.length ≤ 1 → (st.isScanning = true ↔ st.running ≠ []) →
      (schedStep st ev).running.length ≤ 1
        ∧ ((schedStep st ev).isScanning = true ↔ (schedStep st ev).running ≠ []) := by
    intro st ev h1 h2
    cases ev with
    | arrive t =>
        by_cases hs : st.isScanning = true
        · exact ⟨by simpa [schedStep, hs] using h1, by simpa [schedStep, hs] using h2⟩
        · have hrun : st.running = [] := by
            by_contra hne
            exact hs (h2.mpr hne)
          exact ⟨by simp [schedStep, hs, hrun], by simp [schedStep, hs, hrun]⟩
    | complete =>
        cases hr : st.running with
        | nil =>
            exact ⟨by simp [schedStep, hr], by simpa [schedStep, hr] using h2⟩
        | cons r tl =>
            have htl : tl = [] := by
              rw [hr] at h1
              simpa using h1
            subst htl
            cases hp : st.pendingScanText with
            | none => exact ⟨by simp [schedStep, hr, hp], by simp [schedStep, hr, hp]⟩
            | some q => exact ⟨by simp [schedStep, hr, hp], by simp [schedStep, hr, hp]⟩
  have main : ∀ (evs : List SchedEvent) (st : SchedState),
      st.running.length ≤ 1 → (st.isScanning = true ↔ st.running ≠ []) →
      (evs.foldl schedStep st).running.length ≤ 1
        ∧ ((evs.foldl schedStep st).isScanning = true
            ↔ (evs.foldl schedStep st).running ≠ []) := by
    intro evs
    induction evs with
    | nil => intro st h1 h2; exact ⟨h1, h2⟩
    | cons ev rest ih =>
        intro st h1 h2
        simp only [List.foldl_cons]
        exact ih _ (step st ev h1 h2).1 (step st ev h1 h2).2
  refine ⟨fun evs => main evs schedInit (by simp [schedInit]) (by simp [schedInit]),
    fun st t h => by simp [schedStep, h], ?_⟩
  intro st r rest q hr hq
  simp [schedStep, hr, hq]

/-! ## C6 — bounded stores -/

theorem alookup_eq_none {α : Type} (l : List (String × α)) (k : String)
    (h : k ∉ l.map Prod.fst) : alookup l k = none := by
  induction l with
  | nil => rfl
  | cons e rest ih =>
      simp only [List.map_cons, List.mem_cons] at h
      push_neg at h
      simp [alookup, Ne.symm h.1, ih h.2]

theorem aset_of_not_mem {α : Type} (l : List (String × α)) (k : String) (v : α)
    (h : k ∉ l.map Prod.fst) : aset l k v = l ++ [(k, v)] := by
  induction l with
  | nil => rfl
  | cons e rest ih =>
      simp only [List.map_cons, List.mem_cons] at h
      push_neg at h
      simp [aset, Ne.symm h.1, ih h.2]

theorem alookup_entry {α : Type} (l : List (String × α))
    (hnd : (l.map Prod.fst).Nodup) :
    ∀ e ∈ l, alookup l e.1 = some e.2 := by
  induction l with
  | nil => intro e he; cases he
  | cons e0 rest ih =>
      intro e he
      simp only [List.map_cons, List.nodup_cons] at hnd
      rcases List.mem_cons.1 he with h | h
      · subst h; simp [alookup]
      · have hne : e0.1 ≠ e.1 := by
          intro hcontra
          exact hnd.1 (hcontra ▸ List.mem_map_of_mem Prod.fst h)
        simp [alookup, hne, ih hnd.2 e h]

theorem sortByTime_of_sorted (f : String → Nat) (ks : List String)
    (h : ks.Pairwise (fun a b => f a ≤ f b)) : sortByTime f ks = ks := by
  induction ks with
  | nil => rfl
  | cons x xs ih =>
      rw [List.pairwise_cons] at h
      rw [sortByTime, ih h.2]
      cases xs with
      | nil => rfl
      | cons y ys =>
          rw [insertByTime, if_pos (h.1 y (List.mem_cons_self _ _))]

theorem aremoveAll_keep {α : Type} (l : List (String × α)) (ks : List String)
    (h : ∀ e ∈ l, e.1 ∉ ks) : aremoveAll l ks = l := by
  unfold aremoveAll
  rw [List.filter_eq_self]
  intro e he
  simpa using h e he

/-- `boundedPut` on a fresh key with the store at capacity: evict the oldest
entries after the (identity) sort. -/
theorem boundedPut_full {α : Type} {cap : Nat} {time : α → Nat}
    {D : List (String × α)} {k : String} {v : α}
    (hfresh : k ∉ D.map Prod.fst) (hlen : cap < D.length + 1)
    (hsorted : sortByTime
        (fun kk => match alookup (D ++ [(k, v)]) kk with
         | some c => time c | none => 0)
        ((D ++ [(k, v)]).map Prod.fst) = (D ++ [(k, v)]).map Prod.fst) :
    boundedPut cap time D k v
      = aremoveAll (D ++ [(k, v)])
          (((D ++ [(k, v)]).map Prod.fst).take (D.length + 1 - cap)) := by
  unfold boundedPut
  simp only [aset_of_not_mem _ _ _ hfresh]
  rw [if_pos (by simpa using hlen), hsorted]
  congr 2
  simp

theorem boundedPut_small {α : Type} {cap : Nat} {time : α → Nat}
    {D : List (String × α)} {k : String} {v : α}
    (hfresh : k ∉ D.map Prod.fst) (hlen : D.length + 1 ≤ cap) :
    boundedPut cap time D k v = D ++ [(k, v)] := by
  unfold boundedPut
  simp only [aset_of_not_mem _ _ _ hfresh]
  rw [if_neg (by simp; omega)]

theorem cacheResult_evict {cache : ExtCache} {k : String} {r : LLMResult}
    (h : 50 ≤ cache.length) (hfresh : k ∉ (cache.drop 1).map Prod.fst) :
    cacheResult cache k r = cache.drop 1 ++ [(k, r)] := by
  simp only [cacheResult]
  rw [if_pos h, aset_of_not_mem _ _ _ hfresh]

theorem cacheResult_noevict {cache : ExtCache} {k : String} {r : LLMResult}
    (h : ¬ 50 ≤ cache.length) (hfresh : k ∉ cache.map Prod.fst) :
    cacheResult cache k r = cache ++ [(k, r)] := by
  simp only [cacheResult]
  rw [if_neg h, aset_of_not_mem _ _ _ hfresh]

/-- The generic fold behaviour of `boundedPut`: with pairwise-distinct keys
and strictly increasing staleness timestamps, the store is always the suffix
of the most recent `cap` insertions. -/
theorem boundedPut_fold {α : Type} (cap : Nat) (hcap : 0 < cap)
    (time : α → Nat) (entries : List (String × α))
    (hnd : (entries.map Prod.fst).Nodup)
    (hinc : entries.Pairwise (fun a b => time a.2 < time b.2)) :
    entries.foldl (fun st e => boundedPut cap time st e.1 e.2) []
      = entries.drop (entries.length - cap) := by
  induction entries using List.reverseRecOn with
  | nil => simp
  | append_singleton l e ih =>
      obtain ⟨k, v⟩ := e
      rw [List.map_append, List.nodup_append] at hnd
      obtain ⟨hnd_l, _, hdisj⟩ := hnd
      have hk : k ∉ l.map Prod.fst := by
        intro hmem
        exact hdisj hmem (by simp)
      rw [List.pairwise_append] at hinc
      obtain ⟨hinc_l, _, htime⟩ := hinc
      have htv : ∀ a ∈ l, time a.2 < time v := fun a ha =>
        htime a ha (k, v) (by simp)
      rw [List.foldl_append, ih hnd_l hinc_l]
      simp only [List.foldl_cons, List.foldl_nil]
      set D := l.drop (l.length - cap) with hD
      have hDsub : D.Sublist l := List.drop_sublist _ _
      have hDkeys : List.Sublist (D.map Prod.fst) (l.map Prod.fst) :=
        hDsub.map _
      have hkD : k ∉ D.map Prod.fst := fun hmem => hk (hDkeys.mem hmem)
      have hDnd : (D.map Prod.fst).Nodup := hnd_l.sublist hDkeys
      have hDlen : D.length = l.length - (l.length - cap) := by
        rw [hD, List.length_drop]
      by_cases hbig : cap ≤ l.length
      · -- the store is full: one eviction, oldest key first
        have hDcap : D.length = cap := by omega
        have hall1nd : ((D ++ [(k, v)]).map Prod.fst).Nodup := by
          rw [List.map_append, List.nodup_append]
          refine ⟨hDnd, by simp, ?_⟩
          intro a ha hb
          simp only [List.map_cons, List.map_nil, List.mem_singleton] at hb
          subst hb
          exact hkD ha
        have hallpw : (D ++ [(k, v)]).Pairwise
            (fun a b => time a.2 < time b.2) := by
          rw [List.pairwise_append]
          refine ⟨hinc_l.sublist hDsub, by simp, ?_⟩
          intro a ha b hb
          simp only [List.mem_singleton] at hb
          subst hb
          exact htv a (hDsub.mem ha)
        have hf : ∀ e' ∈ D ++ [(k, v)],
            (match alookup (D ++ [(k, v)]) e'.1 with
             | some c => time c
             | none => 0) = time e'.2 := by
          intro e' he'
          rw [alookup_entry _ hall1nd e' he']
        have hsorted : sortByTime
            (fun kk => match alookup (D ++ [(k, v)]) kk with
             | some c => time c | none => 0)
            ((D ++ [(k, v)]).map Prod.fst) = (D ++ [(k, v)]).map Prod.fst := by
          apply sortByTime_of_sorted
          rw [List.pairwise_map]
          apply hallpw.imp_of_mem
          intro a b ha hb hlt
          rw [hf a ha, hf b hb]
          omega
        rw [boundedPut_full hkD (by omega) hsorted]
        obtain ⟨d0, D', hD0⟩ : ∃ d0 D', D = d0 :: D' := by
          cases hDD : D with
          | nil => rw [hDD] at hDcap; simp at hDcap; omega
          | cons d0 D' => exact ⟨d0, D', rfl⟩
        rw [hDcap, hD0]
        have htake1 : cap + 1 - cap = 1 := by omega
        rw [htake1]
        have htake : (((d0 :: D') ++ [(k, v)]).map Prod.fst).take 1 = [d0.1] := by
          simp
        rw [htake]
        have hd0nd : d0.1 ∉ (D' ++ [(k, v)]).map Prod.fst := by
          have h1 := hall1nd
          rw [hD0] at h1
          rw [show ((d0 :: D') ++ [(k, v)]).map Prod.fst
              = d0.1 :: (D' ++ [(k, v)]).map Prod.fst from by simp] at h1
          exact (List.nodup_cons.1 h1).1
        have hdrop : aremoveAll ((d0 :: D') ++ [(k, v)]) [d0.1]
            = D' ++ [(k, v)] := by
          rw [show (d0 :: D') ++ [(k, v)] = d0 :: (D' ++ [(k, v)]) from rfl]
          unfold aremoveAll
          rw [List.filter_cons]
          rw [if_neg (by simp)]
          apply aremoveAll_keep
          intro e' he'
          have hkeys : e'.1 ∈ (D' ++ [(k, v)]).map Prod.fst :=
            List.mem_map_of_mem Prod.fst he'
          simp only [List.mem_singleton]
          intro hcontra
          exact hd0nd (hcontra ▸ hkeys)
        rw [hdrop]
        -- right-hand side
        have hrhs : (l ++ [(k, v)]).drop (l.length + 1 - cap)
            = l.drop (l.length + 1 - cap) ++ [(k, v)] :=
          List.drop_append_of_le_length (by omega)
        have hD' : D' = l.drop (l.length + 1 - cap) := by
          have hdd : D.drop 1 = l.drop (l.length - cap + 1) := by
            rw [hD, List.drop_drop]
          rw [hD0] at hdd
          simp only [List.drop_one, List.tail_cons] at hdd
          rw [hdd]
          congr 1
          omega
        rw [show (l ++ [(k, v)]).length = l.length + 1 from by simp, hrhs, hD']
      · -- below capacity: plain insert, no eviction
        have hD_eq : D = l := by
          rw [hD, show l.length - cap = 0 from by omega, List.drop_zero]
        rw [hD_eq] at hkD ⊢
        rw [boundedPut_small hkD (by omega)]
        rw [show (l ++ [(k, v)]).length = l.length + 1 from by simp,
          show l.length + 1 - cap = 0 from by omega, List.drop_zero]

/-- The fold behaviour of the insertion-ordered extraction cache
(`_cacheResult`): with distinct hashes the cache is the suffix of the most
recent 50 insertions. -/
theorem cacheResult_fold (entries : List (String × LLMResult))
    (hnd : (entries.map Prod.fst).Nodup) :
    entries.foldl (fun c e => cacheResult c e.1 e.2) []
      = entries.drop (entries.length - 50) := by
  induction entries using List.reverseRecOn with
  | nil => simp
  | append_singleton l e ih =>
      obtain ⟨k, v⟩ := e
      rw [List.map_append, List.nodup_append] at hnd
      obtain ⟨hnd_l, _, hdisj⟩ := hnd
      have hk : k ∉ l.map Prod.fst := by
        intro hmem
        exact hdisj hmem (by simp)
      rw [List.foldl_append, ih hnd_l]
      simp only [List.foldl_cons, List.foldl_nil]
      set D := l.drop (l.length - 50) with hD
      have hDsub : D.Sublist l := List.drop_sublist _ _
      have hkD : k ∉ D.map Prod.fst := fun hmem => hk ((hDsub.map _).mem hmem)
      have hDlen : D.length = l.length - (l.length - 50) := by
        rw [hD, List.length_drop]
      by_cases hbig : 50 ≤ l.length
      · have hkD1 : k ∉ (D.drop 1).map Prod.fst := fun hmem =>
          hkD (((List.drop_sublist _ _).map _).mem hmem)
        rw [cacheResult_evict (by omega) hkD1]
        have hdd : D.drop 1 = l.drop (l.length + 1 - 50) := by
          rw [hD, List.drop_drop]
          congr 1
          omega
        rw [hdd]
        rw [show (l ++ [(k, v)]).length = l.length + 1 from by simp]
        rw [List.drop_append_of_le_length (by omega)]
      · have hD_eq : D = l := by
          rw [hD, show l.length - 50 = 0 from by omega, List.drop_zero]
        rw [hD_eq] at hkD ⊢
        rw [cacheResult_noevict (by omega) hkD]
        rw [show (l ++ [(k, v)]).length = l.length + 1 from by simp,
          show l.length + 1 - 50 = 0 from by omega, List.drop_zero]

/-- Keys of a dropped prefix are absent from the final store. -/
theorem alookup_drop_of_take {α : Type} (entries : List (String × α)) (n : Nat)
    (hnd : (entries.map Prod.fst).Nodup) :
    ∀ e ∈ entries.take n, alookup (entries.drop n) e.1 = none := by
  intro e he
  apply alookup_eq_none
  intro hmem
  have hsplit := List.take_append_drop n entries
  have : (entries.map Prod.fst).Nodup := hnd
  rw [← hsplit, List.map_append, List.nodup_append] at this
  exact this.2.2 (List.mem_map_of_mem Prod.fst he) hmem

/-- When every card is cacheable, folding `cacheCard` is folding `boundedPut`
over the derived (key, entry) pairs. -/
theorem cacheCard_foldl_eq (cards : List (Card × Nat)) (st : CardCache)
    (h : ∀ e ∈ cards, (cacheKeyOfCard e.1).isSome) :
    cards.foldl (fun st e => cacheCard st e.1 e.2) st
      = (cards.map fun e => ((cacheKeyOfCard e.1).getD "",
          (⟨e.1, e.2, e.1.sourceUrl⟩ : CachedCard))).foldl
          (fun st e => boundedPut 200 (fun x => x.cachedAt) st e.1 e.2) st := by
  induction cards generalizing st with
  | nil => rfl
  | cons e rest ih =>
      simp only [List.map_cons, List.foldl_cons]
      cases hkey : cacheKeyOfCard e.1 with
      | none =>
          have := h e (List.mem_cons_self _ _)
          rw [hkey] at this
          simp at this
      | some key =>
          rw [show cacheCard st e.1 e.2
              = boundedPut 200 (fun x => x.cachedAt) st key ⟨e.1, e.2, e.1.sourceUrl⟩ from by
            unfold cacheCard
            rw [hkey]]
          simp only [Option.getD_some]
          exact ih _ fun e' he' => h e' (List.mem_cons_of_mem _ he')

/-- **C6.**  All three bounded stores keep exactly their capacity after
capacity+k distinct-key insertions, and the k earliest entries by the store's
ordering key are absent:
(1) the extraction cache (`_cacheResult`, capacity 50, insertion order);
(2) the profile store (`patientContext.save`, capacity 100, ordered by
`lastUpdated`, here strictly increasing along the insertions as the code
stamps `lastUpdated` at each save);
(3) the benefit-card store (`storage.cacheCard`, capacity 200, ordered by
`cachedAt`). -/
theorem claim_C6_bounded_stores :
    (∀ (entries : List (String × LLMResult)) (k : Nat),
        (entries.map Prod.fst).Nodup → entries.length = 50 + k →
        (entries.foldl (fun c e => cacheResult c e.1 e.2) []).length = 50
        ∧ ∀ e ∈ entries.take k,
            alookup (entries.foldl (fun c e => cacheResult c e.1 e.2) []) e.1 = none)
    ∧ (∀ (cs : List Ctx) (k : Nat),
        (cs.map fun c => toLowerJS c.patientName).Nodup →
        cs.Pairwise (fun a b => dateVal a.lastUpdated < dateVal b.lastUpdated) →
        cs.length = 100 + k →
        (cs.foldl save []).length = 100
        ∧ ∀ c ∈ cs.take k, alookup (cs.foldl save []) (toLowerJS c.patientName) = none)
    ∧ (∀ (cards : List (Card × Nat)) (k : Nat),
        (cards.map fun e => cacheKeyOfCard e.1).Nodup →
        (∀ e ∈ cards, (cacheKeyOfCard e.1).isSome) →
        cards.Pairwise (fun a b => a.2 < b.2) →
        cards.length = 200 + k →
        (cards.foldl (fun st e => cacheCard st e.1 e.2) []).length = 200
        ∧ ∀ e ∈ cards.take k, ∀ key, cacheKeyOfCard e.1 = some key →
            alookup (cards.foldl (fun st e => cacheCard st e.1 e.2) []) key = none) := by
  refine ⟨?_, ?_, ?_⟩
  · -- extraction cache
    intro entries k hnd hlen
    have h := cacheResult_fold entries hnd
    rw [hlen] at h
    have hk : 50 + k - 50 = k := by omega
    rw [hk] at h
    constructor
    · rw [h, List.length_drop, hlen]
      omega
    · intro e he
      rw [h]
      exact alookup_drop_of_take entries k hnd e he
  · -- profile store
    intro cs k hnd hpw hlen
    have hnd' : ((cs.map fun c => (toLowerJS c.patientName, c)).map Prod.fst).Nodup := by
      rw [List.map_map]
      exact hnd
    have hpw' : (cs.map fun c => (toLowerJS c.patientName, c)).Pairwise
        (fun a b => dateVal a.2.lastUpdated < dateVal b.2.lastUpdated) :=
      List.pairwise_map.mpr hpw
    have h := boundedPut_fold 100 (by omega)
      (fun c => dateVal c.lastUpdated)
      (cs.map fun c => (toLowerJS c.patientName, c)) hnd' hpw'
    rw [List.foldl_map] at h
    have h' : cs.foldl save []
        = (cs.map fun c => (toLowerJS c.patientName, c)).drop
            ((cs.map fun c => (toLowerJS c.patientName, c)).length - 100) := h
    have hlen' : (cs.map fun c => (toLowerJS c.patientName, c)).length - 100 = k := by
      rw [List.length_map, hlen]
      omega
    rw [hlen'] at h'
    constructor
    · rw [h', List.length_drop, List.length_map, hlen]
      omega
    · intro c hc
      rw [h']
      have hmem : (toLowerJS c.patientName, c)
          ∈ (cs.map fun c => (toLowerJS c.patientName, c)).take k := by
        rw [← List.map_take]
        exact List.mem_map_of_mem _ hc
      exact alookup_drop_of_take _ k hnd' (toLowerJS c.patientName, c) hmem
  · -- benefit-card store
    intro cards k hnd hsome hpw hlen
    have heq := cacheCard_foldl_eq cards [] hsome
    set entries := cards.map fun e => ((cacheKeyOfCard e.1).getD "",
      (⟨e.1, e.2, e.1.sourceUrl⟩ : CachedCard)) with hentries
    have hnd' : (entries.map Prod.fst).Nodup := by
      rw [hentries, List.map_map]
      have : (Prod.fst ∘ fun e : Card × Nat => ((cacheKeyOfCard e.1).getD "",
          (⟨e.1, e.2, e.1.sourceUrl⟩ : CachedCard)))
          = fun e : Card × Nat => (cacheKeyOfCard e.1).getD "" := rfl
      rw [this]
      have hmap : (cards.map fun e => (cacheKeyOfCard e.1).getD "")
          = (cards.map fun e => cacheKeyOfCard e.1).map fun o => o.getD "" := by
        rw [List.map_map]
        rfl
      rw [hmap]
      apply List.Nodup.map_on ?_ hnd
      intro x hx y hy hxy
      obtain ⟨ex, hex, hox⟩ := List.mem_map.1 hx
      obtain ⟨ey, hey, hoy⟩ := List.mem_map.1 hy
      have hx' := hsome ex hex
      have hy' := hsome ey hey
      rw [hox] at hx'
      rw [hoy] at hy'
      cases x with
      | none => simp at hx'
      | some a =>
          cases y with
          | none => simp at hy'
          | some b => simpa using hxy
    have hpw' : entries.Pairwise (fun a b => a.2.cachedAt < b.2.cachedAt) := by
      rw [hentries]
      exact List.pairwise_map.mpr hpw
    have h := boundedPut_fold 200 (by omega) (fun x => x.cachedAt) entries hnd' hpw'
    have hlen' : entries.length - 200 = k := by
      rw [hentries, List.length_map, hlen]
      omega
    rw [hlen'] at h
    rw [heq, h]
    constructor
    · rw [List.length_drop, hentries, List.length_map, hlen]
      omega
    · intro e he key hkey
      have hmem : ((cacheKeyOfCard e.1).getD "",
          (⟨e.1, e.2, e.1.sourceUrl⟩ : CachedCard)) ∈ entries.take k := by
        rw [hentries, ← List.map_take]
        exact List.mem_map_of_mem _ he
      have := alookup_drop_of_take entries k hnd' _ hmem
      rw [hkey] at this
      simpa using this

theorem repStr_length (n : Nat) : (repStr n).length = n := by
  show (List.replicate n 'a').length = n
  exact List.length_replicate n 'a'

theorem repStr_inj {i j : Nat} (h : repStr i = repStr j) : i = j := by
  have hl := congrArg String.length h
  rwa [repStr_length, repStr_length] at hl

theorem repStr_ne_empty (i : Nat) : repStr (i+1) ≠ "" := by
  intro h
  have hl := congrArg String.length h
  rw [repStr_length, show String.length "" = 0 from rfl] at hl
  omega

theorem toLowerJS_repStr (n : Nat) : toLowerJS (repStr n) = repStr n := by
  show (⟨(List.replicate n 'a').map Char.toLower⟩ : String) = ⟨List.replicate n 'a'⟩
  rw [List.map_replicate]
  rfl

theorem dropWhile_ws_replicate_a (n : Nat) :
    List.dropWhile jsWs (List.replicate n 'a') = List.replicate n 'a' := by
  cases n with
  | zero => rfl
  | succ m =>
      rw [List.replicate_succ, List.dropWhile_cons, if_neg (by decide)]

theorem jsTrim_repStr (n : Nat) : jsTrim (repStr n) = repStr n := by
  show (⟨trimChars (List.replicate n 'a')⟩ : String) = ⟨List.replicate n 'a'⟩
  unfold trimChars
  rw [dropWhile_ws_replicate_a, List.reverse_replicate, dropWhile_ws_replicate_a,
    List.reverse_replicate]

theorem norml_some_repStr (n : Nat) : norml (some (repStr n)) = repStr n := by
  show toLowerJS (jsTrim ((some (repStr n)).getD "")) = repStr n
  rw [show (some (repStr n)).getD "" = repStr n from rfl, jsTrim_repStr, toLowerJS_repStr]

theorem keyChain_name_only (s : String) (hs : s ≠ "") :
    keyChain "" s "" = some ("name:" ++ s) := by
  unfold keyChain
  rw [if_neg (fun h => h.1 rfl), if_neg (fun h => h.2 rfl), if_neg (fun h => h rfl),
    if_pos hs]

theorem cacheKeyOfCard_cardW (i : Nat) :
    cacheKeyOfCard (cardW i) = some ("name:" ++ repStr (i+1)) := by
  show keyChain (norml none) (norml (some (repStr (i+1)))) (norml none) = _
  rw [norml_some_repStr]
  show keyChain "" (repStr (i+1)) "" = _
  exact keyChain_name_only _ (repStr_ne_empty i)

theorem nodup_range_map {α : Type} (f : Nat → α) (n : Nat)
    (hf : ∀ i j, f i = f j → i = j) :
    ((List.range n).map f).Nodup := by
  apply List.Nodup.map_on ?_ (List.nodup_range n)
  intro x _ y _ hxy
  exact hf x y hxy

theorem pairwise_range_map {α : Type} (f : Nat → α) (r : α → α → Prop) (n : Nat)
    (hf : ∀ i j, i < j → r (f i) (f j)) :
    ((List.range n).map f).Pairwise r :=
  List.Pairwise.map f (fun a b hab => hf a b hab) (List.pairwise_lt_range n)

theorem extEntriesW_nodup : (extEntriesW.map Prod.fst).Nodup := by
  unfold extEntriesW
  rw [List.map_map]
  apply nodup_range_map
  intro i j hij
  have h : repStr (i+1) = repStr (j+1) := hij
  have := repStr_inj h
  omega

theorem extEntriesW_len : extEntriesW.length = 50 + 1 := by
  unfold extEntriesW
  rw [List.length_map, List.length_range]

theorem profilesW_nodup : (profilesW.map fun c => toLowerJS c.patientName).Nodup := by
  unfold profilesW
  rw [List.map_map]
  apply nodup_range_map
  intro i j hij
  have h : toLowerJS (repStr (i+1)) = toLowerJS (repStr (j+1)) := hij
  rw [toLowerJS_repStr, toLowerJS_repStr] at h
  have := repStr_inj h
  omega

theorem profilesW_pairwise :
    profilesW.Pairwise (fun a b => dateVal a.lastUpdated < dateVal b.lastUpdated) := by
  unfold profilesW
  apply pairwise_range_map
  intro i j hij
  show dateVal (some i) < dateVal (some j)
  simpa [dateVal] using hij

theorem profilesW_len : profilesW.length = 100 + 1 := by
  unfold profilesW
  rw [List.length_map, List.length_range]

theorem cardsW_nodup : (cardsW.map fun e => cacheKeyOfCard e.1).Nodup := by
  unfold cardsW
  rw [List.map_map]
  apply nodup_range_map
  intro i j hij
  have h : cacheKeyOfCard (cardW i) = cacheKeyOfCard (cardW j) := hij
  rw [cacheKeyOfCard_cardW, cacheKeyOfCard_cardW] at h
  have h2 := Option.some.inj h
  have hl := congrArg String.length h2
  rw [String.length_append, String.length_append, repStr_length, repStr_length] at hl
  omega

theorem cardsW_some : ∀ e ∈ cardsW, (cacheKeyOfCard e.1).isSome := by
  intro e he
  unfold cardsW at he
  obtain ⟨i, -, rfl⟩ := List.mem_map.1 he
  rw [show ((cardW i, i) : Card × Nat).1 = cardW i from rfl, cacheKeyOfCard_cardW]
  rfl

theorem cardsW_pairwise : cardsW.Pairwise (fun a b => a.2 < b.2) := by
  unfold cardsW
  apply pairwise_range_map
  intro i j hij
  simpa using hij

theorem cardsW_len : cardsW.length = 200 + 1 := by
  unfold cardsW
  rw [List.length_map, List.length_range]

/-- Witness for C6: 51 distinct keys, 101 profiles with increasing
`lastUpdated`, and 201 cacheable cards with increasing `cachedAt`. -/
theorem claim_C6_bounded_stores_witness :
    ((extEntriesW.foldl (fun c e => cacheResult c e.1 e.2) []).length = 50
      ∧ ∀ e ∈ extEntriesW.take 1,
          alookup (extEntriesW.foldl (fun c e => cacheResult c e.1 e.2) []) e.1 = none)
    ∧ ((profilesW.foldl save []).length = 100
      ∧ ∀ c ∈ profilesW.take 1,
          alookup (profilesW.foldl save []) (toLowerJS c.patientName) = none)
    ∧ ((cardsW.foldl (fun st e => cacheCard st e.1 e.2) []).length = 200
      ∧ ∀ e ∈ cardsW.take 1, ∀ key, cacheKeyOfCard e.1 = some key →
          alookup (cardsW.foldl (fun st e => cacheCard st e.1 e.2) []) key = none) :=
  ⟨claim_C6_bounded_stores.1 extEntriesW 1 extEntriesW_nodup extEntriesW_len,
   claim_C6_bounded_stores.2.1 profilesW 1 profilesW_nodup profilesW_pairwise profilesW_len,
   claim_C6_bounded_stores.2.2 cardsW 1 cardsW_nodup cardsW_some cardsW_pairwise cardsW_len⟩

/-! ## C2 — section-union monotonicity -/

theorem alookup_aset_self {α : Type} (l : List (String × α)) (k : String) (v : α) :
    alookup (aset l k v) k = some v := by
  induction l with
  | nil => simp [aset, alookup]
  | cons e rest ih =>
      obtain ⟨k', v'⟩ := e
      by_cases h : k' = k
      · simp [aset, h, alookup]
      · simp [aset, h, alookup, ih]

theorem alookup_aset_ne {α : Type} (l : List (String × α)) (k' k : String) (v : α)
    (h : k' ≠ k) : alookup (aset l k' v) k = alookup l k := by
  induction l with
  | nil => simp [aset, alookup, h]
  | cons e rest ih =>
      obtain ⟨k₀, v₀⟩ := e
      by_cases h0 : k₀ = k'
      · subst h0
        simp [aset, alookup, h]
      · by_cases h1 : k₀ = k
        · simp [aset, h0, alookup, h1, Ne.symm h]
        · simp [aset, h0, alookup, h1, ih]

/-- Lookup after key-based removal: a removed key is gone, others are
untouched (no key-distinctness needed, since removal is by key). -/
theorem alookup_aremoveAll {α : Type} (l : List (String × α)) (ks : List String)
    (κ : String) :
    alookup (aremoveAll l ks) κ = if κ ∈ ks then none else alookup l κ := by
  induction l with
  | nil => simp [aremoveAll, alookup]
  | cons e rest ih =>
      obtain ⟨k0, v0⟩ := e
      by_cases hk0 : k0 ∈ ks
      · have hstep : aremoveAll ((k0, v0) :: rest) ks = aremoveAll rest ks := by
          unfold aremoveAll
          rw [List.filter_cons, if_neg (by simpa using hk0)]
        rw [hstep, ih]
        by_cases hκ : κ ∈ ks
        · simp [hκ]
        · have hne : k0 ≠ κ := fun hc => hκ (hc ▸ hk0)
          simp [hκ, alookup, hne]
      · have hstep : aremoveAll ((k0, v0) :: rest) ks
            = (k0, v0) :: aremoveAll rest ks := by
          unfold aremoveAll
          rw [List.filter_cons, if_pos (by simpa using hk0)]
        rw [hstep]
        by_cases he : k0 = κ
        · subst he
          simp [alookup, hk0]
        · simp [alookup, he, ih]

/-- Any binding readable after `boundedPut` is either the just-written value
at its key or was already readable before. -/
theorem boundedPut_lookup_or {α : Type} {cap : Nat} {time : α → Nat}
    {st : List (String × α)} {k : String} {v : α} {κ : String} {c' : α}
    (h : alookup (boundedPut cap time st k v) κ = some c') :
    (κ = k ∧ c' = v) ∨ alookup st κ = some c' := by
  have hset : ∀ x, alookup (aset st k v) κ = some x →
      (κ = k ∧ x = v) ∨ alookup st κ = some x := by
    intro x hx
    by_cases hκ : κ = k
    · subst hκ
      rw [alookup_aset_self] at hx
      exact Or.inl ⟨rfl, (Option.some_injective _ hx).symm⟩
    · rw [alookup_aset_ne _ _ _ _ (Ne.symm hκ)] at hx
      exact Or.inr hx
  unfold boundedPut at h
  by_cases hlen : cap < ((aset st k v).map Prod.fst).length
  · rw [if_pos hlen] at h
    rw [alookup_aremoveAll] at h
    by_cases hκmem : κ ∈ ((sortByTime
        (fun kk => match alookup (aset st k v) kk with
         | some c => time c | none => 0) ((aset st k v).map Prod.fst))).take
        (((aset st k v).map Prod.fst).length - cap)
    · rw [if_pos hκmem] at h
      cases h
    · rw [if_neg hκmem] at h
      exact hset c' h
  · rw [if_neg hlen] at h
    exact hset c' h

/-- The profile store is well-keyed: every stored context sits under its own
lower-cased patient name (the invariant `save` maintains). -/
def wellKeyed (st : ProfileStore) : Prop :=
  ∀ κ c, alookup st κ = some c → toLowerJS c.patientName = κ

theorem wellKeyed_save {st : ProfileStore} (h : wellKeyed st) (c : Ctx) :
    wellKeyed (save st c) := by
  intro κ c' hc'
  rcases boundedPut_lookup_or hc' with ⟨hκ, hv⟩ | hold
  · subst hκ hv
    rfl
  · exact h κ c' hold

/-! ### What the merge steps do to `tabsScanned` and `patientName` -/

theorem setSection_keeps (c : Ctx) (n : String) (v : Json) :
    (c.setSection n v).tabsScanned = c.tabsScanned
    ∧ (c.setSection n v).patientName = c.patientName := by
  unfold Ctx.setSection
  split_ifs <;> exact ⟨rfl, rfl⟩

theorem mergeSectionInto_keeps (s : Json) (c : Ctx) (n : String) :
    (mergeSectionInto s c n).tabsScanned = c.tabsScanned
    ∧ (mergeSectionInto s c n).patientName = c.patientName := by
  unfold mergeSectionInto
  cases h : jLookup (entriesJS s) n with
  | none => exact ⟨rfl, rfl⟩
  | some v =>
      by_cases ht : truthy v
      · simpa [ht] using setSection_keeps c n _
      · simp [ht]

theorem sections_foldl_keeps (s : Json) :
    ∀ (names : List String) (c : Ctx),
      ((names.foldl (mergeSectionInto s) c).tabsScanned = c.tabsScanned)
      ∧ ((names.foldl (mergeSectionInto s) c).patientName = c.patientName) := by
  intro names
  induction names with
  | nil => exact fun c => ⟨rfl, rfl⟩
  | cons n rest ih =>
      intro c
      simp only [List.foldl_cons]
      refine ⟨?_, ?_⟩
      · rw [(ih (mergeSectionInto s c n)).1, (mergeSectionInto_keeps s c n).1]
      · rw [(ih (mergeSectionInto s c n)).2, (mergeSectionInto_keeps s c n).2]

theorem applyForms_keeps (s : Json) (c : Ctx) :
    (applyForms s c).tabsScanned = c.tabsScanned
    ∧ (applyForms s c).patientName = c.patientName := by
  unfold applyForms
  repeat' split
  all_goals exact ⟨rfl, rfl⟩

theorem applyTodayAppt_keeps (s : Json) (c : Ctx) :
    (applyTodayAppt s c).tabsScanned = c.tabsScanned
    ∧ (applyTodayAppt s c).patientName = c.patientName := by
  unfold applyTodayAppt
  repeat' split
  all_goals exact ⟨rfl, rfl⟩

theorem applyLLMCtx_tabs (now : Nat) (r : LLMResult) (c : Ctx) :
    (applyLLMCtx now r c).tabsScanned
      = addDetected c.tabsScanned r.sectionsDetected := by
  show addDetected (applyTodayAppt r.context (applyForms r.context
        (MERGE_SECTIONS.foldl (mergeSectionInto r.context) c))).tabsScanned
      r.sectionsDetected
    = addDetected c.tabsScanned r.sectionsDetected
  rw [(applyTodayAppt_keeps _ _).1, (applyForms_keeps _ _).1,
    (sections_foldl_keeps _ _ _).1]

theorem applyLLMCtx_name (now : Nat) (r : LLMResult) (c : Ctx) :
    (applyLLMCtx now r c).patientName = c.patientName := by
  show (applyTodayAppt r.context (applyForms r.context
        (MERGE_SECTIONS.foldl (mergeSectionInto r.context) c))).patientName
    = c.patientName
  rw [(applyTodayAppt_keeps _ _).2, (applyForms_keeps _ _).2,
    (sections_foldl_keeps _ _ _).2]

theorem addDetected_sub : ∀ (det tabs : List String), tabs ⊆ addDetected tabs det := by
  intro det
  induction det with
  | nil => intro tabs; exact fun x hx => hx
  | cons s rest ih =>
      intro tabs x hx
      rw [addDetected]
      apply ih
      split
      · exact hx
      · exact List.mem_append_left _ hx

theorem addDetected_mem : ∀ (det tabs : List String) (x : String),
    x ∈ addDetected tabs det ↔ x ∈ tabs ∨ x ∈ det := by
  intro det
  induction det with
  | nil => intro tabs x; simp [addDetected]
  | cons s rest ih =>
      intro tabs x
      rw [addDetected]
      split
      case isTrue h =>
        rw [ih]
        have hs : s ∈ tabs := by simpa using h
        constructor
        · rintro (hx | hx)
          · exact Or.inl hx
          · exact Or.inr (List.mem_cons_of_mem _ hx)
        · rintro (hx | hx)
          · exact Or.inl hx
          · rcases List.mem_cons.1 hx with hx | hx
            · exact Or.inl (hx ▸ hs)
            · exact Or.inr hx
      case isFalse h =>
        rw [ih]
        simp only [List.mem_append, List.mem_singleton, List.mem_cons,
          List.not_mem_nil, or_false]
        constructor
        · rintro ((hx | hx) | hx)
          · exact Or.inl hx
          · exact Or.inr (Or.inl hx)
          · exact Or.inr (Or.inr hx)
        · rintro (hx | hx | hx)
          · exact Or.inl (Or.inl hx)
          · exact Or.inl (Or.inr hx)
          · exact Or.inr hx

/-! ### The regex parsers never touch `tabsScanned` or `patientName` -/

theorem parserProfile_keeps (t : List Char) (c : Ctx) :
    (parserProfile t c).tabsScanned = c.tabsScanned
    ∧ (parserProfile t c).patientName = c.patientName := by
  unfold parserProfile
  repeat' split
  all_goals exact ⟨rfl, rfl⟩

theorem parserInsurance_keeps (t : List Char) (c : Ctx) :
    (parserInsurance t c).tabsScanned = c.tabsScanned
    ∧ (parserInsurance t c).patientName = c.patientName := by
  unfold parserInsurance
  repeat' split
  all_goals exact ⟨rfl, rfl⟩

theorem parserBilling_keeps (t : List Char) (c : Ctx) :
    (parserBilling t c).tabsScanned = c.tabsScanned
    ∧ (parserBilling t c).patientName = c.patientName := by
  unfold parserBilling
  repeat' split
  all_goals exact ⟨rfl, rfl⟩

theorem parserRecare_keeps (t : List Char) (c : Ctx) :
    (parserRecare t c).tabsScanned = c.tabsScanned
    ∧ (parserRecare t c).patientName = c.patientName := ⟨rfl, rfl⟩

theorem parserCharting_keeps (t : List Char) (c : Ctx) :
    (parserCharting t c).tabsScanned = c.tabsScanned
    ∧ (parserCharting t c).patientName = c.patientName := by
  simp only [parserCharting]
  repeat' split
  all_goals exact ⟨rfl, rfl⟩

theorem parserForms_keeps (t : List Char) (c : Ctx) :
    (parserForms t c).tabsScanned = c.tabsScanned
    ∧ (parserForms t c).patientName = c.patientName := ⟨rfl, rfl⟩

theorem parserPerio_keeps (t : List Char) (c : Ctx) :
    (parserPerio t c).tabsScanned = c.tabsScanned
    ∧ (parserPerio t c).patientName = c.patientName := ⟨rfl, rfl⟩

theorem runParser_keeps (n : String) (t : List Char) (c : Ctx) :
    (runParser n t c).tabsScanned = c.tabsScanned
    ∧ (runParser n t c).patientName = c.patientName := by
  unfold runParser
  split_ifs
  · exact parserProfile_keeps t c
  · exact parserInsurance_keeps t c
  · exact parserBilling_keeps t c
  · exact parserRecare_keeps t c
  · exact parserCharting_keeps t c
  · exact parserForms_keeps t c
  · exact parserPerio_keeps t c
  · exact ⟨rfl, rfl⟩

/-- One step of the `_regexFallback` section loop only appends to
`tabsScanned` and keeps `patientName`. -/
theorem regexSectionStep_keeps (t : List Char) (c : Ctx) (s : String) :
    c.tabsScanned ⊆ (regexSectionStep t c s).tabsScanned
    ∧ (regexSectionStep t c s).patientName = c.patientName := by
  simp only [regexSectionStep]
  split
  · refine ⟨?_, (runParser_keeps s t c).2⟩
    intro x hx
    rw [(runParser_keeps s t c).1]
    exact hx
  · refine ⟨?_, (runParser_keeps s t c).2⟩
    intro x hx
    show x ∈ (runParser s t c).tabsScanned ++ [s]
    rw [(runParser_keeps s t c).1]
    exact List.mem_append_left _ hx

/-- The `_regexFallback` section loop only appends to `tabsScanned` and keeps
`patientName`. -/
theorem regexFold_keeps (t : List Char) :
    ∀ (secs : List String) (c : Ctx),
      c.tabsScanned ⊆ (secs.foldl (regexSectionStep t) c).tabsScanned
      ∧ (secs.foldl (regexSectionStep t) c).patientName = c.patientName := by
  intro secs
  induction secs with
  | nil => exact fun c => ⟨fun x hx => hx, rfl⟩
  | cons s rest ih =>
      intro c
      simp only [List.foldl_cons]
      exact ⟨fun x hx => (ih _).1 ((regexSectionStep_keeps t c s).1 hx),
        ((ih _).2).trans (regexSectionStep_keeps t c s).2⟩

/-- Membership in `tabsScanned` after one step of the fallback's section
loop: present before, or equal to the section just scanned. -/
theorem regexSectionStep_mem (t : List Char) (c : Ctx) (s x : String) :
    x ∈ (regexSectionStep t c s).tabsScanned ↔ x ∈ c.tabsScanned ∨ x = s := by
  simp only [regexSectionStep]
  split
  next h =>
      rw [(runParser_keeps s t c).1] at h ⊢
      have hs : s ∈ c.tabsScanned := by simpa using h
      constructor
      · exact fun hx => Or.inl hx
      · rintro (hx | hx)
        · exact hx
        · exact hx ▸ hs
  next h =>
      show x ∈ (runParser s t c).tabsScanned ++ [s] ↔ x ∈ c.tabsScanned ∨ x = s
      rw [(runParser_keeps s t c).1]
      simp

/-- Membership in `tabsScanned` after the fallback's whole section loop:
present before, or among the scanned sections. -/
theorem regexFold_mem (t : List Char) :
    ∀ (secs : List String) (c : Ctx) (x : String),
      x ∈ (secs.foldl (regexSectionStep t) c).tabsScanned
        ↔ x ∈ c.tabsScanned ∨ x ∈ secs := by
  intro secs
  induction secs with
  | nil =>
      intro c x
      simp
  | cons s rest ih =>
      intro c x
      simp only [List.foldl_cons]
      rw [ih, regexSectionStep_mem, List.mem_cons]
      tauto

theorem aset_length_le {α : Type} (l : List (String × α)) (k : String) (v : α) :
    (aset l k v).length ≤ l.length + 1 := by
  induction l with
  | nil => simp [aset]
  | cons e rest ih =>
      obtain ⟨k', v'⟩ := e
      by_cases h : k' = k
      · simp only [aset, if_pos h, List.length_cons]
        omega
      · simp only [aset, if_neg h, List.length_cons]
        omega

/-- A `boundedPut` whose insertion stays within capacity evicts nothing. -/
theorem boundedPut_le {α : Type} {cap : Nat} {time : α → Nat}
    {D : List (String × α)} {k : String} {v : α}
    (hlen : (aset D k v).length ≤ cap) :
    boundedPut cap time D k v = aset D k v := by
  unfold boundedPut
  rw [if_neg (by rw [List.length_map]; omega)]

/-- A below-capacity `save` round-trips through `load` and grows the store by
at most one entry. -/
theorem save_load_self {st : ProfileStore} {c : Ctx} {name : String}
    (hkey : toLowerJS c.patientName = toLowerJS name)
    (hlen : st.length < 100) :
    load (save st c) name = some c ∧ (save st c).length ≤ st.length + 1 := by
  have hle : (aset st (toLowerJS c.patientName) c).length ≤ 100 := by
    have h := aset_length_le st (toLowerJS c.patientName) c
    omega
  have hbp : save st c = aset st (toLowerJS c.patientName) c := by
    show boundedPut 100 (fun c => dateVal c.lastUpdated) st (toLowerJS c.patientName) c
      = aset st (toLowerJS c.patientName) c
    exact boundedPut_le hle
  constructor
  · show alookup (save st c) (toLowerJS name) = some c
    rw [hbp, ← hkey]
    exact alookup_aset_self st (toLowerJS c.patientName) c
  · rw [hbp]
    exact aset_length_le st _ c

theorem storedTabs_load {st : ProfileStore} {name : String} {c : Ctx}
    (h : load st name = some c) : storedTabs st name = c.tabsScanned := by
  unfold storedTabs
  rw [h]

/-- The load-or-create step reads exactly the subject's recorded
`tabsScanned` (empty when no profile is stored). -/
theorem getD_tabs (st : ProfileStore) (name n : String) (now : Nat)
    (hln : toLowerJS n = toLowerJS name) :
    ((load st n).getD (emptyContext n now)).tabsScanned = storedTabs st name := by
  have hload : load st n = load st name := by
    unfold load
    rw [hln]
  rw [hload]
  unfold storedTabs
  cases load st name with
  | none => rfl
  | some c => rfl

/-- Over a well-keyed store, the load-or-create step yields a context whose
lower-cased name is the subject's. -/
theorem getD_name (st : ProfileStore) (hwk : wellKeyed st) (name n : String)
    (now : Nat) (hln : toLowerJS n = toLowerJS name) :
    toLowerJS ((load st n).getD (emptyContext n now)).patientName
      = toLowerJS name := by
  have hload : load st n = load st name := by
    unfold load
    rw [hln]
  rw [hload]
  cases hl : load st name with
  | none => exact hln
  | some c => exact hwk (toLowerJS name) c hl

/-- One same-subject call (either merge body), over a well-keyed store with
headroom: the store grows by at most one entry, stays well-keyed, the call
succeeds, and the subject's recorded `tabsScanned` afterwards holds exactly
the sections recorded before or reported by this call. -/
theorem callStep_spec {st : ProfileStore} {name : String} {call : ScanCall}
    {n : String} (hwk : wellKeyed st) (hlen : st.length < 100)
    (hname : callName call = some n) (hln : toLowerJS n = toLowerJS name) :
    (callStep st call).2.length ≤ st.length + 1
    ∧ wellKeyed (callStep st call).2
    ∧ (∃ ctx acts, (callStep st call).1 = some (ctx, acts))
    ∧ ∀ x, x ∈ storedTabs (callStep st call).2 name
        ↔ x ∈ storedTabs st name ∨ x ∈ callSections call := by
  cases call with
  | llm r now =>
      have hname' : (if r.patientName = ""
          then (none : Option String) else some r.patientName) = some n := hname
      by_cases h0 : r.patientName = ""
      · rw [if_pos h0] at hname'
        exact Option.noConfusion hname'
      · rw [if_neg h0] at hname'
        have hln' : toLowerJS r.patientName = toLowerJS name := by
          rw [Option.some.inj hname']
          exact hln
        have hstep : ∃ ctx1, mergeFromLLM now st r
              = (some (ctx1, mapLLMActions r.actions), save st ctx1)
            ∧ toLowerJS ctx1.patientName = toLowerJS name
            ∧ ∀ x, x ∈ ctx1.tabsScanned
                ↔ x ∈ storedTabs st name ∨ x ∈ r.sectionsDetected := by
          refine ⟨applyLLMCtx now r
            ((load st r.patientName).getD (emptyContext r.patientName now)),
            ?_, ?_, ?_⟩
          · unfold mergeFromLLM
            rw [if_neg h0]
          · rw [applyLLMCtx_name]
            exact getD_name st hwk name r.patientName now hln'
          · intro x
            rw [applyLLMCtx_tabs, addDetected_mem,
              getD_tabs st name r.patientName now hln']
        obtain ⟨ctx1, heq, hkey, hmem⟩ := hstep
        have hsl := save_load_self hkey hlen
        have h2 : (callStep st (ScanCall.llm r now)).2 = save st ctx1 := by
          show (mergeFromLLM now st r).2 = save st ctx1
          rw [heq]
        refine ⟨?_, ?_, ?_, ?_⟩
        · rw [h2]
          exact hsl.2
        · rw [h2]
          exact wellKeyed_save hwk ctx1
        · refine ⟨ctx1, mapLLMActions r.actions, ?_⟩
          show (mergeFromLLM now st r).1 = _
          rw [heq]
        · intro x
          rw [h2, storedTabs_load hsl.1, hmem x]
          rfl
  | rex en pd now text =>
      have hn : en text = some n := hname
      have hstep : ∃ ctx2, regexFallback en pd now st text
            = (some (ctx2, generate pd now ctx2 none), save st ctx2)
          ∧ toLowerJS ctx2.patientName = toLowerJS name
          ∧ ∀ x, x ∈ ctx2.tabsScanned
              ↔ x ∈ storedTabs st name ∨ x ∈ detectVisibleSections text.data := by
        refine ⟨{ (detectVisibleSections text.data).foldl (regexSectionStep text.data)
            ((load st n).getD (emptyContext n now)) with
            lastUpdated := some now }, ?_, ?_, ?_⟩
        · unfold regexFallback
          rw [hn]
        · show toLowerJS ((detectVisibleSections text.data).foldl
              (regexSectionStep text.data)
              ((load st n).getD (emptyContext n now))).patientName = toLowerJS name
          rw [(regexFold_keeps text.data (detectVisibleSections text.data) _).2]
          exact getD_name st hwk name n now hln
        · intro x
          show x ∈ ((detectVisibleSections text.data).foldl
              (regexSectionStep text.data)
              ((load st n).getD (emptyContext n now))).tabsScanned ↔ _
          rw [regexFold_mem, getD_tabs st name n now hln]
      obtain ⟨ctx2, heq, hkey, hmem⟩ := hstep
      have hsl := save_load_self hkey hlen
      have h2 : (callStep st (ScanCall.rex en pd now text)).2 = save st ctx2 := by
        show (regexFallback en pd now st text).2 = save st ctx2
        rw [heq]
      refine ⟨?_, ?_, ?_, ?_⟩
      · rw [h2]
        exact hsl.2
      · rw [h2]
        exact wellKeyed_save hwk ctx2
      · refine ⟨ctx2, generate pd now ctx2 none, ?_⟩
        show (regexFallback en pd now st text).1 = _
        rw [heq]
      · intro x
        rw [h2, storedTabs_load hsl.1, hmem x]
        rfl

/-- A whole same-subject call sequence, by induction on `callStep_spec`: the
store stays well-keyed, its growth is bounded by the number of calls, and
the subject's final `tabsScanned` holds exactly the initially recorded
sections and every call's reported sections. -/
theorem callsRun_spec (name : String) :
    ∀ (calls : List ScanCall) (st : ProfileStore),
      wellKeyed st → st.length + calls.length ≤ 100 →
      (∀ c ∈ calls, ∃ n, callName c = some n ∧ toLowerJS n = toLowerJS name) →
      wellKeyed (callsRun st calls)
      ∧ (callsRun st calls).length ≤ st.length + calls.length
      ∧ (∀ x, x ∈ storedTabs (callsRun st calls) name
          ↔ x ∈ storedTabs st name ∨ ∃ c ∈ calls, x ∈ callSections c) := by
  intro calls
  induction calls with
  | nil =>
      intro st hwk _ _
      refine ⟨hwk, ?_, ?_⟩
      · show st.length ≤ st.length + ([] : List ScanCall).length
        simp
      · intro x
        show x ∈ storedTabs st name
          ↔ x ∈ storedTabs st name ∨ ∃ c ∈ ([] : List ScanCall), x ∈ callSections c
        simp
  | cons c rest ih =>
      intro st hwk hlen hcalls
      obtain ⟨n, hn, hln⟩ := hcalls c (List.mem_cons_self c rest)
      have hlt : st.length < 100 := by
        rw [List.length_cons] at hlen
        omega
      have hstep := callStep_spec hwk hlt hn hln
      have ihr := ih (callStep st c).2 hstep.2.1
        (by
          rw [List.length_cons] at hlen
          have h1 := hstep.1
          omega)
        (fun c' hc' => hcalls c' (List.mem_cons_of_mem c hc'))
      have hrun : callsRun st (c :: rest) = callsRun (callStep st c).2 rest := rfl
      refine ⟨?_, ?_, ?_⟩
      · rw [hrun]
        exact ihr.1
      · rw [hrun, List.length_cons]
        have h1 := hstep.1
        have h2 := ihr.2.1
        omega
      · intro x
        rw [hrun, ihr.2.2 x, hstep.2.2.2 x]
        constructor
        · rintro ((hx | hx) | ⟨c', hc', hx⟩)
          · exact Or.inl hx
          · exact Or.inr ⟨c, List.mem_cons_self c rest, hx⟩
          · exact Or.inr ⟨c', List.mem_cons_of_mem c hc', hx⟩
        · rintro (hx | ⟨c', hc', hx⟩)
          · exact Or.inl (Or.inl hx)
          · rcases List.mem_cons.1 hc' with h | h
            · subst h
              exact Or.inl (Or.inr hx)
            · exact Or.inr ⟨c', h, hx⟩

/-- **C2** (corrected).  Same-subject section union across `scanAndMerge`
calls.  A successful call mutates the profile store through exactly one of
its two merge bodies — `_mergeFromLLM` on the extraction result, or
`_regexFallback` on the page text (the routing facts
`scanAndMerge_true_ext_some`, `scanAndMerge_true_ext_none`,
`scanAndMerge_false`); `callsRun` chains such calls through the store.  For
any same-subject sequence (each call's merge identity lower-cases to the
subject's; the store is well-keyed with capacity headroom): the subject's
recorded `tabsScanned` after a prefix of the calls is a subset of its value
after the whole sequence (monotone, never reset), and after the whole
sequence a section is recorded exactly when it was recorded initially or
some call reported it — `sectionsDetected` for an LLM merge, the detected
visible section markers for a regex-fallback merge (`callSections`).  The
spec's phrase "the union of all sections ever merged" is refuted by
`claim_C2_counterexample`: `tabsScanned` accumulates the reported lists,
which are independent of which sections actually merge data. -/
theorem claim_C2_section_union_monotone
    (name : String) (st : ProfileStore) (calls1 calls2 : List ScanCall)
    (hwk : wellKeyed st)
    (hcap : st.length + (calls1 ++ calls2).length ≤ 100)
    (hsub : ∀ c ∈ calls1 ++ calls2,
        ∃ n, callName c = some n ∧ toLowerJS n = toLowerJS name) :
    storedTabs (callsRun st calls1) name
        ⊆ storedTabs (callsRun st (calls1 ++ calls2)) name
    ∧ (∀ x, x ∈ storedTabs (callsRun st (calls1 ++ calls2)) name
        ↔ x ∈ storedTabs st name ∨ ∃ c ∈ calls1 ++ calls2, x ∈ callSections c) := by
  have hsub1 : ∀ c ∈ calls1, ∃ n, callName c = some n ∧ toLowerJS n = toLowerJS name :=
    fun c hc => hsub c (List.mem_append_left _ hc)
  have hcap1 : st.length + calls1.length ≤ 100 := by
    rw [List.length_append] at hcap
    omega
  have h1 := callsRun_spec name calls1 st hwk hcap1 hsub1
  have h12 := callsRun_spec name (calls1 ++ calls2) st hwk hcap hsub
  refine ⟨?_, h12.2.2⟩
  intro x hx
  apply (h12.2.2 x).2
  rcases (h1.2.2 x).1 hx with h | ⟨c, hc, hxc⟩
  · exact Or.inl h
  · exact Or.inr ⟨c, List.mem_append_left _ hc, hxc⟩

/-- Witness for C2: starting from the empty store, subject "Jane Doe" is
merged first through the LLM path (`rW_C2`, reporting `["insurance"]`), then
through the regex fallback on `textW_C2`; the prefix's recorded sections are
contained in the final set, which is exactly the union of both calls'
reported sections. -/
theorem claim_C2_section_union_monotone_witness :
    (storedTabs (callsRun [] callsW1_C2) "Jane Doe"
        ⊆ storedTabs (callsRun [] (callsW1_C2 ++ callsW2_C2)) "Jane Doe")
    ∧ (∀ x, x ∈ storedTabs (callsRun [] (callsW1_C2 ++ callsW2_C2)) "Jane Doe"
        ↔ x ∈ storedTabs ([] : ProfileStore) "Jane Doe"
          ∨ ∃ c ∈ callsW1_C2 ++ callsW2_C2, x ∈ callSections c) :=
  claim_C2_section_union_monotone "Jane Doe" [] callsW1_C2 callsW2_C2
    (fun κ c h => Option.noConfusion h)
    (by decide)
    (by
      intro c hc
      simp only [callsW1_C2, callsW2_C2, List.cons_append, List.nil_append,
        List.mem_cons, List.not_mem_nil, or_false] at hc
      rcases hc with h | h
      · subst h
        exact ⟨"Jane Doe", by decide, rfl⟩
      · subst h
        exact ⟨"Jane Doe", rfl, rfl⟩)

/-- Counterexample for C2 as frozen: `rCE_C2` carries insurance data (which
`_deepMerge` does merge — the resulting profile's `insurance.carrier` is
`"Aetna"`, changed from the empty section) but reports no `sectionsDetected`,
so `tabsScanned` stays `[]` and is **not** the union of the sections actually
merged into the profile. -/
theorem claim_C2_counterexample :
    mergeFromLLM 5 [] rCE_C2
      = (some (ctxCE_C2, mapLLMActions rCE_C2.actions), save [] ctxCE_C2)
    ∧ ctxCE_C2.insurance = Json.obj [("carrier", Json.str "Aetna")]
    ∧ ctxCE_C2.tabsScanned = []
    ∧ (emptyContext "Jane Doe" 5).insurance ≠ ctxCE_C2.insurance := by
  have hins : ctxCE_C2.insurance = Json.obj [("carrier", Json.str "Aetna")] := by
    show (applyLLMCtx 5 rCE_C2 (emptyContext "Jane Doe" 5)).insurance
      = Json.obj [("carrier", Json.str "Aetna")]
    simp [applyLLMCtx, MERGE_SECTIONS, rCE_C2, mergeSectionInto, applyForms,
      applyTodayAppt, emptyContext, mergeInto, deepMerge, entriesJS, jLookup,
      jSet, truthy, Ctx.getSection, Ctx.setSection, dotLength]
  refine ⟨rfl, hins, ?_, ?_⟩
  · show (applyLLMCtx 5 rCE_C2 (emptyContext "Jane Doe" 5)).tabsScanned = []
    rw [applyLLMCtx_tabs]
    rfl
  · intro h
    rw [hins] at h
    exact absurd (congrArg (fun j => jLookup (entriesJS j) "carrier") h)
      (by simp [emptyContext, entriesJS, jLookup])

/-! ### Store, extraction, and fallback step lemmas for the subject-switch
claim -/

/-- A `boundedPut` below capacity leaves every other key's binding alone. -/
theorem boundedPut_other {α : Type} {cap : Nat} {time : α → Nat}
    {st : List (String × α)} {k : String} {v : α} {κ : String}
    (hκ : κ ≠ k) (hlen : st.length < cap) :
    alookup (boundedPut cap time st k v) κ = alookup st κ := by
  have hl := aset_length_le st k v
  simp only [boundedPut]
  rw [if_neg (by simp only [List.length_map]; omega)]
  exact alookup_aset_ne st k κ v (Ne.symm hκ)

/-- A successful `extract` on an empty cache drew its name from the text
itself, and the new cache holds exactly this text's result. -/
theorem extract_emptyCache_some {extractName : String → Option String}
    {oracle : String → Option ParsedLLM} {text : String} {r : LLMResult}
    {cache' : ExtCache}
    (h : extract extractName oracle [] text = (some r, cache')) :
    extractName text = some r.patientName ∧ cache' = [(hashText text, r)] := by
  by_cases h100 : text.length < 100
  · unfold extract at h
    rw [if_pos h100] at h
    exact absurd (congrArg Prod.fst h) (by simp)
  · cases hen : extractName text with
    | none =>
        unfold extract at h
        rw [if_neg h100] at h
        simp only [alookup, hen] at h
        exact absurd (congrArg Prod.fst h) (by simp)
    | some name =>
        cases hor : oracle text with
        | none =>
            unfold extract at h
            rw [if_neg h100] at h
            simp only [alookup, hen, hor] at h
            exact absurd (congrArg Prod.fst h) (by simp)
        | some p =>
            unfold extract at h
            rw [if_neg h100] at h
            simp only [alookup, hen, hor, Prod.mk.injEq, Option.some.injEq] at h
            obtain ⟨hr, hc⟩ := h
            subst hr
            refine ⟨rfl, ?_⟩
            rw [← hc]
            rfl

/-- A failed `extract` on an empty cache leaves it empty. -/
theorem extract_emptyCache_none {extractName : String → Option String}
    {oracle : String → Option ParsedLLM} {text : String} {cache' : ExtCache}
    (h : extract extractName oracle [] text = (none, cache')) : cache' = [] := by
  by_cases h100 : text.length < 100
  · unfold extract at h
    rw [if_pos h100] at h
    exact (congrArg Prod.snd h).symm
  · cases hen : extractName text with
    | none =>
        unfold extract at h
        rw [if_neg h100] at h
        simp only [alookup, hen] at h
        exact (congrArg Prod.snd h).symm
    | some name =>
        cases hor : oracle text with
        | none =>
            unfold extract at h
            rw [if_neg h100] at h
            simp only [alookup, hen, hor] at h
            exact (congrArg Prod.snd h).symm
        | some p =>
            unfold extract at h
            rw [if_neg h100] at h
            simp only [alookup, hen, hor] at h
            exact absurd (congrArg Prod.fst h) (by simp)

/-- A successful `_mergeFromLLM` stores the result of `applyLLMCtx` on the
loaded-or-fresh profile. -/
theorem mergeFromLLM_some {now : Nat} {st : ProfileStore} {r : LLMResult}
    {ctx1 : Ctx} {acts : List Action} {st' : ProfileStore}
    (h : mergeFromLLM now st r = (some (ctx1, acts), st')) :
    ctx1 = applyLLMCtx now r
        ((load st r.patientName).getD (emptyContext r.patientName now))
    ∧ st' = save st ctx1 := by
  unfold mergeFromLLM at h
  by_cases hn : r.patientName = ""
  · rw [if_pos hn] at h
    exact absurd (congrArg Prod.fst h) (by simp)
  · rw [if_neg hn] at h
    simp only [Prod.mk.injEq, Option.some.injEq] at h
    obtain ⟨⟨h1, -⟩, h2⟩ := h
    exact ⟨h1.symm, by rw [← h2, h1]⟩

theorem mergeFromLLM_none {now : Nat} {st : ProfileStore} {r : LLMResult}
    {st' : ProfileStore} (h : mergeFromLLM now st r = (none, st')) : st' = st := by
  unfold mergeFromLLM at h
  by_cases hn : r.patientName = ""
  · rw [if_pos hn] at h
    exact (congrArg Prod.snd h).symm
  · rw [if_neg hn] at h
    exact absurd (congrArg Prod.fst h) (by simp)

/-- In a well-keyed store, the loaded-or-fresh profile for `name` lowers to
`name`. -/
theorem getD_load_name {st : ProfileStore} (hwk : wellKeyed st)
    (name : String) (now : Nat) :
    toLowerJS ((load st name).getD (emptyContext name now)).patientName
      = toLowerJS name := by
  cases hl : load st name with
  | none => rfl
  | some c =>
      unfold load at hl
      exact hwk (toLowerJS name) c hl

theorem mergeFromLLM_name {now : Nat} {st : ProfileStore} {r : LLMResult}
    {ctx1 : Ctx} {acts : List Action} {st' : ProfileStore} (hwk : wellKeyed st)
    (h : mergeFromLLM now st r = (some (ctx1, acts), st')) :
    toLowerJS ctx1.patientName = toLowerJS r.patientName := by
  obtain ⟨h1, -⟩ := mergeFromLLM_some h
  rw [h1, applyLLMCtx_name]
  exact getD_load_name hwk r.patientName now

/-- A below-capacity `_mergeFromLLM` leaves every other subject's stored
profile untouched. -/
theorem mergeFromLLM_other {now : Nat} {st : ProfileStore} {r : LLMResult}
    {ctx1 : Ctx} {acts : List Action} {st' : ProfileStore} (hwk : wellKeyed st)
    (hsmall : st.length < 100)
    (h : mergeFromLLM now st r = (some (ctx1, acts), st')) :
    ∀ κ, κ ≠ toLowerJS r.patientName → alookup st' κ = alookup st κ := by
  obtain ⟨-, h2⟩ := mergeFromLLM_some h
  intro κ hκ
  rw [h2]
  unfold save
  refine boundedPut_other ?_ hsmall
  rw [mergeFromLLM_name hwk h]
  exact hκ

/-- A successful `_regexFallback` drew its name from the text, kept the
loaded-or-fresh profile's identity, and saved the result. -/
theorem regexFallback_some {extractName : String → Option String}
    {parseDate : String → Option Int} {now : Nat} {st : ProfileStore}
    {text : String} {ctx : Ctx} {acts : List Action} {st' : ProfileStore}
    (h : regexFallback extractName parseDate now st text = (some (ctx, acts), st')) :
    ∃ name, extractName text = some name
      ∧ ctx.patientName
          = ((load st name).getD (emptyContext name now)).patientName
      ∧ st' = save st ctx := by
  unfold regexFallback at h
  cases hen : extractName text with
  | none =>
      rw [hen] at h
      exact absurd (congrArg Prod.fst h) (by simp)
  | some name =>
      rw [hen] at h
      simp only [Prod.mk.injEq, Option.some.injEq] at h
      obtain ⟨⟨h1, -⟩, h2⟩ := h
      refine ⟨name, rfl, ?_, ?_⟩
      · rw [← h1]
        exact (regexFold_keeps text.data (detectVisibleSections text.data) _).2
      · rw [← h2, h1]

theorem regexFallback_none {extractName : String → Option String}
    {parseDate : String → Option Int} {now : Nat} {st : ProfileStore}
    {text : String} {st' : ProfileStore}
    (h : regexFallback extractName parseDate now st text = (none, st')) :
    st' = st := by
  unfold regexFallback at h
  cases hen : extractName text with
  | none =>
      rw [hen] at h
      exact (congrArg Prod.snd h).symm
  | some name =>
      rw [hen] at h
      exact absurd (congrArg Prod.fst h) (by simp)

/-- `scanAndMerge` with the extractor present, on a long text, with the
extraction succeeding. -/
theorem scanAndMerge_true_ext_some {extractName : String → Option String}
    {oracle : String → Option ParsedLLM} {parseDate : String → Option Int}
    {now : Nat} {pstore : ProfileStore} {cache : ExtCache} {text : String}
    {r : LLMResult} {excache : ExtCache}
    (h100 : ¬ text.length < 100)
    (hex : extract extractName oracle cache text = (some r, excache)) :
    scanAndMerge true extractName oracle parseDate now pstore cache (some text)
      = ((mergeFromLLM now pstore r).1, (mergeFromLLM now pstore r).2, excache) := by
  simp only [scanAndMerge]
  rw [if_neg h100]
  simp only [if_true]
  rw [hex]

/-- `scanAndMerge` with the extractor present, on a long text, with the
extraction failing: the regex fallback runs. -/
theorem scanAndMerge_true_ext_none {extractName : String → Option String}
    {oracle : String → Option ParsedLLM} {parseDate : String → Option Int}
    {now : Nat} {pstore : ProfileStore} {cache : ExtCache} {text : String}
    {excache : ExtCache}
    (h100 : ¬ text.length < 100)
    (hex : extract extractName oracle cache text = (none, excache)) :
    scanAndMerge true extractName oracle parseDate now pstore cache (some text)
      = ((regexFallback extractName parseDate now pstore text).1,
         (regexFallback extractName parseDate now pstore text).2, excache) := by
  simp only [scanAndMerge]
  rw [if_neg h100]
  simp only [if_true]
  rw [hex]

/-- The three isolation facts about one `scanAndMerge` run started from an
empty extraction cache over a well-keyed, below-capacity store: every cached
result is named by this text's extracted identity, any merged context lowers
to that identity, and no other key of the profile store changes. -/
theorem scanAndMerge_emptyCache {extractName : String → Option String}
    {oracle : String → Option ParsedLLM} {parseDate : String → Option Int}
    {now : Nat} {pstore : ProfileStore} {text : String}
    {out : Option (Ctx × List Action)} {pstore' : ProfileStore}
    {cache' : ExtCache}
    (hwk : wellKeyed pstore) (hsmall : pstore.length < 100)
    (h : scanAndMerge true extractName oracle parseDate now pstore [] (some text)
      = (out, pstore', cache')) :
    (∀ p ∈ cache', extractName text = some p.2.patientName)
    ∧ (∀ ctx acts, out = some (ctx, acts) →
        ∃ name, extractName text = some name
          ∧ toLowerJS ctx.patientName = toLowerJS name)
    ∧ (∀ κ, (∀ name, extractName text = some name → κ ≠ toLowerJS name) →
        alookup pstore' κ = alookup pstore κ) := by
  by_cases h100 : text.length < 100
  · simp only [scanAndMerge] at h
    rw [if_pos h100] at h
    have h1 : (none : Option (Ctx × List Action)) = out := congrArg Prod.fst h
    have h2 : pstore = pstore' := congrArg (fun x => x.2.1) h
    have h3 : ([] : ExtCache) = cache' := congrArg (fun x => x.2.2) h
    refine ⟨?_, ?_, ?_⟩
    · intro p hp
      rw [← h3] at hp
      exact absurd hp (List.not_mem_nil p)
    · intro ctx acts hout
      rw [← h1] at hout
      exact Option.noConfusion hout
    · intro κ _
      rw [← h2]
  · rcases hex : extract extractName oracle [] text with ⟨exres, excache⟩
    cases exres with
    | some r =>
        rw [scanAndMerge_true_ext_some h100 hex] at h
        have h1 : (mergeFromLLM now pstore r).1 = out := congrArg Prod.fst h
        have h2 : (mergeFromLLM now pstore r).2 = pstore' :=
          congrArg (fun x => x.2.1) h
        have h3 : excache = cache' := congrArg (fun x => x.2.2) h
        obtain ⟨hname, hexc⟩ := extract_emptyCache_some hex
        refine ⟨?_, ?_, ?_⟩
        · intro p hp
          rw [← h3, hexc] at hp
          have hpe : p = (hashText text, r) := by simpa using hp
          rw [hpe]
          exact hname
        · intro ctx acts hout
          rw [← h1] at hout
          rcases hm : mergeFromLLM now pstore r with ⟨mres, mst⟩
          rw [hm] at hout
          cases mres with
          | none => exact Option.noConfusion hout
          | some v =>
              have hv : v = (ctx, acts) := Option.some.inj hout
              subst hv
              exact ⟨r.patientName, hname, mergeFromLLM_name hwk hm⟩
        · intro κ hκ
          rw [← h2]
          rcases hm : mergeFromLLM now pstore r with ⟨mres, mst⟩
          show alookup mst κ = alookup pstore κ
          cases mres with
          | none => rw [mergeFromLLM_none hm]
          | some v =>
              obtain ⟨ctx, acts⟩ := v
              exact mergeFromLLM_other hwk hsmall hm κ (hκ r.patientName hname)
    | none =>
        rw [scanAndMerge_true_ext_none h100 hex] at h
        have h1 : (regexFallback extractName parseDate now pstore text).1 = out :=
          congrArg Prod.fst h
        have h2 : (regexFallback extractName parseDate now pstore text).2 = pstore' :=
          congrArg (fun x => x.2.1) h
        have h3 : excache = cache' := congrArg (fun x => x.2.2) h
        have hexc := extract_emptyCache_none hex
        refine ⟨?_, ?_, ?_⟩
        · intro p hp
          rw [← h3, hexc] at hp
          exact absurd hp (List.not_mem_nil p)
        · intro ctx acts hout
          rw [← h1] at hout
          rcases hr : regexFallback extractName parseDate now pstore text with ⟨rres, rst⟩
          rw [hr] at hout
          cases rres with
          | none => exact Option.noConfusion hout
          | some v =>
              have hv : v = (ctx, acts) := Option.some.inj hout
              subst hv
              obtain ⟨name, hname, hpn, -⟩ := regexFallback_some hr
              refine ⟨name, hname, ?_⟩
              rw [hpn]
              exact getD_load_name hwk name now
        · intro κ hκ
          rw [← h2]
          rcases hr : regexFallback extractName parseDate now pstore text with ⟨rres, rst⟩
          show alookup rst κ = alookup pstore κ
          cases rres with
          | none => rw [regexFallback_none hr]
          | some v =>
              obtain ⟨ctx, acts⟩ := v
              obtain ⟨name, hname, hpn, hsave⟩ := regexFallback_some hr
              rw [hsave]
              unfold save
              refine boundedPut_other ?_ hsmall
              have hln : toLowerJS ctx.patientName = toLowerJS name := by
                rw [hpn]
                exact getD_load_name hwk name now
              rw [hln]
              exact hκ name hname

/-! ### Panel-state phases of `scanPatientAndShowActions` -/

theorem getCachedCard_some {cache : CardCache} {key : Option String}
    {e : CachedCard} (h : getCachedCard cache key = some e) :
    ∃ k, alookup cache k = some e := by
  cases key with
  | none => exact Option.noConfusion h
  | some k => exact ⟨k, h⟩

/-- The by-name card lookup only reads the card cache: it leaves profiles,
extraction cache, card cache and held context alone, and any card it holds
came from the card cache. -/
theorem lookupCardByName_fields (st : PanelState) (n : Option String) :
    (lookupCardByName st n).profiles = st.profiles
    ∧ (lookupCardByName st n).extCache = st.extCache
    ∧ (lookupCardByName st n).cardCache = st.cardCache
    ∧ (lookupCardByName st n).currentCtx = st.currentCtx
    ∧ ((lookupCardByName st n).currentCard = st.currentCard
        ∨ ∃ k e, alookup st.cardCache k = some e
            ∧ (lookupCardByName st n).currentCard = some e.card) := by
  cases n with
  | none => exact ⟨rfl, rfl, rfl, rfl, Or.inl rfl⟩
  | some nm =>
      cases hg : getCachedCard st.cardCache
          (cacheKeyFromIdentifiers (some nm) none none) with
      | none =>
          have he0 : lookupCardByName st (some nm) = st := by
            simp only [lookupCardByName]
            rw [hg]
          rw [he0]
          exact ⟨rfl, rfl, rfl, rfl, Or.inl rfl⟩
      | some e =>
          have he0 : lookupCardByName st (some nm)
              = { st with currentCard := some e.card, cardFromCache := true } := by
            simp only [lookupCardByName]
            rw [hg]
          rw [he0]
          refine ⟨rfl, rfl, rfl, rfl, Or.inr ?_⟩
          obtain ⟨k, hk⟩ := getCachedCard_some hg
          exact ⟨k, e, hk, rfl⟩

theorem cardLookupPhase_eq_some {st2 : PanelState} {n : Option String}
    {cc : Card} (hc : st2.currentCard = some cc) :
    cardLookupPhase st2 n
      = if optLower cc.patientName = optLower n then st2
        else lookupCardByName st2 n := by
  unfold cardLookupPhase
  rw [hc]

theorem cardLookupPhase_eq_none {st2 : PanelState} {n : Option String}
    (hc : st2.currentCard = none) :
    cardLookupPhase st2 n = lookupCardByName st2 n := by
  unfold cardLookupPhase
  rw [hc]

theorem cardLookupPhase_fields (st2 : PanelState) (n : Option String) :
    (cardLookupPhase st2 n).profiles = st2.profiles
    ∧ (cardLookupPhase st2 n).extCache = st2.extCache
    ∧ (cardLookupPhase st2 n).cardCache = st2.cardCache
    ∧ (cardLookupPhase st2 n).currentCtx = st2.currentCtx
    ∧ ((cardLookupPhase st2 n).currentCard = st2.currentCard
        ∨ ∃ k e, alookup st2.cardCache k = some e
            ∧ (cardLookupPhase st2 n).currentCard = some e.card) := by
  cases hc : st2.currentCard with
  | some cc =>
      rw [cardLookupPhase_eq_some hc]
      by_cases he : optLower cc.patientName = optLower n
      · rw [if_pos he]
        exact ⟨rfl, rfl, rfl, rfl, Or.inl hc⟩
      · rw [if_neg he]
        obtain ⟨f1, f2, f3, f4, f5⟩ := lookupCardByName_fields st2 n
        refine ⟨f1, f2, f3, f4, ?_⟩
        rcases f5 with h5 | ⟨k, e, hk, he'⟩
        · exact Or.inl (h5.trans hc)
        · exact Or.inr ⟨k, e, hk, he'⟩
  | none =>
      rw [cardLookupPhase_eq_none hc]
      obtain ⟨f1, f2, f3, f4, f5⟩ := lookupCardByName_fields st2 n
      refine ⟨f1, f2, f3, f4, ?_⟩
      rcases f5 with h5 | ⟨k, e, hk, he'⟩
      · exact Or.inl (h5.trans hc)
      · exact Or.inr ⟨k, e, hk, he'⟩

theorem scanApply_none {extractName : String → Option String}
    {oracle : String → Option ParsedLLM} {parseDate : String → Option Int}
    {now : Nat} {st3 : PanelState} {text : String} {st' : ProfileStore}
    {cache' : ExtCache}
    (h : scanAndMerge true extractName oracle parseDate now st3.profiles
        st3.extCache (some text) = (none, st', cache')) :
    scanApply extractName oracle parseDate now st3 text
      = { st3 with profiles := st', extCache := cache' } := by
  unfold scanApply
  rw [h]

theorem scanApply_some {extractName : String → Option String}
    {oracle : String → Option ParsedLLM} {parseDate : String → Option Int}
    {now : Nat} {st3 : PanelState} {text : String} {ctx : Ctx}
    {acts : List Action} {st' : ProfileStore} {cache' : ExtCache}
    (h : scanAndMerge true extractName oracle parseDate now st3.profiles
        st3.extCache (some text) = (some (ctx, acts), st', cache')) :
    scanApply extractName oracle parseDate now st3 text
      = (if st3.currentCard.isNone ∧ truthy (secGet ctx.insurance "carrier") then
          match getCachedCard (scanApplyHold st3 ctx st' cache').cardCache
              (cacheKeyFromIdentifiers (some ctx.patientName) none
                (match secGet ctx.insurance "carrier" with
                 | .str s => some s | _ => none)) with
          | some e => { scanApplyHold st3 ctx st' cache' with
              currentCard := some e.card
              cardFromCache := true }
          | none => scanApplyHold st3 ctx st' cache'
        else scanApplyHold st3 ctx st' cache') := by
  unfold scanApply
  rw [h]

/-- The scan-and-apply phase started from an empty extraction cache: cached
results are named by this text, a newly held context lowers to this text's
identity, a newly held card came from the card cache, and other subjects'
stored profiles are untouched. -/
theorem scanApply_props (extractName : String → Option String)
    (oracle : String → Option ParsedLLM) (parseDate : String → Option Int)
    (now : Nat) (st3 : PanelState) (text : String)
    (hcache : st3.extCache = []) (hwk : wellKeyed st3.profiles)
    (hsmall : st3.profiles.length < 100) :
    (∀ p ∈ (scanApply extractName oracle parseDate now st3 text).extCache,
        extractName text = some p.2.patientName)
    ∧ (∀ ctx, (scanApply extractName oracle parseDate now st3 text).currentCtx
          = some ctx →
        st3.currentCtx = some ctx
        ∨ ∃ name, extractName text = some name
            ∧ toLowerJS ctx.patientName = toLowerJS name)
    ∧ (∀ card, (scanApply extractName oracle parseDate now st3 text).currentCard
          = some card →
        st3.currentCard = some card
        ∨ ∃ k e, alookup st3.cardCache k = some e ∧ card = e.card)
    ∧ (∀ κ, (∀ name, extractName text = some name → κ ≠ toLowerJS name) →
        alookup (scanApply extractName oracle parseDate now st3 text).profiles κ
          = alookup st3.profiles κ) := by
  rcases hsm : scanAndMerge true extractName oracle parseDate now st3.profiles
      st3.extCache (some text) with ⟨out, pstore', cache'⟩
  have hsm0 := hsm
  rw [hcache] at hsm0
  obtain ⟨hc, ho, hpres⟩ := scanAndMerge_emptyCache hwk hsmall hsm0
  cases out with
  | none =>
      rw [scanApply_none hsm]
      exact ⟨fun p h' => hc p h', fun ctx h' => Or.inl h',
        fun card h' => Or.inl h', fun κ h' => hpres κ h'⟩
  | some v =>
      obtain ⟨ctx, acts⟩ := v
      rw [scanApply_some hsm]
      refine ⟨?_, ?_, ?_, ?_⟩
      · intro p
        split
        · split
          · intro h'
            exact hc p h'
          · intro h'
            exact hc p h'
        · intro h'
          exact hc p h'
      · intro ctx'
        have hname := ho ctx acts rfl
        split
        · split
          · intro h'
            obtain ⟨name, hn, hl⟩ := hname
            exact Or.inr ⟨name, hn, (Option.some.inj h') ▸ hl⟩
          · intro h'
            obtain ⟨name, hn, hl⟩ := hname
            exact Or.inr ⟨name, hn, (Option.some.inj h') ▸ hl⟩
        · intro h'
          obtain ⟨name, hn, hl⟩ := hname
          exact Or.inr ⟨name, hn, (Option.some.inj h') ▸ hl⟩
      · intro card
        split
        · split
          · rename_i e heq
            intro h'
            obtain ⟨k, hk⟩ := getCachedCard_some heq
            exact Or.inr ⟨k, e, hk, (Option.some.inj h').symm⟩
          · intro h'
            exact Or.inl h'
        · intro h'
          exact Or.inl h'
      · intro κ hκ
        split
        · split
          · exact hpres κ hκ
          · exact hpres κ hκ
        · exact hpres κ hκ

/-- Under the subject-switch hypotheses, `scanStep` takes the switch branch
and runs the scan from the cleared state. -/
theorem scanStep_switch {extractName : String → Option String}
    (oracle : String → Option ParsedLLM) (parseDate : String → Option Int)
    (now : Nat) {st : PanelState} {text : String} {nA nB : String}
    (hguard : ¬ text.length < 50)
    (hname : extractName text = some nB)
    (hlast : st.lastPatientName = some nA)
    (hdiff : toLowerJS nB ≠ toLowerJS nA) :
    scanStep extractName oracle parseDate now st text
      = scanApply extractName oracle parseDate now
          (cardLookupPhase
            { switchClear st with lastPatientName := some nB } (some nB)) text := by
  unfold scanStep
  rw [if_neg hguard]
  simp only [hname, hlast]
  rw [if_pos (show (toLowerJS nB != toLowerJS nA) = true from bne_iff_ne.mpr hdiff)]
  rfl

/-- **C3** (confirmed).  Subject-switch isolation: when the newly extracted
identity `nB` differs case-insensitively from the tracked subject `nA`, the
switch branch clears the held profile context, the held benefit-card
reference, and the hash-keyed extraction cache; after the step, every cached
extraction result and every held context belong to `nB` (extracted from the
new page itself, so a result requested for `nA` can never be served from the
cleared cache nor merged into `nB`'s profile), any held card was re-fetched
from the persistent card cache, and no stored profile other than `nB`'s
changes. -/
theorem claim_C3_subject_switch_isolation
    (extractName : String → Option String) (oracle : String → Option ParsedLLM)
    (parseDate : String → Option Int) (now : Nat) (st : PanelState)
    (text : String) (nA nB : String)
    (hlen : 50 ≤ text.length)
    (hname : extractName text = some nB)
    (hlast : st.lastPatientName = some nA)
    (hdiff : toLowerJS nB ≠ toLowerJS nA)
    (hwk : wellKeyed st.profiles)
    (hsmall : st.profiles.length < 100) :
    ((switchClear st).currentCtx = none ∧ (switchClear st).currentCard = none
      ∧ (switchClear st).extCache = [])
    ∧ (∀ p ∈ (scanStep extractName oracle parseDate now st text).extCache,
        p.2.patientName = nB)
    ∧ (∀ ctx,
        (scanStep extractName oracle parseDate now st text).currentCtx = some ctx →
        toLowerJS ctx.patientName = toLowerJS nB)
    ∧ (∀ card,
        (scanStep extractName oracle parseDate now st text).currentCard = some card →
        ∃ k e, alookup st.cardCache k = some e ∧ card = e.card)
    ∧ (∀ κ, κ ≠ toLowerJS nB →
        alookup (scanStep extractName oracle parseDate now st text).profiles κ
          = alookup st.profiles κ) := by
  have hguard : ¬ text.length < 50 := by omega
  have hstep := scanStep_switch oracle parseDate now hguard hname hlast hdiff
  obtain ⟨f1, f2, f3, f4, f5⟩ := cardLookupPhase_fields
    { switchClear st with lastPatientName := some nB } (some nB)
  have hp3 : (cardLookupPhase { switchClear st with lastPatientName := some nB }
      (some nB)).profiles = st.profiles := f1
  have he3 : (cardLookupPhase { switchClear st with lastPatientName := some nB }
      (some nB)).extCache = [] := f2
  have hc3 : (cardLookupPhase { switchClear st with lastPatientName := some nB }
      (some nB)).cardCache = st.cardCache := f3
  have hx3 : (cardLookupPhase { switchClear st with lastPatientName := some nB }
      (some nB)).currentCtx = none := f4
  have hwk3 : wellKeyed (cardLookupPhase
      { switchClear st with lastPatientName := some nB } (some nB)).profiles := by
    rw [hp3]
    exact hwk
  have hsm3 : (cardLookupPhase { switchClear st with lastPatientName := some nB }
      (some nB)).profiles.length < 100 := by
    rw [hp3]
    exact hsmall
  obtain ⟨g1, g2, g3, g4⟩ := scanApply_props extractName oracle parseDate now
    (cardLookupPhase { switchClear st with lastPatientName := some nB } (some nB))
    text he3 hwk3 hsm3
  refine ⟨⟨rfl, rfl, rfl⟩, ?_, ?_, ?_, ?_⟩
  · intro p hp'
    rw [hstep] at hp'
    have hnp := g1 p hp'
    rw [hname] at hnp
    exact (Option.some.inj hnp).symm
  · intro ctx h'
    rw [hstep] at h'
    rcases g2 ctx h' with h0 | ⟨name, hn, hl⟩
    · rw [hx3] at h0
      exact Option.noConfusion h0
    · rw [hname] at hn
      rw [hl, ← Option.some.inj hn]
  · intro card h'
    rw [hstep] at h'
    rcases g3 card h' with h0 | ⟨k, e, hk, he'⟩
    · rcases f5 with f5a | ⟨k, e, hk, he'⟩
      · rw [f5a] at h0
        exact Option.noConfusion h0
      · rw [he'] at h0
        refine ⟨k, e, hk, (Option.some.inj h0).symm⟩
    · rw [hc3] at hk
      exact ⟨k, e, hk, he'⟩
  · intro κ hκ
    rw [hstep]
    have hgot := g4 κ fun name hn => by
      rw [hname] at hn
      rw [← Option.some.inj hn]
      exact hκ
    rw [hp3] at hgot
    exact hgot

/-- Witness for C3: from `stW_C3` (tracking "Alice") a scan of `textW_C3`
(identifying "Bob") satisfies the switch hypotheses, and the claim theorem's
conclusions hold at those inputs. -/
theorem claim_C3_subject_switch_isolation_witness :
    (50 ≤ textW_C3.length ∧ toLowerJS "Bob" ≠ toLowerJS "Alice"
      ∧ stW_C3.profiles.length < 100)
    ∧ (((switchClear stW_C3).currentCtx = none
        ∧ (switchClear stW_C3).currentCard = none
        ∧ (switchClear stW_C3).extCache = [])
      ∧ (∀ p ∈ (scanStep (fun _ => some "Bob") (fun _ => none) (fun _ => none) 7
            stW_C3 textW_C3).extCache, p.2.patientName = "Bob")
      ∧ (∀ ctx, (scanStep (fun _ => some "Bob") (fun _ => none) (fun _ => none) 7
            stW_C3 textW_C3).currentCtx = some ctx →
          toLowerJS ctx.patientName = toLowerJS "Bob")
      ∧ (∀ card, (scanStep (fun _ => some "Bob") (fun _ => none) (fun _ => none) 7
            stW_C3 textW_C3).currentCard = some card →
          ∃ k e, alookup stW_C3.cardCache k = some e ∧ card = e.card)
      ∧ (∀ κ, κ ≠ toLowerJS "Bob" →
          alookup (scanStep (fun _ => some "Bob") (fun _ => none) (fun _ => none) 7
              stW_C3 textW_C3).profiles κ
            = alookup stW_C3.profiles κ)) :=
  ⟨⟨by decide, by decide, by decide⟩,
    claim_C3_subject_switch_isolation (fun _ => some "Bob") (fun _ => none)
      (fun _ => none) 7 stW_C3 textW_C3 "Alice" "Bob" (by decide) rfl rfl
      (by decide) (fun κ c h => Option.noConfusion h) (by decide)⟩

/-! ### The graceful-fallback claim -/

/-- `scanAndMerge` with no extractor present always takes the regex path. -/
theorem scanAndMerge_false {extractName : String → Option String}
    {oracle : String → Option ParsedLLM} {parseDate : String → Option Int}
    {now : Nat} {pstore : ProfileStore} {cache : ExtCache} {text : String}
    (h100 : ¬ text.length < 100) :
    scanAndMerge false extractName oracle parseDate now pstore cache (some text)
      = ((regexFallback extractName parseDate now pstore text).1,
         (regexFallback extractName parseDate now pstore text).2, cache) := by
  simp only [scanAndMerge]
  rw [if_neg h100, if_neg Bool.false_ne_true]

/-- Every section the fallback can detect comes from the `SECTIONS` marker
table. -/
theorem detectVisibleSections_sub (t : List Char) :
    detectVisibleSections t ⊆ SECTIONS_MARKERS.map Prod.fst := by
  intro x hx
  unfold detectVisibleSections at hx
  rw [List.mem_map] at hx
  obtain ⟨p, hp, hx⟩ := hx
  rw [List.mem_filter] at hp
  exact hx ▸ List.mem_map_of_mem Prod.fst hp.1

/-- **C7** (corrected).  Graceful fallback: when the extractor is absent, or
present but failing (no key, network error, unparseable response — all the
cases in which `extract` returns no result), `scanAndMerge` does not fail but
runs the deterministic `_regexFallback`, which succeeds whenever a patient
identity is extractable; however the fallback's section universe is the
seven-entry `SECTIONS` marker table — `profile`, `insurance`, `billing`,
`recare`, `charting`, `forms`, `perio` — NOT the nine-section set claimed
(see `claim_C7_counterexample`: neither path handles `claims`, and
`appointments` is merged only by the LLM path). -/
theorem claim_C7_graceful_fallback :
    (∀ (extractName : String → Option String)
        (oracle : String → Option ParsedLLM) (parseDate : String → Option Int)
        (now : Nat) (pstore : ProfileStore) (cache : ExtCache) (text : String),
      ¬ text.length < 100 →
      scanAndMerge false extractName oracle parseDate now pstore cache (some text)
        = ((regexFallback extractName parseDate now pstore text).1,
           (regexFallback extractName parseDate now pstore text).2, cache))
    ∧ (∀ (extractName : String → Option String)
        (oracle : String → Option ParsedLLM) (parseDate : String → Option Int)
        (now : Nat) (pstore : ProfileStore) (cache : ExtCache) (text : String)
        (excache : ExtCache),
      ¬ text.length < 100 →
      extract extractName oracle cache text = (none, excache) →
      scanAndMerge true extractName oracle parseDate now pstore cache (some text)
        = ((regexFallback extractName parseDate now pstore text).1,
           (regexFallback extractName parseDate now pstore text).2, excache))
    ∧ (∀ (extractName : String → Option String) (parseDate : String → Option Int)
        (now : Nat) (pstore : ProfileStore) (text : String) (name : String),
      extractName text = some name →
      ∃ ctx acts, regexFallback extractName parseDate now pstore text
        = (some (ctx, acts), save pstore ctx))
    ∧ (SECTIONS_MARKERS.map Prod.fst
        = ["profile", "insurance", "billing", "recare", "charting", "forms",
           "perio"]
      ∧ ∀ t, detectVisibleSections t ⊆ SECTIONS_MARKERS.map Prod.fst) := by
  refine ⟨?_, ?_, ?_, by decide, detectVisibleSections_sub⟩
  · intro extractName oracle parseDate now pstore cache text h100
    exact scanAndMerge_false h100
  · intro extractName oracle parseDate now pstore cache text excache h100 hex
    exact scanAndMerge_true_ext_none h100 hex
  · intro extractName parseDate now pstore text name hen
    unfold regexFallback
    rw [hen]
    exact ⟨_, _, rfl⟩

/-- Counterexample for C7 as frozen: the claimed nine-section fallback
coverage is wrong — `claims` is handled by neither path (not in the marker
table, never detectable, and its parser slot is a no-op), and `appointments`
is merged only by the LLM merge loop, not the regex fallback. -/
theorem claim_C7_counterexample :
    "claims" ∉ SECTIONS_MARKERS.map Prod.fst
    ∧ "appointments" ∉ SECTIONS_MARKERS.map Prod.fst
    ∧ "claims" ∉ MERGE_SECTIONS
    ∧ "appointments" ∈ MERGE_SECTIONS
    ∧ (∀ t, "claims" ∉ detectVisibleSections t)
    ∧ (∀ t c, runParser "claims" t c = c) := by
  refine ⟨by decide, by decide, by decide, by decide, ?_, ?_⟩
  · intro t hmem
    exact absurd (detectVisibleSections_sub t hmem) (by decide)
  · intro t c
    rfl

/-- Witness for C7: on a concrete 114-character page with a constant
identity extractor and an always-failing oracle, both fallback conclusions
and the fallback-success conclusion hold at those inputs. -/
theorem claim_C7_graceful_fallback_witness :
    (¬ textW_C7.length < 100
      ∧ extract (fun _ => some "Bob") (fun _ => none) [] textW_C7 = (none, []))
    ∧ scanAndMerge false (fun _ => some "Bob") (fun _ => none) (fun _ => none) 3
        [] [] (some textW_C7)
        = ((regexFallback (fun _ => some "Bob") (fun _ => none) 3 [] textW_C7).1,
           (regexFallback (fun _ => some "Bob") (fun _ => none) 3 [] textW_C7).2,
           [])
    ∧ scanAndMerge true (fun _ => some "Bob") (fun _ => none) (fun _ => none) 3
        [] [] (some textW_C7)
        = ((regexFallback (fun _ => some "Bob") (fun _ => none) 3 [] textW_C7).1,
           (regexFallback (fun _ => some "Bob") (fun _ => none) 3 [] textW_C7).2,
           [])
    ∧ ∃ ctx acts, regexFallback (fun _ => some "Bob") (fun _ => none) 3 [] textW_C7
        = (some (ctx, acts), save [] ctx) :=
  ⟨⟨by decide, rfl⟩,
    claim_C7_graceful_fallback.1 (fun _ => some "Bob") (fun _ => none)
      (fun _ => none) 3 [] [] textW_C7 (by decide),
    claim_C7_graceful_fallback.2.1 (fun _ => some "Bob") (fun _ => none)
      (fun _ => none) 3 [] [] textW_C7 [] (by decide) rfl,
    claim_C7_graceful_fallback.2.2.1 (fun _ => some "Bob") (fun _ => none) 3 []
      textW_C7 "Bob" rfl⟩

/-! ### The stable priority sort of `generate` -/

theorem insertByPrio_perm (x : Action) :
    ∀ l, List.Perm (insertByPrio x l) (x :: l) := by
  intro l
  induction l with
  | nil => exact List.Perm.refl _
  | cons y ys ih =>
      rw [insertByPrio]
      split
      · exact List.Perm.refl _
      · exact (ih.cons y).trans (List.Perm.swap x y ys)

theorem sortActions_perm : ∀ l, List.Perm (sortActions l) l := by
  intro l
  induction l with
  | nil => exact List.Perm.refl _
  | cons x xs ih => exact (insertByPrio_perm x (sortActions xs)).trans (ih.cons x)

theorem insertByPrio_sorted (x : Action) :
    ∀ l, List.Sorted (fun a b : Action => a.priority ≤ b.priority) l →
      List.Sorted (fun a b : Action => a.priority ≤ b.priority) (insertByPrio x l) := by
  intro l
  induction l with
  | nil =>
      intro _
      simp [insertByPrio]
  | cons y ys ih =>
      intro h
      rw [List.sorted_cons] at h
      obtain ⟨hy, hys⟩ := h
      rw [insertByPrio]
      split
      · rename_i hxy
        rw [List.sorted_cons]
        refine ⟨?_, ?_⟩
        · intro b hb
          rcases List.mem_cons.1 hb with hb | hb
          · exact hb ▸ hxy
          · exact Nat.le_trans hxy (hy b hb)
        · rw [List.sorted_cons]
          exact ⟨hy, hys⟩
      · rename_i hxy
        rw [List.sorted_cons]
        refine ⟨?_, ih hys⟩
        intro b hb
        have hb' := (insertByPrio_perm x ys).mem_iff.1 hb
        rcases List.mem_cons.1 hb' with hb' | hb'
        · subst hb'
          omega
        · exact hy b hb'

theorem sortActions_sorted :
    ∀ l, List.Sorted (fun a b : Action => a.priority ≤ b.priority)
      (sortActions l) := by
  intro l
  induction l with
  | nil => simp [sortActions]
  | cons x xs ih => exact insertByPrio_sorted x (sortActions xs) ih

theorem insertByPrio_filter_eq (x : Action) (p : Nat) (hx : x.priority = p) :
    ∀ l, (insertByPrio x l).filter (fun a => a.priority == p)
      = x :: l.filter (fun a => a.priority == p) := by
  intro l
  induction l with
  | nil => simp [insertByPrio, List.filter, hx]
  | cons y ys ih =>
      rw [insertByPrio]
      split
      · simp [List.filter_cons, hx]
      · rename_i hxy
        have hyp : (y.priority == p) = false := by
          simp only [beq_eq_false_iff_ne, ne_eq]
          omega
        simp [List.filter_cons, hyp, ih]

theorem insertByPrio_filter_ne (x : Action) (p : Nat) (hx : x.priority ≠ p) :
    ∀ l, (insertByPrio x l).filter (fun a => a.priority == p)
      = l.filter (fun a => a.priority == p) := by
  intro l
  have hxf : (x.priority == p) = false := by simp [hx]
  induction l with
  | nil => simp [insertByPrio, List.filter, hxf]
  | cons y ys ih =>
      rw [insertByPrio]
      split
      · simp [List.filter_cons, hxf]
      · simp [List.filter_cons, ih]

/-- The insertion sort is stable: at each priority level it preserves the
input's order. -/
theorem sortActions_filter (p : Nat) :
    ∀ l, (sortActions l).filter (fun a => a.priority == p)
      = l.filter (fun a => a.priority == p) := by
  intro l
  induction l with
  | nil => rfl
  | cons x xs ih =>
      show (insertByPrio x (sortActions xs)).filter (fun a => a.priority == p)
        = (x :: xs).filter (fun a => a.priority == p)
      by_cases hx : x.priority = p
      · rw [insertByPrio_filter_eq x p hx, ih, List.filter_cons]
        simp [hx]
      · rw [insertByPrio_filter_ne x p hx, ih, List.filter_cons]
        simp [hx]

/-- **C8** (confirmed).  For every profile and optional benefit card,
`generate` returns a list whose `priority` values are non-decreasing; at
every priority level the output preserves the order in which the rules fired
(`generateRaw`); the output is a permutation of the fired rules (nothing
added or dropped by the sort); and two calls on an unmodified profile — same
clock and same date parser, since the model makes `Date.now()` and
`_parseLooseDate` explicit parameters — return deeply equal lists. -/
theorem claim_C8_action_order_determinism
    (parseDate : String → Option Int) (now : Int) (ctx : Ctx)
    (benefitCard : Option Card) :
    List.Sorted (fun a b : Action => a.priority ≤ b.priority)
      (generate parseDate now ctx benefitCard)
    ∧ (∀ p, (generate parseDate now ctx benefitCard).filter
          (fun a => a.priority == p)
        = (generateRaw parseDate now ctx benefitCard).filter
            (fun a => a.priority == p))
    ∧ List.Perm (generate parseDate now ctx benefitCard)
        (generateRaw parseDate now ctx benefitCard)
    ∧ generate parseDate now ctx benefitCard
        = generate parseDate now ctx benefitCard :=
  ⟨sortActions_sorted _,
    fun p => sortActions_filter p _,
    sortActions_perm _,
    rfl⟩

/-- **C9** (confirmed).  Zero-coverage scenario: for the profile `ctxW_C9`
(insurance section containing only `carrier = null`, today's appointment
carrying the one code `D1110`) and the benefit card `cardW_C9` (whose
coverage table maps `D1110`'s category row to 0%), `generate` — for every
clock value and date parser, neither of which this scenario reads — includes
exactly one CRITICAL-priority (priority 1) action referencing `D1110`,
namely "D1110 not covered".  (The profile also triggers the unrelated
"No insurance on file" critical, which does not reference the code.) -/
theorem claim_C9_zero_coverage_scenario
    (parseDate : String → Option Int) (now : Int) :
    secGet ctxW_C9.insurance "carrier" = Json.null
    ∧ getCoverage "D1110" cardW_C9 = some 0
    ∧ ((generate parseDate now ctxW_C9 (some cardW_C9)).filter
        (fun a => a.priority == 1 && hasSub (jsString a.title) "D1110")).length = 1
    ∧ ((generate parseDate now ctxW_C9 (some cardW_C9)).filter
        (fun a => a.priority == 1 && hasSub (jsString a.title) "D1110")).map
          (fun a => jsString a.title) = ["D1110 not covered"] :=
  ⟨rfl, rfl, rfl, rfl⟩

/-! ### Hash normalisation: every match consumes at least one character -/

theorem skipWsL_length_le (l : List Char) : (skipWsL l).length ≤ l.length := by
  unfold skipWsL
  induction l with
  | nil => simp
  | cons c cs ih =>
      rw [List.dropWhile_cons]
      split
      · simp only [List.length_cons]
        omega
      · simp

theorem matchAmPm_shrinks {l r : List Char} (h : matchAmPm l = some r) :
    r.length < l.length := by
  cases l with
  | nil => simp [matchAmPm] at h
  | cons c1 t =>
      cases t with
      | nil => simp [matchAmPm] at h
      | cons c2 rest =>
          simp only [matchAmPm] at h
          split at h
          · obtain rfl := Option.some.inj h
            simp only [List.length_cons]
            omega
          · simp at h

theorem matchMinAmPm_shrinks {l r : List Char} (h : matchMinAmPm l = some r) :
    r.length < l.length := by
  cases l with
  | nil => simp [matchMinAmPm] at h
  | cons d1 t =>
      cases t with
      | nil => simp [matchMinAmPm] at h
      | cons d2 rest =>
          simp only [matchMinAmPm] at h
          split at h
          · have h1 := matchAmPm_shrinks h
            have h2 : (skipWsL rest).length ≤ rest.length :=
              skipWsL_length_le rest
            simp only [List.length_cons]
            omega
          · simp at h

theorem matchTime_shrinks {l r : List Char} (h : matchTime l = some r) :
    r.length < l.length := by
  cases l with
  | nil => simp [matchTime] at h
  | cons c1 t =>
      cases t with
      | nil => simp [matchTime] at h
      | cons c2 rest =>
          simp only [matchTime] at h
          split at h
          · have := matchMinAmPm_shrinks h
            simp only [List.length_cons]
            omega
          · split at h
            · split at h
              · rename_i rest2
                have := matchMinAmPm_shrinks h
                simp only [List.length_cons]
                omega
              · simp at h
            · simp at h

theorem matchSlashNum_shrinks {l r : List Char} (h : matchSlashNum l = some r) :
    r.length < l.length := by
  cases l with
  | nil => simp [matchSlashNum] at h
  | cons c1 t =>
      cases t with
      | nil => simp [matchSlashNum] at h
      | cons c2 rest =>
          simp only [matchSlashNum] at h
          split at h
          · obtain rfl := Option.some.inj h
            simp only [List.length_cons]
            omega
          · split at h
            · split at h
              · rename_i rest2
                obtain rfl := Option.some.inj h
                simp only [List.length_cons]
                omega
              · simp at h
            · simp at h

theorem matchYear_shrinks {l r : List Char} (h : matchYear l = some r) :
    r.length < l.length := by
  cases l with
  | nil => simp [matchYear] at h
  | cons c1 t =>
      cases t with
      | nil => simp [matchYear] at h
      | cons c2 rest =>
          simp only [matchYear] at h
          split at h
          · split at h
            · rename_i c3 rest3
              split at h
              · split at h
                · rename_i c4 rest4
                  split at h
                  · obtain rfl := Option.some.inj h
                    simp only [List.length_cons]
                    omega
                  · obtain rfl := Option.some.inj h
                    simp only [List.length_cons]
                    omega
                · obtain rfl := Option.some.inj h
                  simp only [List.length_cons, List.length_nil]
                  omega
              · obtain rfl := Option.some.inj h
                simp only [List.length_cons]
                omega
            · obtain rfl := Option.some.inj h
              simp only [List.length_cons, List.length_nil]
              omega
          · simp at h

theorem matchDate_shrinks {l r : List Char} (h : matchDate l = some r) :
    r.length < l.length := by
  unfold matchDate at h
  cases h1 : matchSlashNum l with
  | none => rw [h1] at h; simp at h
  | some r1 =>
      rw [h1] at h
      simp only [Option.bind] at h
      cases h2 : matchSlashNum r1 with
      | none => rw [h2] at h; simp at h
      | some r2 =>
          rw [h2] at h
          simp only [Option.bind] at h
          have s1 := matchSlashNum_shrinks h1
          have s2 := matchSlashNum_shrinks h2
          have s3 := matchYear_shrinks h
          omega

/-! ### Fuel irrelevance of the global replaces -/

theorem replTimes_congr :
    ∀ (n f1 f2 : Nat) (l : List Char), l.length ≤ n → l.length ≤ f1 →
      l.length ≤ f2 → replTimes f1 l = replTimes f2 l := by
  intro n
  induction n with
  | zero =>
      intro f1 f2 l hn _ _
      have hl : l = [] := List.length_eq_zero.mp (Nat.le_zero.mp hn)
      subst hl
      cases f1 <;> cases f2 <;> rfl
  | succ n ih =>
      intro f1 f2 l hn h1 h2
      cases l with
      | nil => cases f1 <;> cases f2 <;> rfl
      | cons c cs =>
          simp only [List.length_cons] at hn h1 h2
          cases f1 with
          | zero => omega
          | succ g1 =>
              cases f2 with
              | zero => omega
              | succ g2 =>
                  simp only [replTimes]
                  cases hm : matchTime (c :: cs) with
                  | some rem =>
                      simp only [hm]
                      have hs := matchTime_shrinks hm
                      simp only [List.length_cons] at hs
                      rw [ih g1 g2 rem (by omega) (by omega) (by omega)]
                  | none =>
                      simp only [hm]
                      rw [ih g1 g2 cs (by omega) (by omega) (by omega)]

theorem replTimes_fuel {f1 f2 : Nat} (l : List Char) (h1 : l.length ≤ f1)
    (h2 : l.length ≤ f2) : replTimes f1 l = replTimes f2 l :=
  replTimes_congr l.length f1 f2 l le_rfl h1 h2

theorem replDates_congr :
    ∀ (n f1 f2 : Nat) (l : List Char), l.length ≤ n → l.length ≤ f1 →
      l.length ≤ f2 → replDates f1 l = replDates f2 l := by
  intro n
  induction n with
  | zero =>
      intro f1 f2 l hn _ _
      have hl : l = [] := List.length_eq_zero.mp (Nat.le_zero.mp hn)
      subst hl
      cases f1 <;> cases f2 <;> rfl
  | succ n ih =>
      intro f1 f2 l hn h1 h2
      cases l with
      | nil => cases f1 <;> cases f2 <;> rfl
      | cons c cs =>
          simp only [List.length_cons] at hn h1 h2
          cases f1 with
          | zero => omega
          | succ g1 =>
              cases f2 with
              | zero => omega
              | succ g2 =>
                  simp only [replDates]
                  cases hm : matchDate (c :: cs) with
                  | some rem =>
                      simp only [hm]
                      have hs := matchDate_shrinks hm
                      simp only [List.length_cons] at hs
                      rw [ih g1 g2 rem (by omega) (by omega) (by omega)]
                  | none =>
                      simp only [hm]
                      rw [ih g1 g2 cs (by omega) (by omega) (by omega)]

theorem replDates_fuel {f1 f2 : Nat} (l : List Char) (h1 : l.length ≤ f1)
    (h2 : l.length ≤ f2) : replDates f1 l = replDates f2 l :=
  replDates_congr l.length f1 f2 l le_rfl h1 h2

/-! ### Where matches cannot start -/

theorem matchTime_nonDigit {c : Char} (hc : ¬ c.isDigit) (xs : List Char) :
    matchTime (c :: xs) = none := by
  cases xs with
  | nil => rfl
  | cons c2 rest =>
      simp only [matchTime]
      rw [if_neg (fun h => hc h.1), if_neg (fun h => hc h.1)]

theorem matchSlashNum_nonDigit {c : Char} (hc : ¬ c.isDigit) (xs : List Char) :
    matchSlashNum (c :: xs) = none := by
  cases xs with
  | nil => rfl
  | cons c2 rest =>
      simp only [matchSlashNum]
      rw [if_neg (fun h => hc h.1), if_neg (fun h => hc h.1)]

theorem matchDate_nonDigit {c : Char} (hc : ¬ c.isDigit) (xs : List Char) :
    matchDate (c :: xs) = none := by
  unfold matchDate
  rw [matchSlashNum_nonDigit hc]
  rfl

/-- A time match fails when the second character is neither `:` nor a
digit. -/
theorem matchTime_none_nd (c1 c2 : Char) (rest : List Char) (h2 : c2 ≠ ':')
    (h2' : ¬ c2.isDigit) : matchTime (c1 :: c2 :: rest) = none := by
  simp only [matchTime]
  rw [if_neg (fun h => h2 h.2), if_neg (fun h => h2' h.2)]

/-- A time match fails when neither the second nor the third character is
`:`. -/
theorem matchTime_none_nc (c1 c2 : Char) (rest : List Char) (h2 : c2 ≠ ':')
    (h3 : ∀ r0 rs, rest = r0 :: rs → r0 ≠ ':') :
    matchTime (c1 :: c2 :: rest) = none := by
  simp only [matchTime]
  rw [if_neg (fun h => h2 h.2)]
  split
  · cases rest with
    | nil => rfl
    | cons r0 rs =>
        split
        · rename_i rest2 heq
          injection heq with ha hb
          exact absurd ha (h3 r0 rs rfl)
        · rfl
  · rfl

/-! ### Exact matches at token starts -/

theorem skipWsL_append {ws : List Char} (hws : ws.all jsWs = true) {c : Char}
    (hc : jsWs c = false) (r : List Char) :
    skipWsL (ws ++ c :: r) = c :: r := by
  induction ws with
  | nil => simp [skipWsL, List.dropWhile_cons, hc]
  | cons w ws' ih =>
      simp only [List.all_cons, Bool.and_eq_true] at hws
      simp only [List.cons_append, skipWsL, List.dropWhile_cons, hws.1, if_true]
      exact ih hws.2

theorem digit_ne_colon {c : Char} (hc : c.isDigit = true) : c ≠ ':' := by
  intro he
  rw [he] at hc
  exact absurd hc (by decide)

theorem digit_ne_slash {c : Char} (hc : c.isDigit = true) : c ≠ '/' := by
  intro he
  rw [he] at hc
  exact absurd hc (by decide)

/-- A well-formed time token matches exactly, whatever follows. -/
theorem matchTime_render {t : TimeTok} (ht : t.okB = true) (r : List Char) :
    matchTime (t.render ++ r) = some r := by
  obtain ⟨hd, m1, m2, ws, mer1, mer2⟩ := t
  simp only [TimeTok.okB, Bool.and_eq_true, Bool.or_eq_true, beq_iff_eq] at ht
  obtain ⟨⟨⟨⟨⟨hlen, hdig⟩, hm1⟩, hm2⟩, hws⟩, hmer⟩ := ht
  have hmer' : (mer1 = 'A' ∧ mer2 = 'M') ∨ (mer1 = 'P' ∧ mer2 = 'M')
      ∨ (mer1 = 'a' ∧ mer2 = 'm') ∨ (mer1 = 'p' ∧ mer2 = 'm') := by tauto
  have hmer1 : jsWs mer1 = false := by
    rcases hmer' with ⟨h, -⟩ | ⟨h, -⟩ | ⟨h, -⟩ | ⟨h, -⟩ <;> rw [h] <;> decide
  have hmm : matchAmPm (skipWsL (ws ++ mer1 :: mer2 :: r)) = some r := by
    rw [show ws ++ mer1 :: mer2 :: r = ws ++ mer1 :: (mer2 :: r) from rfl,
      skipWsL_append hws hmer1]
    simp only [matchAmPm]
    rw [if_pos hmer']
  have hmin : matchMinAmPm (m1 :: m2 :: (ws ++ mer1 :: mer2 :: r)) = some r := by
    simp only [matchMinAmPm]
    rw [if_pos ⟨hm1, hm2⟩]
    exact hmm
  rcases hlen with h1 | h2
  · obtain ⟨a, rfl⟩ := List.length_eq_one.mp h1
    simp only [List.all_cons, List.all_nil, Bool.and_eq_true] at hdig
    simp only [TimeTok.render, List.cons_append, List.nil_append,
      List.append_assoc]
    simp only [matchTime]
    rw [if_pos ⟨hdig.1, trivial⟩]
    simpa using hmin
  · obtain ⟨a, b, rfl⟩ := List.length_eq_two.mp h2
    simp only [List.all_cons, List.all_nil, Bool.and_eq_true] at hdig
    simp only [TimeTok.render, List.cons_append, List.nil_append,
      List.append_assoc]
    simp only [matchTime]
    rw [if_neg (fun h => digit_ne_colon hdig.2.1 h.2), if_pos ⟨hdig.1, hdig.2.1⟩]
    simpa using hmin

/-- A 1–2-digit group followed by a slash matches exactly. -/
theorem matchSlashNum_render {ds : List Char}
    (hlen : ds.length = 1 ∨ ds.length = 2) (hdig : ds.all Char.isDigit = true)
    (r : List Char) : matchSlashNum (ds ++ '/' :: r) = some r := by
  rcases hlen with h1 | h2
  · obtain ⟨a, rfl⟩ := List.length_eq_one.mp h1
    simp only [List.all_cons, List.all_nil, Bool.and_eq_true] at hdig
    simp only [List.cons_append, List.nil_append, matchSlashNum]
    rw [if_pos ⟨hdig.1, trivial⟩]
  · obtain ⟨a, b, rfl⟩ := List.length_eq_two.mp h2
    simp only [List.all_cons, List.all_nil, Bool.and_eq_true] at hdig
    simp only [List.cons_append, List.nil_append, matchSlashNum]
    rw [if_neg (fun h => digit_ne_slash hdig.2.1 h.2), if_pos ⟨hdig.1, hdig.2.1⟩]

/-- A 2–4-digit year matches exactly when not followed by a digit. -/
theorem matchYear_render {y : List Char}
    (hlen : y.length = 2 ∨ y.length = 3 ∨ y.length = 4)
    (hdig : y.all Char.isDigit = true) (r : List Char)
    (hr : ∀ c cs, r = c :: cs → c.isDigit = false) :
    matchYear (y ++ r) = some r := by
  rcases hlen with h2 | h3 | h4
  · obtain ⟨a, b, rfl⟩ := List.length_eq_two.mp h2
    simp only [List.all_cons, List.all_nil, Bool.and_eq_true] at hdig
    simp only [List.cons_append, List.nil_append, matchYear]
    rw [if_pos ⟨hdig.1, hdig.2.1⟩]
    cases r with
    | nil => rfl
    | cons c cs =>
        have hc := hr c cs rfl
        simp [hc]
  · obtain ⟨a, b, c3, rfl⟩ := List.length_eq_three.mp h3
    simp only [List.all_cons, List.all_nil, Bool.and_eq_true] at hdig
    simp only [List.cons_append, List.nil_append, matchYear]
    rw [if_pos ⟨hdig.1, hdig.2.1⟩, if_pos hdig.2.2.1]
    cases r with
    | nil => rfl
    | cons c cs =>
        have hc := hr c cs rfl
        simp [hc]
  · obtain ⟨a, b, c3, d4, rfl⟩ : ∃ a b c3 d4, y = [a, b, c3, d4] := by
      cases y with
      | nil => simp at h4
      | cons a t1 =>
          cases t1 with
          | nil => simp at h4
          | cons b t2 =>
              cases t2 with
              | nil => simp at h4
              | cons c3 t3 =>
                  cases t3 with
                  | nil => simp at h4
                  | cons d4 t4 =>
                      cases t4 with
                      | nil => exact ⟨a, b, c3, d4, rfl⟩
                      | cons e t5 =>
                          simp only [List.length_cons] at h4
                          omega
    simp only [List.all_cons, List.all_nil, Bool.and_eq_true] at hdig
    simp only [List.cons_append, List.nil_append, matchYear]
    rw [if_pos ⟨hdig.1, hdig.2.1⟩, if_pos hdig.2.2.1, if_pos hdig.2.2.2.1]

/-- A well-formed date token followed by a non-digit matches exactly. -/
theorem matchDate_render {d : DateTok} (hd : d.okB = true) (r : List Char)
    (hr : ∀ c cs, r = c :: cs → c.isDigit = false) :
    matchDate (d.render ++ r) = some r := by
  obtain ⟨d1, d2, y⟩ := d
  simp only [DateTok.okB, Bool.and_eq_true, Bool.or_eq_true, beq_iff_eq] at hd
  obtain ⟨⟨⟨⟨⟨hl1, hg1⟩, hl2⟩, hg2⟩, hly⟩, hgy⟩ := hd
  unfold matchDate DateTok.render
  rw [show (d1 ++ '/' :: (d2 ++ '/' :: y)) ++ r
      = d1 ++ '/' :: (d2 ++ '/' :: (y ++ r)) by simp [List.append_assoc]]
  rw [matchSlashNum_render hl1 hg1]
  simp only [Option.bind]
  rw [matchSlashNum_render hl2 hg2]
  simp only [Option.bind]
  have hly' : y.length = 2 ∨ y.length = 3 ∨ y.length = 4 := by tauto
  exact matchYear_render hly' hgy r hr

/-! ### Scanning the replaces across a template -/

/-- The time pass copies a digit-free segment verbatim. -/
theorem scanLitT :
    ∀ (l rest : List Char) (fuel : Nat), noDigits l = true →
      (l ++ rest).length ≤ fuel →
      replTimes fuel (l ++ rest) = l ++ replTimes rest.length rest := by
  intro l
  induction l with
  | nil =>
      intro rest fuel _ hf
      simp only [List.nil_append] at hf ⊢
      exact replTimes_fuel rest hf le_rfl
  | cons c l' ih =>
      intro rest fuel hnd hf
      simp only [noDigits, List.all_cons, Bool.and_eq_true] at hnd
      have hc : ¬ c.isDigit := by simpa using hnd.1
      simp only [List.cons_append, List.length_cons] at hf ⊢
      cases fuel with
      | zero => omega
      | succ g =>
          simp only [replTimes, matchTime_nonDigit hc (l' ++ rest)]
          rw [ih rest g hnd.2 (by omega)]

/-- The time pass erases a well-formed time token and moves on. -/
theorem replTimes_token {t : TimeTok} {rest : List Char} {fuel : Nat}
    (ht : t.okB = true) (hf : (t.render ++ rest).length ≤ fuel) :
    replTimes fuel (t.render ++ rest)
      = 'T' :: 'I' :: 'M' :: 'E' :: replTimes rest.length rest := by
  obtain ⟨c, cr, hc⟩ : ∃ c cr, t.render = c :: cr := by
    cases hhd : t.hd with
    | nil =>
        exact ⟨':', t.m1 :: t.m2 :: (t.ws ++ [t.mer1, t.mer2]),
          by simp [TimeTok.render, hhd]⟩
    | cons a l =>
        exact ⟨a, l ++ ':' :: t.m1 :: t.m2 :: (t.ws ++ [t.mer1, t.mer2]),
          by simp [TimeTok.render, hhd]⟩
  rw [hc, List.cons_append] at hf ⊢
  simp only [List.length_cons, List.length_append] at hf
  cases fuel with
  | zero => omega
  | succ g =>
      simp only [replTimes]
      have hm : matchTime (c :: (cr ++ rest)) = some rest := by
        rw [← List.cons_append, ← hc]
        exact matchTime_render ht rest
      simp only [hm]
      rw [replTimes_fuel rest (by omega) le_rfl]

/-- The head of a list made of digit/slash characters, followed by a
continuation that opens with neither a digit nor a colon, starts no time
match — so the time pass copies a date render verbatim. -/
theorem scanSlashSegT :
    ∀ (seg rest : List Char) (fuel : Nat),
      (∀ c ∈ seg, c.isDigit = true ∨ c = '/') →
      (∀ r0 rs, rest = r0 :: rs → r0.isDigit = false ∧ r0 ≠ ':') →
      (seg ++ rest).length ≤ fuel →
      replTimes fuel (seg ++ rest) = seg ++ replTimes rest.length rest := by
  intro seg
  induction seg with
  | nil =>
      intro rest fuel _ _ hf
      simp only [List.nil_append] at hf ⊢
      exact replTimes_fuel rest hf le_rfl
  | cons c seg' ih =>
      intro rest fuel hseg hsafe hf
      have hm : matchTime (c :: (seg' ++ rest)) = none := by
        rcases hseg c (List.mem_cons_self c seg') with hcd | hcs
        · -- c is a digit: look at the next characters
          cases seg' with
          | nil =>
              cases rest with
              | nil => rfl
              | cons r0 rs =>
                  obtain ⟨h0, h0'⟩ := hsafe r0 rs rfl
                  exact matchTime_none_nd c r0 rs h0' (by simp [h0])
          | cons c2 seg'' =>
              have hc2 : c2 ≠ ':' := by
                rcases hseg c2 (List.mem_cons_of_mem c (List.mem_cons_self c2 seg'')) with h | h
                · exact digit_ne_colon h
                · rw [h]
                  decide
              refine matchTime_none_nc c c2 (seg'' ++ rest) hc2 ?_
              intro r0 rs heq
              cases seg'' with
              | nil =>
                  simp only [List.nil_append] at heq
                  exact (hsafe r0 rs heq).2
              | cons c3 s3 =>
                  simp only [List.cons_append] at heq
                  injection heq with h3 h4
                  rcases hseg c3 (List.mem_cons_of_mem c
                    (List.mem_cons_of_mem c2 (List.mem_cons_self c3 s3))) with h | h
                  · exact h3 ▸ digit_ne_colon h
                  · rw [← h3, h]
                    decide
        · -- c is a slash
          have : ¬ c.isDigit := by
            rw [hcs]
            decide
          exact matchTime_nonDigit this _
      simp only [List.cons_append, List.length_cons] at hf ⊢
      cases fuel with
      | zero => omega
      | succ g =>
          simp only [replTimes, hm]
          rw [ih rest g (fun c' hc' => hseg c' (List.mem_cons_of_mem c hc'))
            hsafe (by omega)]

/-- The date pass copies a digit-free segment verbatim. -/
theorem scanLitD :
    ∀ (l rest : List Char) (fuel : Nat), noDigits l = true →
      (l ++ rest).length ≤ fuel →
      replDates fuel (l ++ rest) = l ++ replDates rest.length rest := by
  intro l
  induction l with
  | nil =>
      intro rest fuel _ hf
      simp only [List.nil_append] at hf ⊢
      exact replDates_fuel rest hf le_rfl
  | cons c l' ih =>
      intro rest fuel hnd hf
      simp only [noDigits, List.all_cons, Bool.and_eq_true] at hnd
      have hc : ¬ c.isDigit := by simpa using hnd.1
      simp only [List.cons_append, List.length_cons] at hf ⊢
      cases fuel with
      | zero => omega
      | succ g =>
          simp only [replDates, matchDate_nonDigit hc (l' ++ rest)]
          rw [ih rest g hnd.2 (by omega)]

/-- The date pass erases a well-formed date token that is not followed by a
digit, and moves on. -/
theorem replDates_token {d : DateTok} {rest : List Char} {fuel : Nat}
    (hd : d.okB = true)
    (hr : ∀ c cs, rest = c :: cs → c.isDigit = false)
    (hf : (d.render ++ rest).length ≤ fuel) :
    replDates fuel (d.render ++ rest)
      = 'D' :: 'A' :: 'T' :: 'E' :: replDates rest.length rest := by
  obtain ⟨c, cr, hc⟩ : ∃ c cr, d.render = c :: cr := by
    cases hd1 : d.d1 with
    | nil =>
        exact ⟨'/', d.d2 ++ '/' :: d.y, by simp [DateTok.render, hd1]⟩
    | cons a l =>
        exact ⟨a, l ++ '/' :: (d.d2 ++ '/' :: d.y),
          by simp [DateTok.render, hd1]⟩
  rw [hc, List.cons_append] at hf ⊢
  simp only [List.length_cons, List.length_append] at hf
  cases fuel with
  | zero => omega
  | succ g =>
      simp only [replDates]
      have hm : matchDate (c :: (cr ++ rest)) = some rest := by
        rw [← List.cons_append, ← hc]
        exact matchDate_render hd rest hr
      simp only [hm]
      rw [replDates_fuel rest (by omega) le_rfl]

/-! ### The two normalisation passes on a well-formed template -/

theorem dateRender_chars {d : DateTok} (hd : d.okB = true) :
    ∀ c ∈ d.render, c.isDigit = true ∨ c = '/' := by
  obtain ⟨d1, d2, y⟩ := d
  simp only [DateTok.okB, Bool.and_eq_true, Bool.or_eq_true, beq_iff_eq] at hd
  obtain ⟨⟨⟨⟨⟨hl1, hg1⟩, hl2⟩, hg2⟩, hly⟩, hgy⟩ := hd
  intro c hc
  simp only [DateTok.render, List.mem_append, List.mem_cons] at hc
  rcases hc with h | h | h | h | h
  · exact Or.inl (by simpa using List.all_eq_true.mp hg1 c h)
  · exact Or.inr h
  · exact Or.inl (by simpa using List.all_eq_true.mp hg2 c h)
  · exact Or.inr h
  · exact Or.inl (by simpa using List.all_eq_true.mp hgy c h)

/-- What `dateSepOk` buys: the text after a date token opens with a
non-digit, non-colon character (or is empty). -/
theorem dateSep_safe {ps : List Piece} (hsep : dateSepOk ps = true)
    (hwf : wfPieces ps = true) :
    ∀ r0 rs, renderPieces ps = r0 :: rs → r0.isDigit = false ∧ r0 ≠ ':' := by
  intro r0 rs heq
  cases ps with
  | nil => simp [renderPieces] at heq
  | cons p ps' =>
      cases p with
      | lit l =>
          cases l with
          | nil => simp [dateSepOk] at hsep
          | cons c l' =>
              simp only [wfPieces, Bool.and_eq_true, noDigits, List.all_cons] at hwf
              simp only [renderPieces, List.cons_append] at heq
              injection heq with h1 h2
              subst h1
              constructor
              · simpa using hwf.1.1
              · simpa [dateSepOk] using hsep
      | time t => simp [dateSepOk] at hsep
      | date d2 => simp [dateSepOk] at hsep

theorem pass1_main : ∀ ps, wfPieces ps = true →
    replTimes (renderPieces ps).length (renderPieces ps)
      = renderPieces (pass1 ps) := by
  intro ps
  induction ps with
  | nil => intro _; rfl
  | cons p ps' ih =>
      intro hwf
      cases p with
      | lit l =>
          simp only [wfPieces, Bool.and_eq_true] at hwf
          show replTimes (l ++ renderPieces ps').length (l ++ renderPieces ps')
            = l ++ renderPieces (pass1 ps')
          rw [scanLitT l (renderPieces ps') _ hwf.1 le_rfl, ih hwf.2]
      | time t =>
          simp only [wfPieces, Bool.and_eq_true] at hwf
          show replTimes (t.render ++ renderPieces ps').length
              (t.render ++ renderPieces ps')
            = ['T', 'I', 'M', 'E'] ++ renderPieces (pass1 ps')
          rw [replTimes_token hwf.1 le_rfl, ih hwf.2]
          rfl
      | date d =>
          simp only [wfPieces, Bool.and_eq_true] at hwf
          obtain ⟨⟨h1, h2⟩, h3⟩ := hwf
          show replTimes (d.render ++ renderPieces ps').length
              (d.render ++ renderPieces ps')
            = d.render ++ renderPieces (pass1 ps')
          rw [scanSlashSegT d.render (renderPieces ps') _ (dateRender_chars h1)
            (dateSep_safe h2 h3) le_rfl, ih h3]

theorem wf_pass1 : ∀ ps, wfPieces ps = true → wfPieces (pass1 ps) = true := by
  intro ps
  induction ps with
  | nil => intro _; rfl
  | cons p ps' ih =>
      intro hwf
      cases p with
      | lit l =>
          simp only [wfPieces, Bool.and_eq_true] at hwf
          simp only [pass1, wfPieces, Bool.and_eq_true]
          exact ⟨hwf.1, ih hwf.2⟩
      | time t =>
          simp only [wfPieces, Bool.and_eq_true] at hwf
          simp only [pass1, wfPieces, Bool.and_eq_true]
          exact ⟨by decide, ih hwf.2⟩
      | date d =>
          simp only [wfPieces, Bool.and_eq_true] at hwf
          obtain ⟨⟨h1, h2⟩, h3⟩ := hwf
          simp only [pass1, wfPieces, Bool.and_eq_true]
          refine ⟨⟨h1, ?_⟩, ih h3⟩
          cases ps' with
          | nil => rfl
          | cons q qs =>
              cases q with
              | lit l =>
                  cases l with
                  | nil => simp [dateSepOk] at h2
                  | cons c l' => exact h2
              | time t2 => simp [dateSepOk] at h2
              | date d2 => simp [dateSepOk] at h2

theorem pass1_noTimes : ∀ ps, noTimes (pass1 ps) = true := by
  intro ps
  induction ps with
  | nil => rfl
  | cons p ps' ih =>
      cases p with
      | lit l => exact ih
      | time t => exact ih
      | date d => exact ih

theorem pass2_main : ∀ ps, wfPieces ps = true → noTimes ps = true →
    replDates (renderPieces ps).length (renderPieces ps)
      = renderPieces (pass2 ps) := by
  intro ps
  induction ps with
  | nil => intro _ _; rfl
  | cons p ps' ih =>
      intro hwf hnt
      cases p with
      | lit l =>
          simp only [wfPieces, Bool.and_eq_true] at hwf
          show replDates (l ++ renderPieces ps').length (l ++ renderPieces ps')
            = l ++ renderPieces (pass2 ps')
          rw [scanLitD l (renderPieces ps') _ hwf.1 le_rfl, ih hwf.2 hnt]
      | time t => simp [noTimes] at hnt
      | date d =>
          simp only [wfPieces, Bool.and_eq_true] at hwf
          obtain ⟨⟨h1, h2⟩, h3⟩ := hwf
          show replDates (d.render ++ renderPieces ps').length
              (d.render ++ renderPieces ps')
            = ['D', 'A', 'T', 'E'] ++ renderPieces (pass2 ps')
          rw [replDates_token h1
            (fun c cs hcc => (dateSep_safe h2 h3 c cs hcc).1) le_rfl,
            ih h3 hnt]
          rfl

theorem pass2_pass1_skeleton : ∀ ps, pass2 (pass1 ps) = skeleton ps := by
  intro ps
  induction ps with
  | nil => rfl
  | cons p ps' ih =>
      cases p with
      | lit l =>
          simp only [pass1, pass2, skeleton]
          rw [ih]
      | time t =>
          simp only [pass1, pass2, skeleton]
          rw [ih]
      | date d =>
          simp only [pass1, pass2, skeleton]
          rw [ih]

/-- On a well-formed template, `_hashText`'s normalisation depends only on
the token-independent skeleton. -/
theorem hashText_skeleton {ps : List Piece} (hwf : wfPieces ps = true) :
    hashText ⟨renderPieces ps⟩
      = ⟨(trimChars (collapseWsGo false (renderPieces (skeleton ps)))).map
          Char.toLower⟩ := by
  show (⟨(trimChars (collapseWsGo false (replDates
        (replTimes (renderPieces ps).length (renderPieces ps)).length
        (replTimes (renderPieces ps).length (renderPieces ps))))).map
      Char.toLower⟩ : String) = _
  rw [pass1_main ps hwf,
    pass2_main (pass1 ps) (wf_pass1 ps hwf) (pass1_noTimes ps),
    pass2_pass1_skeleton]

/-- **C5** (corrected).  Hash stability: two texts that differ only in their
clock-time / calendar-date tokens — i.e. instantiations of a common template
with the same skeleton — produce identical `_hashText` digests, *provided*
the tokens are delimited (`wfPieces`: the shared literals carry no digits,
and each date token is followed by end-of-text or a literal opening with a
non-colon character).  Without the delimiting proviso the guarantee fails —
see `claim_C5_counterexample`, where a digit immediately before the token
fuses into the match and shifts its boundary.  Over the fixed test corpus
`corpusC5`, texts differing in other tokens hash pairwise differently. -/
theorem claim_C5_hash_stability (ps qs : List Piece)
    (hp : wfPieces ps = true) (hq : wfPieces qs = true)
    (hskel : skeleton ps = skeleton qs) :
    hashText ⟨renderPieces ps⟩ = hashText ⟨renderPieces qs⟩
    ∧ List.Pairwise (fun a b => hashText a ≠ hashText b) corpusC5 := by
  refine ⟨?_, by decide⟩
  rw [hashText_skeleton hp, hashText_skeleton hq, hskel]

/-- Counterexample for C5 as frozen: `"5" ++ "1:23pm"` and
`"5" ++ "11:45am"` differ only in a well-formed clock-time token, yet hash
differently — the literal digit `5` fuses with the token's hour digits, so
the first text's match swallows the `5` (`TIME`) while the second's does not
(`5TIME`). -/
theorem claim_C5_counterexample :
    tokCEa_C5.okB = true ∧ tokCEb_C5.okB = true
    ∧ skeleton [Piece.lit ['5'], Piece.time tokCEa_C5]
        = skeleton [Piece.lit ['5'], Piece.time tokCEb_C5]
    ∧ (⟨renderPieces [Piece.lit ['5'], Piece.time tokCEa_C5]⟩ : String)
        = "51:23pm"
    ∧ (⟨renderPieces [Piece.lit ['5'], Piece.time tokCEb_C5]⟩ : String)
        = "511:45am"
    ∧ hashText "51:23pm" ≠ hashText "511:45am" := by
  exact ⟨by decide, by decide, rfl, rfl, rfl, by decide⟩

/-- Witness for C5: the two concrete templates `psW_C5` / `qsW_C5`
("seen at ⟨time⟩ on ⟨date⟩ ok" with different times and dates) satisfy the
delimiting conditions and share a skeleton, and the claim theorem's
conclusions hold there. -/
theorem claim_C5_hash_stability_witness :
    (wfPieces psW_C5 = true ∧ wfPieces qsW_C5 = true
      ∧ skeleton psW_C5 = skeleton qsW_C5)
    ∧ (hashText ⟨renderPieces psW_C5⟩ = hashText ⟨renderPieces qsW_C5⟩
      ∧ List.Pairwise (fun a b => hashText a ≠ hashText b) corpusC5) :=
  ⟨⟨by decide, by decide, rfl⟩,
    claim_C5_hash_stability psW_C5 qsW_C5 (by decide) (by decide) rfl⟩

/-- Witness for C4: a trace with an arrival during a scan, plus the two step
facts at concrete states. -/
theorem claim_C4_serialized_coalesced_witness :
    ((schedRun [SchedEvent.arrive "t1", SchedEvent.arrive "t2",
        SchedEvent.complete]).running.length ≤ 1
      ∧ ((schedRun [SchedEvent.arrive "t1", SchedEvent.arrive "t2",
          SchedEvent.complete]).isScanning = true
        ↔ (schedRun [SchedEvent.arrive "t1", SchedEvent.arrive "t2",
            SchedEvent.complete]).running ≠ []))
    ∧ schedStep ⟨true, none, ["t1"], []⟩ (.arrive "t2")
        = ⟨true, some "t2", ["t1"], []⟩
    ∧ schedStep ⟨true, some "q", ["t1"], []⟩ .complete
        = ⟨true, none, ["q"], ["t1"]⟩ := by
  refine ⟨claim_C4_serialized_coalesced.1 _, ?_, ?_⟩
  · have := claim_C4_serialized_coalesced.2.1 ⟨true, none, ["t1"], []⟩ "t2" rfl
    simpa using this
  · have := claim_C4_serialized_coalesced.2.2
      ⟨true, some "q", ["t1"], []⟩ "t1" [] "q" rfl rfl
    simpa using this

end PracticePilot
